import Mathlib

/-!
# workerpool: a goroutine pool (src/workerpool/pool.go, src/workerpool/option.go)

The pool is embedded as a labelled transition system. Every goroutine of the
program (the caller of `New`, the controller `run`, each worker started by
`newWorker`, each re-offer goroutine started by `returnTask`, each caller of
`Schedule` and of `Free`) is a small program counter; one transition is one
synchronisation operation of the source (a channel operation, a `select`, a
`sync.WaitGroup` operation, a `go` statement).

Channel semantics follow the Go runtime:

* `tasks` is unbuffered. A send or receive that arrives while a counterpart is
  parked on the channel completes with it; otherwise it parks. A `select`
  picks any case that can proceed; `default` (or parking) only when none can.
* `active` is buffered with `cap = capacity`; the state keeps `len(active)`.
  A receive that arrives while the controller is parked sending on the full
  channel hands the freed slot straight to the controller.
* `quit` is only ever closed. Closing wakes every goroutine parked in a
  `select` with a `<-p.quit` case, and commits it to that case.

Tasks are opaque: a task is identified by the index of the `Schedule` call
that submitted it, and a running task may at any time complete, panic with a
value that `recover()` reports (`taskPanic`), or end its goroutine so that
`recover()` returns nil (`taskGoexit`: `runtime.Goexit()`, and `panic(nil)`
before Go 1.21).
`Schedule` and `Free` can be called by any goroutine, at any time after `New`
has returned.

Where several goroutines are parked on `p.tasks`, the model lets the arriving
counterpart complete with any of them (the runtime serves them first come,
first served). The checks of `sync.WaitGroup` against misuse are not modelled;
they can only end an execution early.
-/

namespace workerpool

/-- The two errors of pool.go: `ErrNoIdleWorkerInPool`, `ErrWorkerPoolFreed`. -/
inductive SchedError where
  | ErrNoIdleWorkerInPool
  | ErrWorkerPoolFreed
  deriving DecidableEq, Repr

def defaultCapacity : Int := 100

def maxCapacity : Int := 10000

/-- The configuration fields of `Pool`; `activeCap` is `cap(p.active)`. The
channels, the wait group and the goroutines live in `State`. -/
structure Pool where
  capacity : Int
  preAlloc : Bool
  block : Bool
  activeCap : Int
  deriving DecidableEq, Repr

/-- The values of `type Option func(*Pool)` that option.go can build. -/
inductive PoolOption where
  | WithBlock (block : Bool)
  | WithPreAllocWorkers (preAlloc : Bool)
  deriving DecidableEq, Repr

def PoolOption.apply : PoolOption → Pool → Pool
  | .WithBlock b, p => { p with block := b }
  | .WithPreAllocWorkers b, p => { p with preAlloc := b }

/-- The sequential head of `New` (pool.go 38-57): clamp the capacity, build
the pool, apply the options in order. The rest of `New` (the pre-allocation loop
and `go p.run()`) is the `ctor*` transitions below. -/
def New (capacity : Int) (opts : List PoolOption) : Pool :=
  let capacity := if capacity ≤ 0 then defaultCapacity else capacity
  let capacity := if capacity > maxCapacity then maxCapacity else capacity
  let p : Pool :=
    { capacity := capacity, preAlloc := false, block := true, activeCap := capacity }
  opts.foldl (fun p opt => opt.apply p) p

/-- Progress of the caller of `New` through pool.go 62-72. -/
inductive CtorSt where
  /-- at the loop test with `i` workers spawned and `i` slots taken -/
  | loop (i : Nat)
  /-- after `p.newWorker(i + 1)`, before `p.active <- struct{}{}` -/
  | acq (i : Nat)
  /-- after `go p.run()`: `New` has returned -/
  | done
  deriving DecidableEq, Repr

/-- Program counter of the controller goroutine `run` (pool.go 83-120). -/
inductive CtrlSt where
  | notStarted
  /-- started, before `idx := len(p.active)` -/
  | entry
  /-- arriving at `for t := range p.tasks` -/
  | rangeRecv
  /-- parked receiving on `p.tasks` -/
  | rangeParked
  /-- received `t`, before `p.returnTask(t)` -/
  | got (t : Nat)
  /-- arriving at the select of the lazy loop (94-104) -/
  | lazySelect
  /-- arriving at the select of the main loop (111-118) -/
  | mainSelect
  /-- parked in the select of the main loop -/
  | mainParked
  /-- `p.active <- struct{}{}` done, before `idx++; p.newWorker(idx)`;
  the flag tells whether this is the lazy loop -/
  | acquired (isLazy : Bool)
  | exited
  deriving DecidableEq, Repr

/-- Program counter of a worker goroutine (pool.go 125-149). -/
inductive WorkerSt where
  /-- arriving at the select (138-147) -/
  | start
  /-- parked in the select -/
  | parked
  /-- inside `t()` -/
  | exec (t : Nat)
  /-- `case <-p.quit` taken, before `<-p.active` (142) -/
  | quitting
  /-- `recover()` returned a non-nil value, before `<-p.active` (130) -/
  | panicked
  /-- slot released, before `p.wg.Done()` (132) -/
  | released
  | dead
  /-- `t()` ended the goroutine and `recover()` returned nil (128): the worker
  skips `<-p.active` and is before `p.wg.Done()` (132) -/
  | unwound
  /-- terminated without `<-p.active`: its slot stays taken -/
  | leaked
  deriving DecidableEq, Repr

/-- Program counter of a goroutine started by `returnTask` (pool.go 77-79). -/
inductive SendSt where
  /-- arriving at `p.tasks <- t` -/
  | arriving (t : Nat)
  /-- parked in `p.tasks <- t` -/
  | parked (t : Nat)
  | done (t : Nat)
  deriving DecidableEq, Repr

/-- A call of `Schedule` (pool.go 154-167), after its select has run. -/
inductive CallSt where
  | retErr (e : SchedError)
  | retNil
  /-- in the `default` branch with `p.block`, arriving at `p.tasks <- t` -/
  | blocking
  /-- parked in `p.tasks <- t` (162) -/
  | blocked
  deriving DecidableEq, Repr

/-- The call of `Free` (pool.go 173-177). -/
inductive FreeSt where
  | notCalled
  /-- `close(p.quit)` done, in `p.wg.Wait()` -/
  | waiting
  | returned
  deriving DecidableEq, Repr

structure State where
  ctor : CtorSt
  /-- whether `p.quit` is closed -/
  quit : Bool
  /-- `len(p.active)` -/
  active : Nat
  /-- the counter of `p.wg` -/
  wg : Int
  /-- the local `idx` of `run` -/
  idx : Nat
  ctrl : CtrlSt
  /-- every worker ever spawned, in spawn order -/
  workers : List WorkerSt
  /-- every goroutine ever started by `returnTask` -/
  reoffers : List SendSt
  /-- every call of `Schedule`; call `i` submits task `i` -/
  calls : List CallSt
  free : FreeSt
  /-- `(worker, task)` for every task a worker received, in order -/
  log : List (Nat × Nat)
  /-- an unrecovered panic (a second `close(p.quit)`) ended the program -/
  crashed : Bool
  deriving DecidableEq, Repr

/-- The state in which `New` reaches line 62. -/
def init : State :=
  { ctor := .loop 0, quit := false, active := 0, wg := 0, idx := 0, ctrl := .notStarted,
    workers := [], reoffers := [], calls := [], free := .notCalled, log := [],
    crashed := false }

/-- A goroutine that can be parked sending on `p.tasks`. -/
inductive Sender where
  | call (i : Nat)
  | reoffer (j : Nat)
  deriving DecidableEq, Repr

/-- A goroutine that can be parked receiving on `p.tasks`. -/
inductive Receiver where
  | worker (w : Nat)
  | ctrl
  deriving DecidableEq, Repr

/-- Outcome of a select of `run`: `dflt` is the `default` case of the lazy
select, and parking for the main select, which has none. -/
inductive CtrlCase where
  | quit
  | acquire
  | dflt
  deriving DecidableEq, Repr

/-- Outcome of the select of a worker. -/
inductive WorkerCase where
  | quit
  | recv (x : Sender)
  | park
  deriving DecidableEq, Repr

/-- Outcome of the select of `Schedule`. -/
inductive SchedCase where
  | quit
  | send (r : Receiver)
  | dflt
  deriving DecidableEq, Repr

inductive Action where
  | ctorSpawn
  | ctorAcquire
  | ctorRun
  | ctrlEnter
  | ctrlRange (x : Option Sender)
  | ctrlReturnTask
  | ctrlSelect (c : CtrlCase)
  | ctrlSpawn
  | workerSelect (w : Nat) (c : WorkerCase)
  | taskDone (w : Nat)
  | taskPanic (w : Nat)
  | taskGoexit (w : Nat)
  | workerRelease (w : Nat)
  | workerDone (w : Nat)
  | schedule (c : SchedCase)
  | sendArrive (x : Sender) (r : Option Receiver)
  | freeClose
  | freeWait
  deriving DecidableEq, Repr

def WorkerSt.isParked : WorkerSt → Bool
  | .parked => true
  | _ => false

def CallSt.isBlocked : CallSt → Bool
  | .blocked => true
  | _ => false

def SendSt.isParked : SendSt → Bool
  | .parked _ => true
  | _ => false

def CtrlSt.isRangeParked : CtrlSt → Bool
  | .rangeParked => true
  | _ => false

/-- Some goroutine is parked sending on `p.tasks`. -/
def hasParkedSender (s : State) : Bool :=
  s.calls.any CallSt.isBlocked || s.reoffers.any SendSt.isParked

/-- Some goroutine is parked receiving on `p.tasks`. -/
def hasParkedReceiver (s : State) : Bool :=
  s.workers.any WorkerSt.isParked || s.ctrl.isRangeParked

/-- The synchronous part of `newWorker` (pool.go 124-125): `p.wg.Add(1)`, then
the `go` statement. -/
def newWorker (s : State) : State :=
  { s with wg := s.wg + 1, workers := s.workers ++ [.start] }

/-- Start the goroutine of `returnTask` (pool.go 76-80). -/
def returnTask (t : Nat) (s : State) : State :=
  { s with reoffers := s.reoffers ++ [.arriving t] }

/-- Complete the send of the parked sender `x`: its task and the state in
which `x` has moved on. -/
def collect (x : Sender) (s : State) : Option (Nat × State) :=
  match x with
  | .call i =>
    match s.calls[i]? with
    | some .blocked => some (i, { s with calls := s.calls.set i .retNil })
    | _ => none
  | .reoffer j =>
    match s.reoffers[j]? with
    | some (.parked t) => some (t, { s with reoffers := s.reoffers.set j (.done t) })
    | _ => none

/-- Complete the receive of the parked receiver `r` with task `t`. A worker
goes on to run `t()` (pool.go 144-146). -/
def deliver (r : Receiver) (t : Nat) (s : State) : Option State :=
  match r with
  | .worker w =>
    match s.workers[w]? with
    | some .parked =>
      some { s with workers := s.workers.set w (.exec t), log := s.log ++ [(w, t)] }
    | _ => none
  | .ctrl =>
    match s.ctrl with
    | .rangeParked => some { s with ctrl := .got t }
    | _ => none

/-- What `close(p.quit)` does to a worker: a parked one takes `case <-p.quit`. -/
def WorkerSt.wake : WorkerSt → WorkerSt
  | .parked => .quitting
  | w => w

/-- What `close(p.quit)` does to `run`: parked in the main select it returns. -/
def CtrlSt.wake : CtrlSt → CtrlSt
  | .mainParked => .exited
  | c => c

/-- The select of `run`, lazy (pool.go 94-104) or main (111-118). -/
def runSelect (p : Pool) (s : State) (isLazy : Bool) (c : CtrlCase) : Option State :=
  match c with
  | .quit => if s.quit then some { s with ctrl := .exited } else none
  | .acquire =>
    if (s.active : Int) < p.activeCap then
      some { s with active := s.active + 1, ctrl := .acquired isLazy }
    else none
  | .dflt =>
    if s.quit || decide ((s.active : Int) < p.activeCap) then none
    else some { s with ctrl := if isLazy then .mainSelect else .mainParked }

/-- The select of `Schedule` (pool.go 155-166), run by a new call that submits
task `s.calls.length`. -/
def Schedule (p : Pool) (s : State) (c : SchedCase) : Option State :=
  match c with
  | .quit =>
    if s.quit then some { s with calls := s.calls ++ [.retErr .ErrWorkerPoolFreed] } else none
  | .send r =>
    (deliver r s.calls.length s).map fun s1 => { s1 with calls := s1.calls ++ [.retNil] }
  | .dflt =>
    if s.quit || hasParkedReceiver s then none
    else if p.block then some { s with calls := s.calls ++ [.blocking] }
    else some { s with calls := s.calls ++ [.retErr .ErrNoIdleWorkerInPool] }

/-- One transition of the pool; `none` when the action cannot run in `s`. -/
def step (p : Pool) (s : State) (a : Action) : Option State :=
  if s.crashed then none else
  match a with
  | .ctorSpawn =>
    match s.ctor with
    | .loop i =>
      if p.preAlloc && decide ((i : Int) < p.capacity) then
        some { newWorker s with ctor := .acq i }
      else none
    | _ => none
  | .ctorAcquire =>
    match s.ctor with
    | .acq i =>
      if (s.active : Int) < p.activeCap then
        some { s with active := s.active + 1, ctor := .loop (i + 1) }
      else none
    | _ => none
  | .ctorRun =>
    match s.ctor with
    | .loop i =>
      if p.preAlloc && decide ((i : Int) < p.capacity) then none
      else some { s with ctor := .done, ctrl := .entry }
    | _ => none
  | .ctrlEnter =>
    match s.ctrl with
    | .entry =>
      some { s with idx := s.active, ctrl := if p.preAlloc then .mainSelect else .rangeRecv }
    | _ => none
  | .ctrlRange x =>
    match s.ctrl with
    | .rangeRecv =>
      match x with
      | none => if hasParkedSender s then none else some { s with ctrl := .rangeParked }
      | some x => (collect x s).map fun ts => { ts.2 with ctrl := .got ts.1 }
    | _ => none
  | .ctrlReturnTask =>
    match s.ctrl with
    | .got t => some { returnTask t s with ctrl := .lazySelect }
    | _ => none
  | .ctrlSelect c =>
    match s.ctrl with
    | .lazySelect => runSelect p s true c
    | .mainSelect => runSelect p s false c
    | _ => none
  | .ctrlSpawn =>
    match s.ctrl with
    | .acquired isLazy =>
      some { newWorker s with
        idx := s.idx + 1, ctrl := if isLazy then .rangeRecv else .mainSelect }
    | _ => none
  | .workerSelect w c =>
    match s.workers[w]? with
    | some .start =>
      match c with
      | .quit => if s.quit then some { s with workers := s.workers.set w .quitting } else none
      | .recv x =>
        (collect x s).map fun ts =>
          { ts.2 with workers := ts.2.workers.set w (.exec ts.1), log := ts.2.log ++ [(w, ts.1)] }
      | .park =>
        if s.quit || hasParkedSender s then none
        else some { s with workers := s.workers.set w .parked }
    | _ => none
  | .taskDone w =>
    match s.workers[w]? with
    | some (.exec _) => some { s with workers := s.workers.set w .start }
    | _ => none
  | .taskPanic w =>
    match s.workers[w]? with
    | some (.exec _) => some { s with workers := s.workers.set w .panicked }
    | _ => none
  | .taskGoexit w =>
    match s.workers[w]? with
    | some (.exec _) => some { s with workers := s.workers.set w .unwound }
    | _ => none
  | .workerRelease w =>
    if s.active = 0 then none else
    match s.workers[w]?, s.ctrl with
    | some .quitting, .mainParked | some .panicked, .mainParked =>
      some { s with workers := s.workers.set w .released, ctrl := .acquired false }
    | some .quitting, _ | some .panicked, _ =>
      some { s with workers := s.workers.set w .released, active := s.active - 1 }
    | _, _ => none
  | .workerDone w =>
    match s.workers[w]? with
    | some .released => some { s with workers := s.workers.set w .dead, wg := s.wg - 1 }
    | some .unwound => some { s with workers := s.workers.set w .leaked, wg := s.wg - 1 }
    | _ => none
  | .schedule c =>
    match s.ctor with
    | .done => Schedule p s c
    | _ => none
  | .sendArrive x r =>
    match x with
    | .call i =>
      match s.calls[i]? with
      | some .blocking =>
        match r with
        | none =>
          if hasParkedReceiver s then none else some { s with calls := s.calls.set i .blocked }
        | some r => (deliver r i s).map fun s1 => { s1 with calls := s1.calls.set i .retNil }
      | _ => none
    | .reoffer j =>
      match s.reoffers[j]? with
      | some (.arriving t) =>
        match r with
        | none =>
          if hasParkedReceiver s then none
          else some { s with reoffers := s.reoffers.set j (.parked t) }
        | some r =>
          (deliver r t s).map fun s1 => { s1 with reoffers := s1.reoffers.set j (.done t) }
      | _ => none
  | .freeClose =>
    match s.ctor with
    | .done =>
      if s.quit then some { s with crashed := true }
      else
        some { s with
          quit := true, free := .waiting,
          workers := s.workers.map WorkerSt.wake, ctrl := s.ctrl.wake }
    | _ => none
  | .freeWait =>
    match s.free with
    | .waiting => if s.wg = 0 then some { s with free := .returned } else none
    | _ => none

/-- Run a sequence of transitions from `s`. -/
def run (p : Pool) (s : State) : List Action → Option State
  | [] => some s
  | a :: as => (step p s a).bind fun s1 => run p s1 as

/-- States of the pool `p` reachable from the start of `New`. -/
def Reachable (p : Pool) (s : State) : Prop :=
  ∃ acts : List Action, run p init acts = some s

/-! ## Measures and invariants -/

/-- The worker has not run its `<-p.active`: it occupies a slot. -/
@[simp] def WorkerSt.holdsSlot : WorkerSt → Bool
  | .start => true
  | .parked => true
  | .exec _ => true
  | .quitting => true
  | .panicked => true
  | .released => false
  | .dead => false
  | .unwound => true
  | .leaked => true

/-- The worker goroutine has not terminated: `p.wg` still counts it. -/
@[simp] def WorkerSt.isLive : WorkerSt → Bool
  | .start => true
  | .parked => true
  | .exec _ => true
  | .quitting => true
  | .panicked => true
  | .released => true
  | .dead => false
  | .unwound => true
  | .leaked => false

/-- The worker is at its select and has never left it. -/
@[simp] def WorkerSt.isFresh : WorkerSt → Bool
  | .start => true
  | .parked => true
  | .exec _ => false
  | .quitting => false
  | .panicked => false
  | .released => false
  | .dead => false
  | .unwound => false
  | .leaked => false

/-- Number of workers that occupy a slot. -/
def holding (s : State) : Nat := s.workers.countP WorkerSt.holdsSlot

/-- Number of workers that have not terminated. -/
def live (s : State) : Nat := s.workers.countP WorkerSt.isLive

/-- `run` has taken a slot for a worker it has not spawned yet. -/
@[simp] def CtrlSt.pending : CtrlSt → Nat
  | .acquired _ => 1
  | .notStarted => 0
  | .entry => 0
  | .rangeRecv => 0
  | .rangeParked => 0
  | .got _ => 0
  | .lazySelect => 0
  | .mainSelect => 0
  | .mainParked => 0
  | .exited => 0

/-- `New` has spawned a worker whose slot it has not taken yet. -/
@[simp] def CtorSt.pending : CtorSt → Nat
  | .acq _ => 1
  | .loop _ => 0
  | .done => 0

/-- Slot accounting: the slots in `active` are those of the workers that hold
one, corrected by the worker `New` or `run` is about to pair with its slot;
`p.wg` counts the workers that have not terminated; while `New` is running
nothing else has happened yet. -/
structure SlotInv (p : Pool) (s : State) : Prop where
  slots : holding s + s.ctrl.pending = s.active + s.ctor.pending
  bound : (s.active : Int) ≤ p.activeCap
  wg : s.wg = live s
  ctorLoop : ∀ i, s.ctor = .loop i → s.active = i
  ctorAcq : ∀ i, s.ctor = .acq i → s.active = i ∧ (i : Int) < p.capacity
  early : s.ctor ≠ .done → s.ctrl = .notStarted ∧ s.quit = false ∧ s.calls = [] ∧
    s.reoffers = [] ∧ s.free = .notCalled ∧ s.workers.all WorkerSt.isFresh = true

/-- Whether `run` holds task `t` (received, not yet re-offered). -/
@[simp] def CtrlSt.holds : CtrlSt → Nat → Nat
  | .got u, t => if u = t then 1 else 0
  | .notStarted, _ => 0
  | .entry, _ => 0
  | .rangeRecv, _ => 0
  | .rangeParked, _ => 0
  | .lazySelect, _ => 0
  | .mainSelect, _ => 0
  | .mainParked, _ => 0
  | .acquired _, _ => 0
  | .exited, _ => 0

/-- Whether a re-offer goroutine still holds task `t`. -/
@[simp] def SendSt.holds : SendSt → Nat → Bool
  | .arriving u, t => decide (u = t)
  | .parked u, t => decide (u = t)
  | .done _, _ => false

/-- Whether the call still holds its task. -/
@[simp] def CallSt.holds : CallSt → Nat
  | .blocking => 1
  | .blocked => 1
  | .retNil => 0
  | .retErr _ => 0

/-- Whether the call has not been refused. -/
@[simp] def CallSt.owed : CallSt → Nat
  | .blocking => 1
  | .blocked => 1
  | .retNil => 1
  | .retErr _ => 0

/-- How many times task `t` occurs in the execution log. -/
def logCount (s : State) (t : Nat) : Nat := s.log.countP fun e => decide (e.2 = t)

/-- How many re-offer goroutines still hold task `t`. -/
def reofferCount (s : State) (t : Nat) : Nat := s.reoffers.countP fun x => x.holds t

/-- Whether the caller that submitted task `t` still holds it. -/
def callHolds (s : State) (t : Nat) : Nat := (s.calls[t]?.map CallSt.holds).getD 0

/-- Whether task `t` was submitted by a call that did not return an error. -/
def owed (s : State) (t : Nat) : Nat := (s.calls[t]?.map CallSt.owed).getD 0

/-- The number of places where task `t` is: executed by a worker, held by the
controller, held by a re-offer goroutine, held by its caller. -/
def tokens (s : State) (t : Nat) : Nat :=
  logCount s t + s.ctrl.holds t + reofferCount s t + callHolds s t

/-- Every task that was not refused is in exactly one place. -/
def TokenInv (s : State) : Prop := ∀ t, tokens s t = owed s t

/-- The worker goroutine has terminated. -/
def WorkerSt.isDead : WorkerSt → Bool
  | .dead => true
  | _ => false

/-- The controller has returned and every worker has terminated: no goroutine
is left that could receive from `p.tasks`. -/
def Halted (s : State) : Prop :=
  s.ctor = .done ∧ s.ctrl = .exited ∧ s.workers.all WorkerSt.isDead = true

/-- The controller is inside the lazy loop (pool.go 88-106). -/
def CtrlSt.isLazy : CtrlSt → Bool
  | .rangeRecv => true
  | .rangeParked => true
  | .got _ => true
  | .lazySelect => true
  | .acquired true => true
  | .acquired false => false
  | .notStarted => false
  | .entry => false
  | .mainSelect => false
  | .mainParked => false
  | .exited => false

/-- What holds while no `Schedule` call has been made and `quit` is open. -/
structure QuietInv (p : Pool) (s : State) : Prop where
  fresh : s.workers.all WorkerSt.isFresh = true
  noReoffer : s.reoffers = []
  noPending : s.ctrl.pending = 0
  atLoop : ∀ i, s.ctor = .loop i → s.workers.length = i
  atAcq : ∀ i, s.ctor = .acq i → s.workers.length = i + 1
  atDone : s.ctor = .done → (s.workers.length : Int) = p.capacity

/-- The state of `New` at the loop test of pool.go 64 in round `i`. -/
def ctorState (i : Nat) : State :=
  { init with active := i, wg := i, workers := List.replicate i .start, ctor := .loop i }

/-- The transitions of `i` rounds of the loop of pool.go 64-67. -/
def ctorRounds : Nat → List Action
  | 0 => []
  | i + 1 => ctorRounds i ++ [.ctorSpawn, .ctorAcquire]

/-- Every worker that is inside `t()` has its receipt of `t` in the log. -/
def ExecLogged (s : State) : Prop :=
  ∀ (w t : Nat), s.workers[w]? = some (.exec t) → (w, t) ∈ s.log

/-- Never both: a goroutine parked sending on `p.tasks` and one parked
receiving on it. -/
def NoWaitingPair (s : State) : Prop :=
  hasParkedSender s = false ∨ hasParkedReceiver s = false

/-- The worker has not taken `case <-p.quit`. -/
def WorkerSt.notQuitting : WorkerSt → Bool
  | .quitting => false
  | _ => true

/-- While the pool runs: the controller has been started once `New` has
returned; as long as `quit` is open the controller has not returned and no
worker has taken the quit case; the controller parks in its main select only on
a full `active`. -/
structure LiveInv (p : Pool) (s : State) : Prop where
  started : s.ctor = .done → s.ctrl ≠ .notStarted
  running : s.quit = false → s.ctrl ≠ .exited ∧ s.workers.all WorkerSt.notQuitting = true
  full : s.ctrl = .mainParked → (s.active : Int) = p.activeCap

/-- Number of goroutines parked sending on `p.tasks`. -/
def parkedSenders (s : State) : Nat :=
  s.calls.countP CallSt.isBlocked + s.reoffers.countP SendSt.isParked

/-- Some continuation of `s` has a `Schedule` call, the `n`-th of the
execution, that returns nil. -/
def CanAccept (p : Pool) (s : State) (n : Nat) : Prop :=
  ∃ (acts : List Action) (s1 : State), run p s acts = some s1 ∧ s1.calls[n]? = some .retNil

/-- The worker is past its loop: it receives no task and no longer changes
`active`. -/
def WorkerSt.isGone : WorkerSt → Bool
  | .released => true
  | .dead => true
  | .unwound => true
  | .leaked => true
  | _ => false

/-- An eager pool whose slots are all taken while no worker is left in its
loop: the controller cannot take a slot, so nobody receives from `p.tasks`. -/
structure Starved (p : Pool) (s : State) : Prop where
  eager : p.preAlloc = true
  built : s.ctor = .done
  main : s.ctrl.isLazy = false
  idle : s.ctrl.pending = 0
  full : ¬ (s.active : Int) < p.activeCap
  gone : s.workers.all WorkerSt.isGone = true

/-! ### Concrete pools, schedules and states used by the witnesses -/

/-- `New(1)`: capacity 1, lazy, blocking. -/
def lazyOne : Pool := New 1 []

/-- `New(1, WithPreAllocWorkers(true))`: capacity 1, eager, blocking. -/
def eagerOne : Pool := New 1 [.WithPreAllocWorkers true]

/-- `New(1, WithBlock(false))`: capacity 1, lazy, non-blocking. -/
def lazyNonBlocking : Pool := New 1 [.WithBlock false]

/-- `New` returns, the controller parks in its main select, the worker parks,
takes task 0 from a `Schedule` call, the task panics, the worker releases its
slot (which goes straight to the parked controller), and the controller spawns
worker 1 before worker 0 has run `p.wg.Done()`. -/
def overlapTrace : List Action :=
  [.ctorSpawn, .ctorAcquire, .ctorRun, .ctrlEnter, .ctrlSelect .dflt, .workerSelect 0 .park,
    .schedule (.send (.worker 0)), .taskPanic 0, .workerRelease 0, .ctrlSpawn]

def overlapState : State :=
  { ctor := .done, quit := false, active := 1, wg := 2, idx := 2, ctrl := .mainSelect,
    workers := [.released, .start], reoffers := [], calls := [.retNil], free := .notCalled,
    log := [(0, 0)], crashed := false }

/-- `New(1)` returns, the controller parks in `for t := range p.tasks`, and
`Free` runs to completion: `close(p.quit)`, then `p.wg.Wait()` with no worker. -/
def freedLazyTrace : List Action :=
  [.ctorRun, .ctrlEnter, .ctrlRange none, .freeClose, .freeWait]

def freedLazyState : State :=
  { ctor := .done, quit := true, active := 0, wg := 0, idx := 0, ctrl := .rangeParked,
    workers := [], reoffers := [], calls := [], free := .returned, log := [],
    crashed := false }

/-- After `Schedule` has handed task 0 to the controller: the controller
re-offers it, takes a slot in its select although `quit` is closed, spawns
worker 0, and worker 0 takes the task from the re-offer goroutine. -/
def afterFreeTrace : List Action :=
  [.ctrlReturnTask, .ctrlSelect .acquire, .ctrlSpawn, .sendArrive (.reoffer 0) none,
    .workerSelect 0 (.recv (.reoffer 0))]

/-- `New(1, WithBlock(false))` returns; task 0 goes through the controller to
worker 0, which is running it; the controller is back in its range loop. -/
def saturatedTrace : List Action :=
  [.ctorRun, .ctrlEnter, .ctrlRange none, .schedule (.send .ctrl), .ctrlReturnTask,
    .ctrlSelect .acquire, .ctrlSpawn, .sendArrive (.reoffer 0) none,
    .workerSelect 0 (.recv (.reoffer 0)), .ctrlRange none]

def saturatedState : State :=
  { ctor := .done, quit := false, active := 1, wg := 1, idx := 1, ctrl := .rangeParked,
    workers := [.exec 0], reoffers := [.done 0], calls := [.retNil], free := .notCalled,
    log := [(0, 0)], crashed := false }

/-- After the saturated pool has accepted task 1: the controller re-offers it
and leaves the lazy loop, worker 0 finishes task 0 and takes task 1. -/
def retainedTrace : List Action :=
  [.ctrlReturnTask, .ctrlSelect .dflt, .sendArrive (.reoffer 1) none, .taskDone 0,
    .workerSelect 0 (.recv (.reoffer 1))]

/-- `New(1, WithPreAllocWorkers(true))`; worker 0 runs task 0; a second
`Schedule` finds nobody ready and parks in `p.tasks <- t`; `Free` is called,
worker 0 finishes, takes the quit case and exits; `Free` returns. -/
def strandedCallerTrace : List Action :=
  [.ctorSpawn, .ctorAcquire, .ctorRun, .ctrlEnter, .ctrlSelect .dflt, .workerSelect 0 .park,
    .schedule (.send (.worker 0)), .schedule .dflt, .sendArrive (.call 1) none, .freeClose,
    .taskDone 0, .workerSelect 0 .quit, .workerRelease 0, .workerDone 0, .freeWait]

def strandedCallerState : State :=
  { ctor := .done, quit := true, active := 0, wg := 0, idx := 1, ctrl := .exited,
    workers := [.dead], reoffers := [], calls := [.retNil, .blocked], free := .returned,
    log := [(0, 0)], crashed := false }

/-- `New(1)`; the controller receives task 0 from `Schedule` and re-offers it;
`Free` is called, the controller takes the quit case, `Free` returns. -/
def strandedTaskTrace : List Action :=
  [.ctorRun, .ctrlEnter, .ctrlRange none, .schedule (.send .ctrl), .ctrlReturnTask,
    .freeClose, .ctrlSelect .quit, .freeWait]

def strandedTaskState : State :=
  { ctor := .done, quit := true, active := 0, wg := 0, idx := 0, ctrl := .exited,
    workers := [], reoffers := [.arriving 0], calls := [.retNil], free := .returned,
    log := [], crashed := false }

/-- `New(1)`; the controller receives task 0, re-offers it and takes a slot;
`Free` runs to completion before the controller reaches `p.wg.Add(1)`; then the
controller spawns worker 0. -/
def lateSpawnTrace : List Action :=
  [.ctorRun, .ctrlEnter, .ctrlRange none, .schedule (.send .ctrl), .ctrlReturnTask,
    .ctrlSelect .acquire, .freeClose, .freeWait, .ctrlSpawn]

def lateSpawnState : State :=
  { ctor := .done, quit := true, active := 1, wg := 1, idx := 1, ctrl := .rangeRecv,
    workers := [.start], reoffers := [.arriving 0], calls := [.retNil], free := .returned,
    log := [], crashed := false }

/-- `New(1, WithPreAllocWorkers(true))` returns, worker 0 parks, and `Free`
closes `quit` before the controller goroutine has run. -/
def closedTrace : List Action :=
  [.ctorSpawn, .ctorAcquire, .ctorRun, .workerSelect 0 .park, .freeClose]

def closedState : State :=
  { ctor := .done, quit := true, active := 1, wg := 1, idx := 0, ctrl := .entry,
    workers := [.quitting], reoffers := [], calls := [], free := .waiting, log := [],
    crashed := false }

/-- Worker 0 releases its slot; the controller reaches its main select with
both cases ready and takes `p.active <- struct{}{}`; it spawns worker 1. -/
def respawnTrace : List Action :=
  [.workerRelease 0, .ctrlEnter, .ctrlSelect .acquire, .ctrlSpawn]

def respawnState : State :=
  { ctor := .done, quit := true, active := 1, wg := 2, idx := 1, ctrl := .mainSelect,
    workers := [.released, .start], reoffers := [], calls := [], free := .waiting, log := [],
    crashed := false }

/-- `New(1, WithPreAllocWorkers(true), WithBlock(false))`: capacity 1, eager,
non-blocking. -/
def eagerNonBlocking : Pool := New 1 [.WithPreAllocWorkers true, .WithBlock false]

/-- `New` returns, worker 0 parks and takes task 0 from a `Schedule` call. -/
def busyTrace : List Action :=
  [.ctorSpawn, .ctorAcquire, .ctorRun, .workerSelect 0 .park, .schedule (.send (.worker 0))]

def busyState : State :=
  { ctor := .done, quit := false, active := 1, wg := 1, idx := 0, ctrl := .entry,
    workers := [.exec 0], reoffers := [], calls := [.retNil], free := .notCalled,
    log := [(0, 0)], crashed := false }

/-- `New(1, WithPreAllocWorkers(true))` has just returned. -/
def eagerReadyTrace : List Action := [.ctorSpawn, .ctorAcquire, .ctorRun]

def eagerReadyState : State :=
  { ctor := .done, quit := false, active := 1, wg := 1, idx := 0, ctrl := .entry,
    workers := [.start], reoffers := [], calls := [], free := .notCalled, log := [],
    crashed := false }

/-- `New(2)`: capacity 2, lazy, blocking. -/
def lazyTwo : Pool := New 2 []

/-- `New(2)` returns and the controller parks in `for t := range p.tasks`; task
0 goes through the controller to worker 0, which runs it to completion; the
controller parks in its receive again, and then worker 0 parks in its select. -/
def idleWorkerTrace : List Action :=
  [.ctorRun, .ctrlEnter, .ctrlRange none, .schedule (.send .ctrl), .ctrlReturnTask,
    .ctrlSelect .acquire, .ctrlSpawn, .sendArrive (.reoffer 0) none,
    .workerSelect 0 (.recv (.reoffer 0)), .taskDone 0, .ctrlRange none, .workerSelect 0 .park]

def idleWorkerState : State :=
  { ctor := .done, quit := false, active := 1, wg := 1, idx := 1, ctrl := .rangeParked,
    workers := [.parked], reoffers := [.done 0], calls := [.retNil], free := .notCalled,
    log := [(0, 0)], crashed := false }

/-- The controller re-offers the task it received, takes a slot and spawns a
worker. -/
def spawnTrace : List Action := [.ctrlReturnTask, .ctrlSelect .acquire, .ctrlSpawn]

/-- `New(1)` returns, the controller is about to receive in its range loop, and
a `Schedule` call that found nobody ready is parked in `p.tasks <- t`. -/
def waitingCallerTrace : List Action :=
  [.ctorRun, .ctrlEnter, .schedule .dflt, .sendArrive (.call 0) none]

def waitingCallerState : State :=
  { ctor := .done, quit := false, active := 0, wg := 0, idx := 0, ctrl := .rangeRecv,
    workers := [], reoffers := [], calls := [.blocked], free := .notCalled, log := [],
    crashed := false }

/-- Worker 0 of `busyState` after task 0 has ended its goroutine with
`recover()` returning nil and the worker has run `p.wg.Done()`. -/
def leakedState : State :=
  { busyState with workers := [.leaked], wg := 0 }

end workerpool

/-! # tcp-server: frame codec, packets and the packet handler

(src/tcp-server/frame/frame.go, src/tcp-server/packet/packet.go,
src/tcp-server/server/main.go)

Byte slices and strings are lists of bytes (a slice has `cap = len`). A call
either returns or faults with a run-time panic; an `int32` is an `Int` kept in
range by `wrapInt32`, which is also the conversion `int32(x)`. -/

namespace golang

abbrev Byte := Fin 256

/-- The result of a call that can end in a run-time panic. -/
inductive Outcome (α : Type) where
  | ret (a : α)
  | fault
  deriving DecidableEq, Repr

/-- The byte `n mod 256`. -/
def byteOf (n : Nat) : Byte := ⟨n % 256, Nat.mod_lt n (by decide)⟩

/-- The `int32` with the same low 32 bits: `int32(x)`, and the wrap-around of
`int32` arithmetic. -/
def wrapInt32 (x : Int) : Int := (x + 2147483648) % 4294967296 - 2147483648

/-- `make([]byte, n)`: the length of the new slice, or a panic for `n < 0`. -/
def makeSlice (n : Int) : Outcome Nat :=
  if n < 0 then .fault else .ret n.toNat

/-- `s[:n]` on a slice with `cap = len`, or on a string. -/
def sliceTo (s : List Byte) (n : Nat) : Outcome (List Byte) :=
  if n ≤ s.length then .ret (s.take n) else .fault

/-- `s[n:]`. -/
def sliceFrom (s : List Byte) (n : Nat) : Outcome (List Byte) :=
  if n ≤ s.length then .ret (s.drop n) else .fault

/-- `s[i]`. -/
def index (s : List Byte) (i : Nat) : Outcome Byte :=
  match s[i]? with
  | some b => .ret b
  | none => .fault

end golang

namespace frame

open golang

/-- The errors `Encode` and `Decode` can return: `io.EOF`,
`io.ErrUnexpectedEOF`, the two errors of frame.go, and any error of the
underlying stream. -/
inductive IOError where
  | EOF
  | ErrUnexpectedEOF
  | ErrShortWrite
  | ErrShortRead
  | other (code : Nat)
  deriving DecidableEq, Repr

/-- How an input stream ends: `io.EOF`, or an error of its own. -/
inductive Closing where
  | eof
  | fails (code : Nat)
  deriving DecidableEq, Repr

/-- An `io.Reader`: the bytes still to come and what comes after them. -/
structure Reader where
  data : List Byte
  closing : Closing
  deriving DecidableEq, Repr

/-- `io.ReadFull(r, buf)` with `len(buf) = n`: the bytes copied, the error,
and the reader afterwards. The error is `io.EOF` only if no byte was read;
`buf` of length 0 reads nothing. -/
def ReadFull (r : Reader) (n : Nat) : List Byte × Option IOError × Reader :=
  if n ≤ r.data.length then (r.data.take n, none, { r with data := r.data.drop n })
  else
    match r.closing with
    | .fails code => (r.data, some (.other code), { r with data := [] })
    | .eof =>
      if r.data.length = 0 then ([], some .EOF, r)
      else (r.data, some .ErrUnexpectedEOF, { r with data := [] })

/-- The `int32` that `binary.BigEndian` reads from the bytes of a buffer. -/
def getInt32 (bs : List Byte) : Int :=
  wrapInt32 (bs.foldl (fun acc b => acc * 256 + b.val) 0 : Nat)

/-- The four bytes `binary.BigEndian` writes for an `int32`. -/
def putInt32 (v : Int) : List Byte :=
  let u := (v % 4294967296).toNat
  [byteOf (u / 16777216), byteOf (u / 65536), byteOf (u / 256), byteOf u]

/-- `binary.Read(r, binary.BigEndian, &totalLen)`: the value of `totalLen`
afterwards (still 0 after an error), the error, the reader afterwards. -/
def binaryRead (r : Reader) : Int × Option IOError × Reader :=
  match ReadFull r 4 with
  | (_, some err, r1) => (0, some err, r1)
  | (bs, none, r1) => (getInt32 bs, none, r1)

/-- `myFrameCodec.Decode` (frame.go 66-86): the payload or the error, and the
reader afterwards; a fault when `make` gets a negative length. -/
def Decode (r : Reader) : Outcome (Except IOError (List Byte) × Reader) :=
  match binaryRead r with
  | (_, some err, r1) => .ret (.error err, r1)
  | (totalLen, none, r1) =>
    match makeSlice (wrapInt32 (totalLen - 4)) with
    | .fault => .fault
    | .ret len =>
      match ReadFull r1 len with
      | (_, some err, r2) => .ret (.error err, r2)
      | (buf, none, r2) =>
        if (buf.length : Int) ≠ wrapInt32 (totalLen - 4) then .ret (.error .ErrShortRead, r2)
        else .ret (.ok buf, r2)

/-- An `io.Writer`: what it has been given so far, and how it answers a
`Write` of a chunk (bytes taken, error code), given what was written before. -/
structure Writer where
  written : List Byte
  respond : List Byte → List Byte → Nat × Option Nat

/-- `w.Write(bs)`. -/
def Writer.Write (w : Writer) (bs : List Byte) : Nat × Option IOError × Writer :=
  let res := w.respond w.written bs
  (res.1, res.2.map IOError.other, { w with written := w.written ++ bs.take res.1 })

/-- A writer that accepts every byte. -/
def accepting (written : List Byte) : Writer :=
  { written := written, respond := fun _ bs => (bs.length, none) }

/-- `binary.Write(w, binary.BigEndian, &totalLen)`. -/
def binaryWrite (w : Writer) (v : Int) : Option IOError × Writer :=
  let res := w.Write (putInt32 v)
  (res.2.1, res.2.2)

/-- `myFrameCodec.Encode` (frame.go 42-63). -/
def Encode (w : Writer) (framePayload : List Byte) : Option IOError × Writer :=
  let totalLen : Int := wrapInt32 (wrapInt32 framePayload.length + 4)
  match binaryWrite w totalLen with
  | (some err, w1) => (some err, w1)
  | (none, w1) =>
    match w1.Write framePayload with
    | (_, some err, w2) => (some err, w2)
    | (n, none, w2) =>
      if n ≠ framePayload.length then (some .ErrShortWrite, w2) else (none, w2)

end frame

namespace packet

open golang

def CommandConn : Byte := 0x01

def CommandSubmit : Byte := 0x02

def CommandConnAck : Byte := 0x81

def CommandSubmitAck : Byte := 0x82

structure Submit where
  ID : List Byte
  Payload : List Byte
  deriving DecidableEq, Repr

structure SubmitAck where
  ID : List Byte
  Result : Byte
  deriving DecidableEq, Repr

/-- A non-nil `Packet`: a `*Submit` or a `*SubmitAck`. The nil interface value
is `none : Option Packet`. -/
inductive Packet where
  | submit (s : Submit)
  | submitAck (a : SubmitAck)
  deriving DecidableEq, Repr

/-- The errors built with `fmt.Errorf` in packet.go. -/
inductive PacketError where
  | unknownCommand (commandID : Byte)
  | unknownType
  deriving DecidableEq, Repr

/-- `(*Submit).Decode` (packet.go 50-54): the receiver afterwards and the
error. -/
def Submit.Decode (s : Submit) (pktBody : List Byte) : Outcome (Submit × Option PacketError) :=
  match sliceTo pktBody 8 with
  | .fault => .fault
  | .ret id =>
    match sliceFrom pktBody 8 with
    | .fault => .fault
    | .ret rest => .ret ({ s with ID := id, Payload := rest }, none)

/-- `(*Submit).Encode` (packet.go 58-60). -/
def Submit.Encode (s : Submit) : Outcome (List Byte × Option PacketError) :=
  match sliceTo s.ID 8 with
  | .fault => .fault
  | .ret id => .ret (id ++ s.Payload, none)

/-- `(*SubmitAck).Decode` (packet.go 71-75). -/
def SubmitAck.Decode (s : SubmitAck) (pktBody : List Byte) :
    Outcome (SubmitAck × Option PacketError) :=
  match sliceTo pktBody 8 with
  | .fault => .fault
  | .ret id =>
    match index pktBody 8 with
    | .fault => .fault
    | .ret res => .ret ({ s with ID := id, Result := res }, none)

/-- `(*SubmitAck).Encode` (packet.go 79-81). -/
def SubmitAck.Encode (s : SubmitAck) : Outcome (List Byte × Option PacketError) :=
  match sliceTo s.ID 8 with
  | .fault => .fault
  | .ret id => .ret (id ++ [s.Result], none)

/-- `Decode` (packet.go 93-119); `pooled` is the object `SubmitPool.Get()`
hands out. -/
def Decode (pooled : Submit) (pkt : List Byte) : Outcome (Option Packet × Option PacketError) :=
  match index pkt 0 with
  | .fault => .fault
  | .ret commandID =>
    match sliceFrom pkt 1 with
    | .fault => .fault
    | .ret pktBody =>
      if commandID = CommandConn then .ret (none, none)
      else if commandID = CommandConnAck then .ret (none, none)
      else if commandID = CommandSubmit then
        match pooled.Decode pktBody with
        | .fault => .fault
        | .ret (_, some err) => .ret (none, some err)
        | .ret (s, none) => .ret (some (.submit s), none)
      else if commandID = CommandSubmitAck then
        match ({ ID := [], Result := 0 } : SubmitAck).Decode pktBody with
        | .fault => .fault
        | .ret (_, some err) => .ret (none, some err)
        | .ret (s, none) => .ret (some (.submitAck s), none)
      else .ret (none, some (.unknownCommand commandID))

/-- `Encode` (packet.go 123-145). -/
def Encode (p : Option Packet) : Outcome (Option (List Byte) × Option PacketError) :=
  match p with
  | some (.submit s) =>
    match s.Encode with
    | .fault => .fault
    | .ret (_, some err) => .ret (none, some err)
    | .ret (pktBody, none) => .ret (some ([CommandSubmit] ++ pktBody), none)
  | some (.submitAck s) =>
    match s.Encode with
    | .fault => .fault
    | .ret (_, some err) => .ret (none, some err)
    | .ret (pktBody, none) => .ret (some ([CommandSubmitAck] ++ pktBody), none)
  | none => .ret (none, some .unknownType)

end packet

namespace server

open golang packet

/-- The errors `handlePacket` can return. -/
inductive HandleError where
  | ofPacket (e : PacketError)
  | unknownPacketType
  deriving DecidableEq, Repr

/-- `handlePacket` (server/main.go 13-39). -/
def handlePacket (pooled : Submit) (framePayload : List Byte) :
    Outcome (Option (List Byte) × Option HandleError) :=
  match packet.Decode pooled framePayload with
  | .fault => .fault
  | .ret (_, some err) => .ret (none, some (.ofPacket err))
  | .ret (some (.submit submit), none) =>
    match packet.Encode (some (.submitAck { ID := submit.ID, Result := 0 })) with
    | .fault => .fault
    | .ret (_, some err) => .ret (none, some (.ofPacket err))
    | .ret (ackFramePayload, none) => .ret (ackFramePayload, none)
  | .ret (_, none) => .ret (none, some .unknownPacketType)

end server

namespace workerpool

/-! ## Construction -/

theorem foldl_apply_capacity (opts : List PoolOption) (p : Pool) :
    (opts.foldl (fun p opt => opt.apply p) p).capacity = p.capacity ∧
      (opts.foldl (fun p opt => opt.apply p) p).activeCap = p.activeCap := by
  induction opts generalizing p with
  | nil => exact ⟨rfl, rfl⟩
  | cons o os ih =>
    simp only [List.foldl_cons]
    rw [(ih (o.apply p)).1, (ih (o.apply p)).2]
    cases o <;> exact ⟨rfl, rfl⟩

/-- The capacity of a pool built by `New` and the size of its slot buffer. -/
theorem New_capacity_facts (c : Int) (opts : List PoolOption) :
    (New c opts).capacity = (if c ≤ 0 then 100 else if c > 10000 then 10000 else c) ∧
      1 ≤ (New c opts).capacity ∧ (New c opts).capacity ≤ 10000 ∧
      (New c opts).activeCap = (New c opts).capacity := by
  unfold New
  simp only [foldl_apply_capacity, defaultCapacity, maxCapacity]
  refine ⟨?_, ?_, ?_, trivial⟩ <;> split <;> split <;> omega

/-- C8: the capacity of the pool built by New is the default 100 for a
non-positive argument, maxCapacity 10000 for an argument above it and the
argument itself otherwise, for every option list; so it lies in [1, 10000],
and the buffer of the active channel has exactly that size. -/
theorem New_capacity_clamped (c : Int) (opts : List PoolOption) :
    (New c opts).capacity = (if c ≤ 0 then 100 else if c > 10000 then 10000 else c) ∧
      1 ≤ (New c opts).capacity ∧ (New c opts).capacity ≤ 10000 ∧
      (New c opts).activeCap = (New c opts).capacity := by
  unfold New
  simp only [foldl_apply_capacity, defaultCapacity, maxCapacity]
  refine ⟨?_, ?_, ?_, trivial⟩ <;> split <;> split <;> omega

/-! ## Slot accounting -/

theorem countP_set_get {α : Type} (p : α → Bool) {l : List α} {i : Nat} {a : α} (b : α)
    (h : l[i]? = some a) :
    (l.set i b).countP p + (if p a then 1 else 0) = l.countP p + (if p b then 1 else 0) := by
  induction l generalizing i with
  | nil => simp at h
  | cons x l ih =>
    cases i with
    | zero =>
      simp only [List.getElem?_cons_zero, Option.some.injEq] at h
      subst h
      simp only [List.set_cons_zero, List.countP_cons]
      omega
    | succ i =>
      simp only [List.getElem?_cons_succ] at h
      have := ih h
      simp only [List.set_cons_succ, List.countP_cons]
      omega

theorem all_set_of {α : Type} (p : α → Bool) {l : List α} (i : Nat) {b : α}
    (h : l.all p = true) (hb : p b = true) : (l.set i b).all p = true := by
  simp only [List.all_eq_true] at h ⊢
  intro x hx
  rcases List.mem_or_eq_of_mem_set hx with hx | rfl
  · exact h x hx
  · exact hb

theorem all_get_of {α : Type} (p : α → Bool) {l : List α} {i : Nat} {a : α}
    (h : l.all p = true) (ha : l[i]? = some a) : p a = true := by
  simp only [List.all_eq_true] at h
  exact h a (List.getElem?_mem ha)

theorem run_invariant (p : Pool) (I : State → Prop)
    (hstep : ∀ s a s1, I s → step p s a = some s1 → I s1) :
    ∀ (acts : List Action) (s s1 : State), I s → run p s acts = some s1 → I s1 := by
  intro acts
  induction acts with
  | nil =>
    intro s s1 hs h
    simp only [run, Option.some.injEq] at h
    exact h ▸ hs
  | cons a as ih =>
    intro s s1 hs h
    simp only [run] at h
    cases hst : step p s a with
    | none => simp [hst] at h
    | some s2 =>
      rw [hst] at h
      exact ih s2 s1 (hstep s a s2 hs hst) h

theorem collect_frame {x : Sender} {s : State} {t : Nat} {s1 : State}
    (h : collect x s = some (t, s1)) :
    s1.workers = s.workers ∧ s1.ctrl = s.ctrl ∧ s1.active = s.active ∧ s1.ctor = s.ctor ∧
      s1.wg = s.wg ∧ s1.quit = s.quit ∧ s1.free = s.free ∧ s1.log = s.log ∧
      s1.crashed = s.crashed ∧ s1.idx = s.idx := by
  unfold collect at h
  split at h <;> split at h <;> simp at h <;> obtain ⟨_, rfl⟩ := h <;> simp


theorem collect_cases {x : Sender} {s : State} {t : Nat} {s1 : State}
    (h : collect x s = some (t, s1)) :
    (x = .call t ∧ s.calls[t]? = some .blocked ∧
        s1 = { s with calls := s.calls.set t .retNil }) ∨
      (∃ j, x = .reoffer j ∧ s.reoffers[j]? = some (.parked t) ∧
        s1 = { s with reoffers := s.reoffers.set j (.done t) }) := by
  unfold collect at h
  split at h
  · split at h
    · simp only [Option.some.injEq, Prod.mk.injEq] at h
      obtain ⟨rfl, rfl⟩ := h
      exact Or.inl ⟨rfl, by assumption, rfl⟩
    · simp at h
  · split at h
    · simp only [Option.some.injEq, Prod.mk.injEq] at h
      obtain ⟨rfl, rfl⟩ := h
      exact Or.inr ⟨_, rfl, by assumption, rfl⟩
    · simp at h

theorem deliver_cases {r : Receiver} {s : State} {t : Nat} {s1 : State}
    (h : deliver r t s = some s1) :
    (∃ w, r = .worker w ∧ s.workers[w]? = some .parked ∧
        s1 = { s with workers := s.workers.set w (.exec t), log := s.log ++ [(w, t)] }) ∨
      (r = .ctrl ∧ s.ctrl = .rangeParked ∧ s1 = { s with ctrl := .got t }) := by
  unfold deliver at h
  split at h
  · split at h
    · simp only [Option.some.injEq] at h
      exact Or.inl ⟨_, rfl, by assumption, h.symm⟩
    · simp at h
  · split at h
    · simp only [Option.some.injEq] at h
      exact Or.inr ⟨rfl, by assumption, h.symm⟩
    · simp at h

/-- The slot invariant only reads the slot-related fields, once `New` has returned. -/
theorem slotInv_congr {p : Pool} {s s1 : State} (hI : SlotInv p s) (hd : s.ctor = .done)
    (hw : s1.workers.countP WorkerSt.holdsSlot = s.workers.countP WorkerSt.holdsSlot)
    (hl : s1.workers.countP WorkerSt.isLive = s.workers.countP WorkerSt.isLive)
    (hc : s1.ctrl.pending = s.ctrl.pending) (ha : s1.active = s.active)
    (ht : s1.ctor = s.ctor) (hg : s1.wg = s.wg) : SlotInv p s1 := by
  obtain ⟨h1, h2, h3, h4, h5, h6⟩ := hI
  constructor
  · simp only [holding, ht] at h1 ⊢
    omega
  · omega
  · simp only [live] at h3 ⊢
    omega
  · intro i hi
    simp [ht, hd] at hi
  · intro i hi
    simp [ht, hd] at hi
  · intro hn
    exact absurd (ht.trans hd) hn

theorem slotInv_done_of {p : Pool} {s : State} (hI : SlotInv p s)
    (h : s.ctrl ≠ .notStarted ∨ s.quit = true ∨ s.calls ≠ [] ∨ s.reoffers ≠ [] ∨
      s.free ≠ .notCalled ∨ s.workers.all WorkerSt.isFresh = false) : s.ctor = .done := by
  by_contra hc
  obtain ⟨a, b, c, d, e, f⟩ := hI.early hc
  simp [a, b, c, d, e, f] at h

theorem slotInv_collect {p : Pool} {x : Sender} {s : State} {t : Nat} {s1 : State}
    (hI : SlotInv p s) (h : collect x s = some (t, s1)) :
    SlotInv p s1 ∧ s1.ctor = .done ∧ s1.workers = s.workers ∧ s1.ctrl = s.ctrl := by
  have hd : s.ctor = .done := by
    apply slotInv_done_of hI
    rcases collect_cases h with ⟨_, hb, _⟩ | ⟨j, _, hb, _⟩
    · refine Or.inr (Or.inr (Or.inl ?_))
      intro hn
      simp [hn] at hb
    · refine Or.inr (Or.inr (Or.inr (Or.inl ?_)))
      intro hn
      simp [hn] at hb
  obtain ⟨a, b, c, d, e, -⟩ := collect_frame h
  exact ⟨slotInv_congr hI hd (by rw [a]) (by rw [a]) (by rw [b]) c d e, d.trans hd, a, b⟩

theorem slotInv_deliver {p : Pool} {r : Receiver} {s : State} {t : Nat} {s1 : State}
    (hI : SlotInv p s) (hd : s.ctor = .done) (h : deliver r t s = some s1) :
    SlotInv p s1 ∧ s1.ctor = .done := by
  rcases deliver_cases h with ⟨w, -, hw, rfl⟩ | ⟨-, hc, rfl⟩
  · refine ⟨slotInv_congr hI hd ?_ ?_ rfl rfl rfl rfl, hd⟩
    · have := countP_set_get WorkerSt.holdsSlot (.exec t) hw
      simpa using this
    · have := countP_set_get WorkerSt.isLive (.exec t) hw
      simpa using this
  · exact ⟨slotInv_congr hI hd rfl rfl (by simp [hc]) rfl rfl rfl, hd⟩


theorem all_false_of_get {α : Type} (p : α → Bool) {l : List α} {i : Nat} {a : α}
    (ha : l[i]? = some a) (hp : p a = false) : l.all p = false := by
  cases h : l.all p with
  | false => rfl
  | true => rw [all_get_of p h ha] at hp; exact absurd hp (by simp)

theorem holdsSlot_wake : WorkerSt.holdsSlot ∘ WorkerSt.wake = WorkerSt.holdsSlot := by
  funext w
  cases w <;> rfl

theorem isLive_wake : WorkerSt.isLive ∘ WorkerSt.wake = WorkerSt.isLive := by
  funext w
  cases w <;> rfl

theorem pending_wake (c : CtrlSt) : c.wake.pending = c.pending := by
  cases c <;> rfl

theorem slotInv_ctorSpawn {p : Pool} {s s1 : State} (hI : SlotInv p s)
    (h : step p s .ctorSpawn = some s1) : SlotInv p s1 := by
  have hI0 := hI
  obtain ⟨h1, h2, h3, h4, h5, h6⟩ := hI
  unfold step at h
  split at h
  · simp at h
  unfold holding at h1
  unfold live at h3
  simp only at h
  split at h
  · split at h
    · simp only [Option.some.injEq] at h
      subst h
      rename_i i hc hg
      have := h6 (by simp [hc])
      constructor <;> simp_all [newWorker, holding, live]
    · simp at h
  · simp at h

theorem slotInv_ctorAcquire {p : Pool} {s s1 : State} (hI : SlotInv p s)
    (h : step p s .ctorAcquire = some s1) : SlotInv p s1 := by
  have hI0 := hI
  obtain ⟨h1, h2, h3, h4, h5, h6⟩ := hI
  unfold step at h
  split at h
  · simp at h
  unfold holding at h1
  unfold live at h3
  simp only at h
  split at h
  · split at h
    · simp only [Option.some.injEq] at h
      subst h
      rename_i i hc hg
      have := h6 (by simp [hc])
      constructor <;> simp_all [holding, live]
      omega
    · simp at h
  · simp at h

theorem slotInv_ctorRun {p : Pool} {s s1 : State} (hI : SlotInv p s)
    (h : step p s .ctorRun = some s1) : SlotInv p s1 := by
  have hI0 := hI
  obtain ⟨h1, h2, h3, h4, h5, h6⟩ := hI
  unfold step at h
  split at h
  · simp at h
  unfold holding at h1
  unfold live at h3
  simp only at h
  split at h
  · split at h
    · simp at h
    · simp only [Option.some.injEq] at h
      subst h
      rename_i i hc hg
      have := h6 (by simp [hc])
      constructor <;> simp_all [holding, live]
  · simp at h

theorem slotInv_ctrlEnter {p : Pool} {s s1 : State} (hI : SlotInv p s)
    (h : step p s .ctrlEnter = some s1) : SlotInv p s1 := by
  have hI0 := hI
  obtain ⟨h1, h2, h3, h4, h5, h6⟩ := hI
  unfold step at h
  split at h
  · simp at h
  unfold holding at h1
  unfold live at h3
  simp only at h
  split at h
  · simp only [Option.some.injEq] at h
    subst h
    rename_i hc
    have hd := slotInv_done_of hI0 (Or.inl (by simp [hc]))
    refine slotInv_congr hI0 hd rfl rfl ?_ rfl rfl rfl
    cases p.preAlloc <;> simp [hc]
  · simp at h

theorem slotInv_ctrlRange {p : Pool} {s s1 : State} {x : Option Sender} (hI : SlotInv p s)
    (h : step p s (.ctrlRange x) = some s1) : SlotInv p s1 := by
  have hI0 := hI
  obtain ⟨h1, h2, h3, h4, h5, h6⟩ := hI
  unfold step at h
  split at h
  · simp at h
  unfold holding at h1
  unfold live at h3
  simp only at h
  split at h
  · rename_i hc
    have hd := slotInv_done_of hI0 (Or.inl (by simp [hc]))
    cases x with
    | none =>
      simp only at h
      split at h
      · simp at h
      · simp only [Option.some.injEq] at h
        subst h
        exact slotInv_congr hI0 hd rfl rfl (by simp [hc]) rfl rfl rfl
    | some x =>
      simp only [Option.map_eq_some'] at h
      obtain ⟨⟨t, s2⟩, hcol, rfl⟩ := h
      obtain ⟨hI2, hd2, -, hc2⟩ := slotInv_collect hI0 hcol
      exact slotInv_congr hI2 hd2 rfl rfl (by simp [hc2, hc]) rfl rfl rfl
  · simp at h

theorem slotInv_ctrlReturnTask {p : Pool} {s s1 : State} (hI : SlotInv p s)
    (h : step p s .ctrlReturnTask = some s1) : SlotInv p s1 := by
  have hI0 := hI
  obtain ⟨h1, h2, h3, h4, h5, h6⟩ := hI
  unfold step at h
  split at h
  · simp at h
  unfold holding at h1
  unfold live at h3
  simp only at h
  split at h
  · simp only [Option.some.injEq] at h
    subst h
    rename_i t hc
    have hd := slotInv_done_of hI0 (Or.inl (by simp [hc]))
    exact slotInv_congr hI0 hd rfl rfl (by simp [hc, returnTask]) rfl rfl rfl
  · simp at h

theorem slotInv_ctrlSelect {p : Pool} {s s1 : State} {c : CtrlCase} (hI : SlotInv p s)
    (h : step p s (.ctrlSelect c) = some s1) : SlotInv p s1 := by
  have hI0 := hI
  obtain ⟨h1, h2, h3, h4, h5, h6⟩ := hI
  unfold step at h
  split at h
  · simp at h
  unfold holding at h1
  unfold live at h3
  simp only at h
  have key : ∀ b, s.ctrl.pending = 0 → s.ctor = .done → runSelect p s b c = some s1 →
      SlotInv p s1 := by
    intro b hp hd hr
    unfold runSelect at hr
    cases c <;> simp only at hr <;> split at hr <;>
      simp only [Option.some.injEq, reduceCtorEq] at hr
    · subst hr
      exact slotInv_congr hI0 hd rfl rfl (by rw [hp]; rfl) rfl rfl rfl
    · subst hr
      rename_i hlt
      constructor <;> simp_all [holding, live]
      omega
    · subst hr
      refine slotInv_congr hI0 hd rfl rfl ?_ rfl rfl rfl
      cases b <;> (rw [hp]; rfl)
  split at h
  · rename_i hc
    exact key _ (by simp [hc]) (slotInv_done_of hI0 (Or.inl (by simp [hc]))) h
  · rename_i hc
    exact key _ (by simp [hc]) (slotInv_done_of hI0 (Or.inl (by simp [hc]))) h
  · simp at h

theorem slotInv_ctrlSpawn {p : Pool} {s s1 : State} (hI : SlotInv p s)
    (h : step p s .ctrlSpawn = some s1) : SlotInv p s1 := by
  have hI0 := hI
  obtain ⟨h1, h2, h3, h4, h5, h6⟩ := hI
  unfold step at h
  split at h
  · simp at h
  unfold holding at h1
  unfold live at h3
  simp only at h
  split at h
  · simp only [Option.some.injEq] at h
    subst h
    rename_i b hc
    have hd := slotInv_done_of hI0 (Or.inl (by simp [hc]))
    constructor <;> cases b <;> simp_all [newWorker, holding, live]
  · simp at h

theorem slotInv_workerSelect {p : Pool} {s s1 : State} {w : Nat} {c : WorkerCase} (hI : SlotInv p s)
    (h : step p s (.workerSelect w c) = some s1) : SlotInv p s1 := by
  have hI0 := hI
  obtain ⟨h1, h2, h3, h4, h5, h6⟩ := hI
  unfold step at h
  split at h
  · simp at h
  unfold holding at h1
  unfold live at h3
  simp only at h
  split at h
  · rename_i hw
    cases c with
    | quit =>
      simp only at h
      split at h
      · simp only [Option.some.injEq] at h
        subst h
        rename_i hq
        have hd := slotInv_done_of hI0 (Or.inr (Or.inl hq))
        refine slotInv_congr hI0 hd ?_ ?_ rfl rfl rfl rfl
        · simpa using countP_set_get WorkerSt.holdsSlot .quitting hw
        · simpa using countP_set_get WorkerSt.isLive .quitting hw
      · simp at h
    | recv x =>
      simp only [Option.map_eq_some'] at h
      obtain ⟨⟨t, s2⟩, hcol, rfl⟩ := h
      obtain ⟨hI2, hd2, hw2, -⟩ := slotInv_collect hI0 hcol
      rw [← hw2] at hw
      refine slotInv_congr hI2 hd2 ?_ ?_ rfl rfl rfl rfl
      · simpa using countP_set_get WorkerSt.holdsSlot (.exec t) hw
      · simpa using countP_set_get WorkerSt.isLive (.exec t) hw
    | park =>
      simp only at h
      split at h
      · simp at h
      · simp only [Option.some.injEq] at h
        subst h
        have e1 := countP_set_get WorkerSt.holdsSlot .parked hw
        have e2 := countP_set_get WorkerSt.isLive .parked hw
        simp only [WorkerSt.holdsSlot, WorkerSt.isLive, if_true] at e1 e2
        refine ⟨?_, h2, ?_, h4, h5, ?_⟩
        · simp only [holding]
          omega
        · simp only [live]
          omega
        · intro hn
          obtain ⟨a, b, c, d, e, f⟩ := h6 hn
          exact ⟨a, b, c, d, e, all_set_of _ _ f rfl⟩
  · simp at h

theorem slotInv_taskDone {p : Pool} {s s1 : State} {w : Nat} (hI : SlotInv p s)
    (h : step p s (.taskDone w) = some s1) : SlotInv p s1 := by
  have hI0 := hI
  obtain ⟨h1, h2, h3, h4, h5, h6⟩ := hI
  unfold step at h
  split at h
  · simp at h
  unfold holding at h1
  unfold live at h3
  simp only at h
  split at h
  · simp only [Option.some.injEq] at h
    subst h
    rename_i t hw
    have hd := slotInv_done_of hI0
      (Or.inr (Or.inr (Or.inr (Or.inr (Or.inr (all_false_of_get _ hw rfl))))))
    refine slotInv_congr hI0 hd ?_ ?_ rfl rfl rfl rfl
    · simpa using countP_set_get WorkerSt.holdsSlot .start hw
    · simpa using countP_set_get WorkerSt.isLive .start hw
  · simp at h

theorem slotInv_taskPanic {p : Pool} {s s1 : State} {w : Nat} (hI : SlotInv p s)
    (h : step p s (.taskPanic w) = some s1) : SlotInv p s1 := by
  have hI0 := hI
  obtain ⟨h1, h2, h3, h4, h5, h6⟩ := hI
  unfold step at h
  split at h
  · simp at h
  unfold holding at h1
  unfold live at h3
  simp only at h
  split at h
  · simp only [Option.some.injEq] at h
    subst h
    rename_i t hw
    have hd := slotInv_done_of hI0
      (Or.inr (Or.inr (Or.inr (Or.inr (Or.inr (all_false_of_get _ hw rfl))))))
    refine slotInv_congr hI0 hd ?_ ?_ rfl rfl rfl rfl
    · simpa using countP_set_get WorkerSt.holdsSlot .panicked hw
    · simpa using countP_set_get WorkerSt.isLive .panicked hw
  · simp at h

theorem slotInv_workerRelease {p : Pool} {s s1 : State} {w : Nat} (hI : SlotInv p s)
    (h : step p s (.workerRelease w) = some s1) : SlotInv p s1 := by
  have hI0 := hI
  obtain ⟨h1, h2, h3, h4, h5, h6⟩ := hI
  unfold step at h
  split at h
  · simp at h
  unfold holding at h1
  unfold live at h3
  simp only at h
  split at h
  · simp at h
  rename_i hact
  have key : ∀ v : WorkerSt, s.workers[w]? = some v → v.holdsSlot = true →
      v.isLive = true → v.isFresh = false →
      (s.ctrl = .mainParked ∧ s1 = { s with
          workers := s.workers.set w .released, ctrl := .acquired false }) ∨
        (s1 = { s with
          workers := s.workers.set w .released, active := s.active - 1 }) →
      SlotInv p s1 := by
    intro v hw hv1 hv2 hv3 hs
    have hd := slotInv_done_of hI0
      (Or.inr (Or.inr (Or.inr (Or.inr (Or.inr (all_false_of_get _ hw hv3))))))
    have e1 := countP_set_get WorkerSt.holdsSlot .released hw
    have e2 := countP_set_get WorkerSt.isLive .released hw
    rw [hv1] at e1
    rw [hv2] at e2
    simp at e1 e2
    rcases hs with ⟨hc, rfl⟩ | rfl
    · rw [hc] at h1
      simp only [CtrlSt.pending] at h1
      refine ⟨?_, h2, ?_, ?_, ?_, ?_⟩
      · simp only [holding, CtrlSt.pending, hd, CtorSt.pending]
        simp only [hd, CtorSt.pending] at h1
        omega
      · simp only [live]
        omega
      · intro i hi
        simp [hd] at hi
      · intro i hi
        simp [hd] at hi
      · intro hn
        exact absurd hd hn
    · refine ⟨?_, ?_, ?_, ?_, ?_, ?_⟩
      · simp only [holding, hd, CtorSt.pending]
        simp only [hd, CtorSt.pending] at h1
        omega
      · simp only
        omega
      · simp only [live]
        omega
      · intro i hi
        simp [hd] at hi
      · intro i hi
        simp [hd] at hi
      · intro hn
        exact absurd hd hn
  split at h <;> simp only [Option.some.injEq, reduceCtorEq] at h
  · rename_i hw hc
    exact key _ hw rfl rfl rfl (Or.inl ⟨hc, h.symm⟩)
  · rename_i hw hc
    exact key _ hw rfl rfl rfl (Or.inl ⟨hc, h.symm⟩)
  · rename_i hw hc
    exact key _ hw rfl rfl rfl (Or.inr h.symm)
  · rename_i hw hc
    exact key _ hw rfl rfl rfl (Or.inr h.symm)

theorem slotInv_taskGoexit {p : Pool} {s s1 : State} {w : Nat} (hI : SlotInv p s)
    (h : step p s (.taskGoexit w) = some s1) : SlotInv p s1 := by
  have hI0 := hI
  obtain ⟨h1, h2, h3, h4, h5, h6⟩ := hI
  unfold step at h
  split at h
  · simp at h
  unfold holding at h1
  unfold live at h3
  simp only at h
  split at h
  · simp only [Option.some.injEq] at h
    subst h
    rename_i t hw
    have hd := slotInv_done_of hI0
      (Or.inr (Or.inr (Or.inr (Or.inr (Or.inr (all_false_of_get _ hw rfl))))))
    refine slotInv_congr hI0 hd ?_ ?_ rfl rfl rfl rfl
    · simpa using countP_set_get WorkerSt.holdsSlot .unwound hw
    · simpa using countP_set_get WorkerSt.isLive .unwound hw
  · simp at h

theorem slotInv_workerDone {p : Pool} {s s1 : State} {w : Nat} (hI : SlotInv p s)
    (h : step p s (.workerDone w) = some s1) : SlotInv p s1 := by
  have hI0 := hI
  obtain ⟨h1, h2, h3, h4, h5, h6⟩ := hI
  unfold step at h
  split at h
  · simp at h
  unfold holding at h1
  unfold live at h3
  simp only at h
  have key : ∀ v nv : WorkerSt, s.workers[w]? = some v → v.isFresh = false →
      nv.holdsSlot = v.holdsSlot → v.isLive = true → nv.isLive = false →
      s1 = { s with workers := s.workers.set w nv, wg := s.wg - 1 } → SlotInv p s1 := by
    intro v nv hw hv1 hv2 hv3 hv4 hs
    subst hs
    have hd := slotInv_done_of hI0
      (Or.inr (Or.inr (Or.inr (Or.inr (Or.inr (all_false_of_get _ hw hv1))))))
    have e1 := countP_set_get WorkerSt.holdsSlot nv hw
    have e2 := countP_set_get WorkerSt.isLive nv hw
    rw [hv2] at e1
    rw [hv3, hv4] at e2
    simp at e2
    refine ⟨?_, h2, ?_, ?_, ?_, ?_⟩
    · simp only [holding]
      omega
    · simp only [live]
      omega
    · intro i hi
      simp [hd] at hi
    · intro i hi
      simp [hd] at hi
    · intro hn
      exact absurd hd hn
  split at h
  · simp only [Option.some.injEq] at h
    rename_i hw
    exact key .released .dead hw rfl rfl rfl rfl h.symm
  · simp only [Option.some.injEq] at h
    rename_i hw
    exact key .unwound .leaked hw rfl rfl rfl rfl h.symm
  · simp at h

theorem slotInv_schedule {p : Pool} {s s1 : State} {c : SchedCase} (hI : SlotInv p s)
    (h : step p s (.schedule c) = some s1) : SlotInv p s1 := by
  have hI0 := hI
  obtain ⟨h1, h2, h3, h4, h5, h6⟩ := hI
  unfold step at h
  split at h
  · simp at h
  unfold holding at h1
  unfold live at h3
  simp only at h
  split at h
  · rename_i hd
    unfold Schedule at h
    cases c with
    | quit =>
      simp only at h
      split at h <;> simp only [Option.some.injEq, reduceCtorEq] at h
      subst h
      exact slotInv_congr hI0 hd rfl rfl rfl rfl rfl rfl
    | send r =>
      simp only [Option.map_eq_some'] at h
      obtain ⟨s2, hdel, rfl⟩ := h
      obtain ⟨hI2, hd2⟩ := slotInv_deliver hI0 hd hdel
      exact slotInv_congr hI2 hd2 rfl rfl rfl rfl rfl rfl
    | dflt =>
      simp only at h
      split at h
      · simp at h
      · split at h <;> simp only [Option.some.injEq] at h <;> subst h <;>
          exact slotInv_congr hI0 hd rfl rfl rfl rfl rfl rfl
  · simp at h

theorem slotInv_sendArrive {p : Pool} {s s1 : State} {x : Sender} {r : Option Receiver}
    (hI : SlotInv p s) (h : step p s (.sendArrive x r) = some s1) : SlotInv p s1 := by
  unfold step at h
  split at h
  · simp at h
  simp only at h
  cases x with
  | call i =>
    simp only at h
    split at h
    · rename_i hc
      have hd : s.ctor = .done := by
        apply slotInv_done_of hI
        refine Or.inr (Or.inr (Or.inl ?_))
        intro hn
        simp [hn] at hc
      cases r with
      | none =>
        simp only at h
        split at h <;> simp only [Option.some.injEq, reduceCtorEq] at h
        subst h
        exact slotInv_congr hI hd rfl rfl rfl rfl rfl rfl
      | some r =>
        simp only [Option.map_eq_some'] at h
        obtain ⟨s2, hdel, rfl⟩ := h
        obtain ⟨hI2, hd2⟩ := slotInv_deliver hI hd hdel
        exact slotInv_congr hI2 hd2 rfl rfl rfl rfl rfl rfl
    · simp at h
  | reoffer j =>
    simp only at h
    split at h
    · rename_i t hc
      have hd : s.ctor = .done := by
        apply slotInv_done_of hI
        refine Or.inr (Or.inr (Or.inr (Or.inl ?_)))
        intro hn
        simp [hn] at hc
      cases r with
      | none =>
        simp only at h
        split at h <;> simp only [Option.some.injEq, reduceCtorEq] at h
        subst h
        exact slotInv_congr hI hd rfl rfl rfl rfl rfl rfl
      | some r =>
        simp only [Option.map_eq_some'] at h
        obtain ⟨s2, hdel, rfl⟩ := h
        obtain ⟨hI2, hd2⟩ := slotInv_deliver hI hd hdel
        exact slotInv_congr hI2 hd2 rfl rfl rfl rfl rfl rfl
    · simp at h

theorem slotInv_freeClose {p : Pool} {s s1 : State} (hI : SlotInv p s)
    (h : step p s .freeClose = some s1) : SlotInv p s1 := by
  have hI0 := hI
  obtain ⟨h1, h2, h3, h4, h5, h6⟩ := hI
  unfold step at h
  split at h
  · simp at h
  unfold holding at h1
  unfold live at h3
  simp only at h
  split at h
  · rename_i hd
    split at h <;> simp only [Option.some.injEq] at h <;> subst h
    · exact slotInv_congr hI0 hd rfl rfl rfl rfl rfl rfl
    · refine slotInv_congr hI0 hd ?_ ?_ (pending_wake _) rfl rfl rfl
      · simp only [List.countP_map, holdsSlot_wake]
      · simp only [List.countP_map, isLive_wake]
  · simp at h

theorem slotInv_freeWait {p : Pool} {s s1 : State} (hI : SlotInv p s)
    (h : step p s .freeWait = some s1) : SlotInv p s1 := by
  have hI0 := hI
  obtain ⟨h1, h2, h3, h4, h5, h6⟩ := hI
  unfold step at h
  split at h
  · simp at h
  unfold holding at h1
  unfold live at h3
  simp only at h
  split at h
  · split at h <;> simp only [Option.some.injEq, reduceCtorEq] at h
    subst h
    rename_i hf _
    have hd := slotInv_done_of hI0 (Or.inr (Or.inr (Or.inr (Or.inr (Or.inl (by simp [hf]))))))
    exact slotInv_congr hI0 hd rfl rfl rfl rfl rfl rfl
  · simp at h

theorem slotInv_step {p : Pool} {s s1 : State} {a : Action} (hI : SlotInv p s)
    (h : step p s a = some s1) : SlotInv p s1 := by
  cases a with
  | ctorSpawn => exact slotInv_ctorSpawn hI h
  | ctorAcquire => exact slotInv_ctorAcquire hI h
  | ctorRun => exact slotInv_ctorRun hI h
  | ctrlEnter => exact slotInv_ctrlEnter hI h
  | ctrlRange x => exact slotInv_ctrlRange hI h
  | ctrlReturnTask => exact slotInv_ctrlReturnTask hI h
  | ctrlSelect c => exact slotInv_ctrlSelect hI h
  | ctrlSpawn => exact slotInv_ctrlSpawn hI h
  | workerSelect w c => exact slotInv_workerSelect hI h
  | taskDone w => exact slotInv_taskDone hI h
  | taskPanic w => exact slotInv_taskPanic hI h
  | taskGoexit w => exact slotInv_taskGoexit hI h
  | workerRelease w => exact slotInv_workerRelease hI h
  | workerDone w => exact slotInv_workerDone hI h
  | schedule c => exact slotInv_schedule hI h
  | sendArrive x r => exact slotInv_sendArrive hI h
  | freeClose => exact slotInv_freeClose hI h
  | freeWait => exact slotInv_freeWait hI h

/-! ## Task tokens -/

theorem optGetD_set {α : Type} (f : α → Nat) {l : List α} {i : Nat} {a : α} (b : α)
    (h : l[i]? = some a) (u : Nat) :
    (((l.set i b)[u]?).map f).getD 0 + (if u = i then f a else 0) =
      ((l[u]?).map f).getD 0 + (if u = i then f b else 0) := by
  have hi : i < l.length := (List.getElem?_eq_some.1 h).1
  rw [List.getElem?_set]
  by_cases hu : u = i
  · subst hu
    simp [hi, h]
    omega
  · have : ¬ i = u := fun e => hu e.symm
    simp [hu, this]

theorem optGetD_append {α : Type} (f : α → Nat) (l : List α) (b : α) (u : Nat) :
    (((l ++ [b])[u]?).map f).getD 0 =
      ((l[u]?).map f).getD 0 + (if u = l.length then f b else 0) := by
  rw [List.getElem?_append]
  by_cases h1 : u < l.length
  · have : u ≠ l.length := by omega
    simp [h1, this]
  · by_cases h2 : u = l.length
    · subst h2
      simp
    · have h3 : l.length ≤ u := by omega
      have h4 : 1 ≤ u - l.length := by omega
      simp [h1, h2, List.getElem?_eq_none h3, List.getElem?_eq_none, h4]

theorem optGetD_none {α : Type} (f : α → Nat) (l : List α) :
    ((l[l.length]?).map f).getD 0 = 0 := by
  simp

theorem tokens_collect {x : Sender} {s : State} {t : Nat} {s1 : State}
    (h : collect x s = some (t, s1)) (u : Nat) :
    tokens s1 u + (if u = t then 1 else 0) = tokens s u ∧ owed s1 u = owed s u := by
  rcases collect_cases h with ⟨-, hb, rfl⟩ | ⟨j, -, hb, rfl⟩
  · have e1 := optGetD_set CallSt.holds .retNil hb u
    have e2 := optGetD_set CallSt.owed .retNil hb u
    simp only [CallSt.holds, CallSt.owed] at e1 e2
    simp only [tokens, logCount, reofferCount, callHolds, owed]
    constructor
    · split <;> simp_all
    · split at e2 <;> omega
  · have e1 := countP_set_get (fun x => x.holds u) (.done t) hb
    simp only [SendSt.holds] at e1
    simp only [tokens, logCount, reofferCount, callHolds, owed]
    refine ⟨?_, trivial⟩
    by_cases hu : u = t
    · subst hu
      simp at e1 ⊢
      omega
    · have : ¬ t = u := fun e => hu e.symm
      simp [hu, this] at e1 ⊢
      omega

theorem tokens_deliver {r : Receiver} {s : State} {t : Nat} {s1 : State}
    (h : deliver r t s = some s1) (u : Nat) :
    tokens s1 u = tokens s u + (if u = t then 1 else 0) ∧ owed s1 u = owed s u := by
  rcases deliver_cases h with ⟨w, -, hw, rfl⟩ | ⟨-, hc, rfl⟩
  · simp only [tokens, logCount, reofferCount, callHolds, owed, List.countP_append]
    refine ⟨?_, trivial⟩
    by_cases hu : u = t
    · subst hu
      simp
      omega
    · have : ¬ t = u := fun e => hu e.symm
      simp [hu, this]
  · simp only [tokens, logCount, reofferCount, callHolds, owed, hc, CtrlSt.holds]
    refine ⟨?_, trivial⟩
    by_cases hu : u = t
    · subst hu
      simp
      omega
    · have : ¬ t = u := fun e => hu e.symm
      simp [hu, this]

theorem deliver_frame {r : Receiver} {s : State} {t : Nat} {s1 : State}
    (h : deliver r t s = some s1) :
    s1.calls = s.calls ∧ s1.reoffers = s.reoffers ∧ s1.quit = s.quit ∧ s1.ctor = s.ctor ∧
      s1.free = s.free ∧ s1.active = s.active ∧ s1.wg = s.wg := by
  rcases deliver_cases h with ⟨w, -, hw, rfl⟩ | ⟨-, hc, rfl⟩ <;> simp

theorem holds_wake (c : CtrlSt) (t : Nat) : c.wake.holds t = c.holds t := by
  cases c <;> rfl

/-- The token invariant only reads the log, the controller, the re-offers and the calls. -/
theorem tokenInv_congr {s s1 : State} (hI : TokenInv s) (hl : s1.log = s.log)
    (hc : ∀ t, s1.ctrl.holds t = s.ctrl.holds t) (hr : s1.reoffers = s.reoffers)
    (hk : s1.calls = s.calls) : TokenInv s1 := by
  intro t
  have := hI t
  simp only [tokens, logCount, reofferCount, callHolds, owed, hl, hc, hr, hk] at this ⊢
  exact this

theorem tokenInv_ctor {p : Pool} {s s1 : State} {a : Action} (hS : SlotInv p s)
    (hI : TokenInv s) (ha : a = .ctorSpawn ∨ a = .ctorAcquire ∨ a = .ctorRun)
    (h : step p s a = some s1) : TokenInv s1 := by
  unfold step at h
  split at h
  · simp at h
  rcases ha with rfl | rfl | rfl <;> simp only at h <;> split at h <;>
    first
    | (simp at h; done)
    | skip
  · split at h <;> simp only [Option.some.injEq, reduceCtorEq] at h
    subst h
    exact tokenInv_congr hI rfl (fun _ => rfl) rfl rfl
  · split at h <;> simp only [Option.some.injEq, reduceCtorEq] at h
    subst h
    exact tokenInv_congr hI rfl (fun _ => rfl) rfl rfl
  · split at h <;> simp only [Option.some.injEq, reduceCtorEq] at h
    subst h
    rename_i i hc _
    have hn := (hS.early (by simp [hc])).1
    exact tokenInv_congr hI rfl (fun _ => by rw [hn]; rfl) rfl rfl

theorem tokenInv_ctrl {p : Pool} {s s1 : State} {a : Action} (hI : TokenInv s)
    (ha : a = .ctrlEnter ∨ a = .ctrlReturnTask ∨ a = .ctrlSpawn ∨ (∃ c, a = .ctrlSelect c))
    (h : step p s a = some s1) : TokenInv s1 := by
  unfold step at h
  split at h
  · simp at h
  rcases ha with rfl | rfl | rfl | ⟨c, rfl⟩ <;> simp only at h <;> split at h <;>
    first
    | (simp at h; done)
    | skip
  · simp only [Option.some.injEq] at h
    subst h
    rename_i hc
    exact tokenInv_congr hI rfl (fun _ => by rw [hc]; cases p.preAlloc <;> rfl) rfl rfl
  · simp only [Option.some.injEq] at h
    subst h
    rename_i t hc
    intro u
    have := hI u
    simp only [tokens, logCount, reofferCount, callHolds, owed, hc, CtrlSt.holds, returnTask,
      List.countP_append] at this ⊢
    by_cases hu : t = u
    · subst hu
      simp at this ⊢
      omega
    · simp [hu] at this ⊢
      omega
  · simp only [Option.some.injEq] at h
    subst h
    rename_i b hc
    exact tokenInv_congr hI rfl (fun _ => by rw [hc]; cases b <;> rfl) rfl rfl
  all_goals
    rename_i hc
    unfold runSelect at h
    cases c <;> simp only at h <;> split at h <;>
      simp only [Option.some.injEq, reduceCtorEq] at h <;> subst h <;>
      exact tokenInv_congr hI rfl (fun _ => by rw [hc]; rfl) rfl rfl

theorem tokenInv_taskGoexit {p : Pool} {s s1 : State} {w : Nat} (hI : TokenInv s)
    (h : step p s (.taskGoexit w) = some s1) : TokenInv s1 := by
  unfold step at h
  split at h
  · simp at h
  simp only at h
  split at h
  · simp only [Option.some.injEq] at h
    subst h
    exact tokenInv_congr hI rfl (fun _ => rfl) rfl rfl
  · simp at h

theorem tokenInv_worker {p : Pool} {s s1 : State} {a : Action} (hI : TokenInv s)
    (ha : (∃ w, a = .taskDone w) ∨ (∃ w, a = .taskPanic w) ∨ (∃ w, a = .workerDone w) ∨
      a = .freeWait)
    (h : step p s a = some s1) : TokenInv s1 := by
  unfold step at h
  split at h
  · simp at h
  rcases ha with ⟨w, rfl⟩ | ⟨w, rfl⟩ | ⟨w, rfl⟩ | rfl <;> simp only at h <;> split at h <;>
    first
    | (simp at h; done)
    | skip
  · simp only [Option.some.injEq] at h
    subst h
    exact tokenInv_congr hI rfl (fun _ => rfl) rfl rfl
  · simp only [Option.some.injEq] at h
    subst h
    exact tokenInv_congr hI rfl (fun _ => rfl) rfl rfl
  · simp only [Option.some.injEq] at h
    subst h
    exact tokenInv_congr hI rfl (fun _ => rfl) rfl rfl
  · simp only [Option.some.injEq] at h
    subst h
    exact tokenInv_congr hI rfl (fun _ => rfl) rfl rfl
  · split at h <;> simp only [Option.some.injEq, reduceCtorEq] at h
    subst h
    exact tokenInv_congr hI rfl (fun _ => rfl) rfl rfl

theorem tokenInv_workerRelease {p : Pool} {s s1 : State} {w : Nat} (hI : TokenInv s)
    (h : step p s (.workerRelease w) = some s1) : TokenInv s1 := by
  unfold step at h
  split at h
  · simp at h
  simp only at h
  split at h
  · simp at h
  split at h <;> simp only [Option.some.injEq, reduceCtorEq] at h <;> subst h
  · rename_i hc
    exact tokenInv_congr hI rfl (fun _ => by rw [hc]; rfl) rfl rfl
  · rename_i hc
    exact tokenInv_congr hI rfl (fun _ => by rw [hc]; rfl) rfl rfl
  · exact tokenInv_congr hI rfl (fun _ => rfl) rfl rfl
  · exact tokenInv_congr hI rfl (fun _ => rfl) rfl rfl

theorem tokenInv_freeClose {p : Pool} {s s1 : State} (hI : TokenInv s)
    (h : step p s .freeClose = some s1) : TokenInv s1 := by
  unfold step at h
  split at h
  · simp at h
  simp only at h
  split at h
  · split at h <;> simp only [Option.some.injEq] at h <;> subst h
    · exact tokenInv_congr hI rfl (fun _ => rfl) rfl rfl
    · exact tokenInv_congr hI rfl (fun t => holds_wake _ t) rfl rfl
  · simp at h

/-- Appending a log entry for `t` and nothing else adds one token of `t`. -/
theorem tokens_logged (s : State) (w t : Nat) (ws : List WorkerSt) (u : Nat) :
    tokens { s with workers := ws, log := s.log ++ [(w, t)] } u =
      tokens s u + (if u = t then 1 else 0) := by
  simp only [tokens, logCount, reofferCount, callHolds, List.countP_append]
  by_cases hu : u = t
  · subst hu
    simp
    omega
  · have : ¬ t = u := fun e => hu e.symm
    simp [hu, this]

theorem tokenInv_workerSelect {p : Pool} {s s1 : State} {w : Nat} {c : WorkerCase}
    (hI : TokenInv s) (h : step p s (.workerSelect w c) = some s1) : TokenInv s1 := by
  unfold step at h
  split at h
  · simp at h
  simp only at h
  split at h
  · cases c with
    | quit =>
      simp only at h
      split at h <;> simp only [Option.some.injEq, reduceCtorEq] at h
      subst h
      exact tokenInv_congr hI rfl (fun _ => rfl) rfl rfl
    | recv x =>
      simp only [Option.map_eq_some'] at h
      obtain ⟨⟨t, s2⟩, hcol, rfl⟩ := h
      intro u
      obtain ⟨e1, e2⟩ := tokens_collect hcol u
      have e3 := tokens_logged s2 w t (s2.workers.set w (.exec t)) u
      have e4 := hI u
      simp only at e3 ⊢
      rw [e3]
      have : owed { s2 with
          workers := s2.workers.set w (.exec t), log := s2.log ++ [(w, t)] } u = owed s2 u := rfl
      rw [this]
      omega
    | park =>
      simp only at h
      split at h <;> simp only [Option.some.injEq, reduceCtorEq] at h
      subst h
      exact tokenInv_congr hI rfl (fun _ => rfl) rfl rfl
  · simp at h

theorem tokenInv_ctrlRange {p : Pool} {s s1 : State} {x : Option Sender}
    (hI : TokenInv s) (h : step p s (.ctrlRange x) = some s1) : TokenInv s1 := by
  unfold step at h
  split at h
  · simp at h
  simp only at h
  split at h
  · rename_i hc
    cases x with
    | none =>
      simp only at h
      split at h <;> simp only [Option.some.injEq, reduceCtorEq] at h
      subst h
      exact tokenInv_congr hI rfl (fun _ => by rw [hc]; rfl) rfl rfl
    | some x =>
      simp only [Option.map_eq_some'] at h
      obtain ⟨⟨t, s2⟩, hcol, rfl⟩ := h
      intro u
      obtain ⟨e1, e2⟩ := tokens_collect hcol u
      have hc2 : s2.ctrl = .rangeRecv := (collect_frame hcol).2.1.trans hc
      have e4 := hI u
      have e3 : tokens { s2 with ctrl := .got t } u = tokens s2 u + (if u = t then 1 else 0) := by
        simp only [tokens, logCount, reofferCount, callHolds, hc2, CtrlSt.holds]
        by_cases hu : u = t
        · subst hu
          simp
          omega
        · have : ¬ t = u := fun e => hu e.symm
          simp [hu, this]
      have : owed { s2 with ctrl := .got t } u = owed s2 u := rfl
      simp only at e3 this ⊢
      rw [e3, this]
      omega
  · simp at h

theorem tokens_pushCall (s : State) (c : CallSt) (u : Nat) :
    tokens { s with calls := s.calls ++ [c] } u =
        tokens s u + (if u = s.calls.length then c.holds else 0) ∧
      owed { s with calls := s.calls ++ [c] } u =
        owed s u + (if u = s.calls.length then c.owed else 0) := by
  simp only [tokens, logCount, reofferCount, callHolds, owed, optGetD_append]
  exact ⟨by omega, trivial⟩

theorem tokens_setCall {s : State} {i : Nat} {old : CallSt} (v : CallSt)
    (h : s.calls[i]? = some old) (u : Nat) :
    tokens { s with calls := s.calls.set i v } u + (if u = i then old.holds else 0) =
        tokens s u + (if u = i then v.holds else 0) ∧
      owed { s with calls := s.calls.set i v } u + (if u = i then old.owed else 0) =
        owed s u + (if u = i then v.owed else 0) := by
  have e1 := optGetD_set CallSt.holds v h u
  have e2 := optGetD_set CallSt.owed v h u
  simp only [tokens, logCount, reofferCount, callHolds, owed]
  constructor <;> omega

theorem tokens_setReoffer {s : State} {j : Nat} {old : SendSt} (v : SendSt)
    (h : s.reoffers[j]? = some old) (u : Nat) :
    tokens { s with reoffers := s.reoffers.set j v } u + (if old.holds u then 1 else 0) =
        tokens s u + (if v.holds u then 1 else 0) ∧
      owed { s with reoffers := s.reoffers.set j v } u = owed s u := by
  have e1 := countP_set_get (fun x => x.holds u) v h
  simp only at e1
  simp only [tokens, logCount, reofferCount, callHolds, owed]
  refine ⟨?_, trivial⟩
  omega

theorem tokens_fresh {s : State} (hI : TokenInv s) : tokens s s.calls.length = 0 := by
  rw [hI]
  simp [owed]

theorem tokenInv_schedule {p : Pool} {s s1 : State} {c : SchedCase}
    (hI : TokenInv s) (h : step p s (.schedule c) = some s1) : TokenInv s1 := by
  unfold step at h
  split at h
  · simp at h
  simp only at h
  split at h
  · unfold Schedule at h
    cases c with
    | quit =>
      simp only at h
      split at h <;> simp only [Option.some.injEq, reduceCtorEq] at h
      subst h
      intro u
      obtain ⟨e1, e2⟩ := tokens_pushCall s (.retErr .ErrWorkerPoolFreed) u
      have := hI u
      simp only [CallSt.holds, CallSt.owed] at e1 e2
      rw [e1, e2]
      omega
    | send r =>
      simp only [Option.map_eq_some'] at h
      obtain ⟨s2, hdel, rfl⟩ := h
      intro u
      obtain ⟨e1, e2⟩ := tokens_pushCall s2 .retNil u
      obtain ⟨e3, e4⟩ := tokens_deliver hdel u
      have e5 : s2.calls.length = s.calls.length := by rw [(deliver_frame hdel).1]
      have := hI u
      simp only [CallSt.holds, CallSt.owed, e5] at e1 e2
      rw [e1, e2]
      split at e2 <;> simp_all
    | dflt =>
      simp only at h
      split at h
      · simp at h
      · split at h <;> simp only [Option.some.injEq] at h <;> subst h <;> intro u
        · obtain ⟨e1, e2⟩ := tokens_pushCall s .blocking u
          have := hI u
          simp only [CallSt.holds, CallSt.owed] at e1 e2
          rw [e1, e2]
          omega
        · obtain ⟨e1, e2⟩ := tokens_pushCall s (.retErr .ErrNoIdleWorkerInPool) u
          have := hI u
          simp only [CallSt.holds, CallSt.owed] at e1 e2
          rw [e1, e2]
          omega
  · simp at h

theorem tokenInv_sendArrive {p : Pool} {s s1 : State} {x : Sender} {r : Option Receiver}
    (hI : TokenInv s) (h : step p s (.sendArrive x r) = some s1) : TokenInv s1 := by
  unfold step at h
  split at h
  · simp at h
  simp only at h
  cases x with
  | call i =>
    simp only at h
    split at h
    · rename_i hc
      cases r with
      | none =>
        simp only at h
        split at h <;> simp only [Option.some.injEq, reduceCtorEq] at h
        subst h
        intro u
        obtain ⟨e1, e2⟩ := tokens_setCall .blocked hc u
        have := hI u
        simp only [CallSt.holds, CallSt.owed] at e1 e2
        omega
      | some r =>
        simp only [Option.map_eq_some'] at h
        obtain ⟨s2, hdel, rfl⟩ := h
        intro u
        have hc2 : s2.calls[i]? = some .blocking := by rw [(deliver_frame hdel).1]; exact hc
        obtain ⟨e1, e2⟩ := tokens_setCall .retNil hc2 u
        obtain ⟨e3, e4⟩ := tokens_deliver hdel u
        have := hI u
        simp only [CallSt.holds, CallSt.owed] at e1 e2
        by_cases hu : u = i
        · simp only [hu, if_true] at e1 e2 e3 e4 this ⊢
          omega
        · simp only [hu, if_false] at e1 e2 e3
          omega
    · simp at h
  | reoffer j =>
    simp only at h
    split at h
    · rename_i t hc
      cases r with
      | none =>
        simp only at h
        split at h <;> simp only [Option.some.injEq, reduceCtorEq] at h
        subst h
        intro u
        obtain ⟨e1, e2⟩ := tokens_setReoffer (.parked t) hc u
        have := hI u
        simp only [SendSt.holds] at e1
        omega
      | some r =>
        simp only [Option.map_eq_some'] at h
        obtain ⟨s2, hdel, rfl⟩ := h
        intro u
        have hc2 : s2.reoffers[j]? = some (.arriving t) := by
          rw [(deliver_frame hdel).2.1]; exact hc
        obtain ⟨e1, e2⟩ := tokens_setReoffer (.done t) hc2 u
        obtain ⟨e3, e4⟩ := tokens_deliver hdel u
        have := hI u
        simp only [SendSt.holds] at e1
        by_cases hu : u = t
        · subst hu
          simp at e1 e3
          omega
        · have hu2 : ¬ t = u := fun e => hu e.symm
          simp [hu, hu2] at e1 e3
          omega
    · simp at h

theorem tokenInv_step {p : Pool} {s s1 : State} {a : Action} (hS : SlotInv p s)
    (hI : TokenInv s) (h : step p s a = some s1) : TokenInv s1 := by
  cases a with
  | ctorSpawn => exact tokenInv_ctor hS hI (Or.inl rfl) h
  | ctorAcquire => exact tokenInv_ctor hS hI (Or.inr (Or.inl rfl)) h
  | ctorRun => exact tokenInv_ctor hS hI (Or.inr (Or.inr rfl)) h
  | ctrlEnter => exact tokenInv_ctrl hI (Or.inl rfl) h
  | ctrlRange x => exact tokenInv_ctrlRange hI h
  | ctrlReturnTask => exact tokenInv_ctrl hI (Or.inr (Or.inl rfl)) h
  | ctrlSelect c => exact tokenInv_ctrl hI (Or.inr (Or.inr (Or.inr ⟨c, rfl⟩))) h
  | ctrlSpawn => exact tokenInv_ctrl hI (Or.inr (Or.inr (Or.inl rfl))) h
  | workerSelect w c => exact tokenInv_workerSelect hI h
  | taskDone w => exact tokenInv_worker hI (Or.inl ⟨w, rfl⟩) h
  | taskPanic w => exact tokenInv_worker hI (Or.inr (Or.inl ⟨w, rfl⟩)) h
  | taskGoexit w => exact tokenInv_taskGoexit hI h
  | workerRelease w => exact tokenInv_workerRelease hI h
  | workerDone w => exact tokenInv_worker hI (Or.inr (Or.inr (Or.inl ⟨w, rfl⟩))) h
  | schedule c => exact tokenInv_schedule hI h
  | sendArrive x r => exact tokenInv_sendArrive hI h
  | freeClose => exact tokenInv_freeClose hI h
  | freeWait => exact tokenInv_worker hI (Or.inr (Or.inr (Or.inr rfl))) h

/-! ## Reachable states -/

theorem slotInv_init (p : Pool) (hp : 0 ≤ p.activeCap) : SlotInv p init := by
  constructor <;> simp [init, holding, live]
  · exact hp

theorem tokenInv_init : TokenInv init := by
  intro t
  simp [tokens, owed, logCount, reofferCount, callHolds, init]

/-- Both invariants hold in every reachable state of a pool built by `New`. -/
theorem reachable_inv (c : Int) (opts : List PoolOption) (s : State)
    (h : Reachable (New c opts) s) : SlotInv (New c opts) s ∧ TokenInv s := by
  obtain ⟨acts, hrun⟩ := h
  have hcap := New_capacity_facts c opts
  refine run_invariant (New c opts) (fun s => SlotInv (New c opts) s ∧ TokenInv s) ?_ acts
    init s ⟨slotInv_init _ (by omega), tokenInv_init⟩ hrun
  intro s0 a s1 hI hst
  exact ⟨slotInv_step hI.1 hst, tokenInv_step hI.1 hI.2 hst⟩

theorem owed_le_one (s : State) (t : Nat) : owed s t ≤ 1 := by
  unfold owed
  cases s.calls[t]? with
  | none => simp
  | some c => cases c <;> simp

/-- Every task occurs at most once in the execution log. -/
theorem log_count_le_one (c : Int) (opts : List PoolOption) (s : State)
    (h : Reachable (New c opts) s) (t : Nat) :
    (s.log.filter fun e => decide (e.2 = t)).length ≤ 1 := by
  have hI := (reachable_inv c opts s h).2 t
  have ho := owed_le_one s t
  rw [← List.countP_eq_length_filter]
  simp only [tokens, logCount] at hI
  omega

/-- C2 (amended): in every reachable state of a pool built by New, the workers
that still hold their slot (spawned, and not yet past the receive from active)
are at most capacity many, the occupancy of active is at most capacity, the
wait group counts the workers that have not terminated, and as long as every
spawned worker still holds its slot the number of workers spawned is at most
capacity. -/
theorem slot_holders_le_capacity (c : Int) (opts : List PoolOption) (s : State)
    (h : Reachable (New c opts) s) :
    (holding s : Int) ≤ (New c opts).capacity ∧ (s.active : Int) ≤ (New c opts).capacity ∧
      s.wg = live s ∧
      (s.workers.all WorkerSt.holdsSlot = true →
        (s.workers.length : Int) ≤ (New c opts).capacity) := by
  have hI := (reachable_inv c opts s h).1
  have hcap := (New_capacity_facts c opts).2.2.2
  have hb := hI.bound
  have hs := hI.slots
  have hh : (holding s : Int) ≤ (New c opts).capacity := by
    cases hc : s.ctor with
    | loop i =>
      rw [hc] at hs
      simp only [CtorSt.pending] at hs
      omega
    | acq i =>
      rw [hc] at hs
      simp only [CtorSt.pending] at hs
      have := hI.ctorAcq i hc
      omega
    | done =>
      rw [hc] at hs
      simp only [CtorSt.pending] at hs
      omega
  refine ⟨hh, by omega, hI.wg, ?_⟩
  intro hall
  have : holding s = s.workers.length := by
    unfold holding
    rw [List.countP_eq_length]
    simpa using hall
  omega

/-! ## Workers that outlive their slot -/

/-- C2 (counterexample): with capacity 1 the pool reaches a state with two
workers that have not terminated, and a wait group counter of 2: worker 0 has
released its slot but not yet run Done when the controller spawns worker 1. -/
theorem live_workers_exceed_capacity :
    Reachable eagerOne overlapState ∧ eagerOne.capacity = 1 ∧ live overlapState = 2 ∧
      overlapState.wg = 2 ∧ overlapState.workers.length = 2 :=
  ⟨⟨overlapTrace, by decide⟩, by decide, by decide, by decide, by decide⟩

theorem slot_holders_le_capacity_witness :
    (holding overlapState : Int) ≤ (New 1 [.WithPreAllocWorkers true]).capacity ∧
      (overlapState.active : Int) ≤ (New 1 [.WithPreAllocWorkers true]).capacity ∧
      overlapState.wg = live overlapState ∧
      (overlapState.workers.all WorkerSt.holdsSlot = true →
        (overlapState.workers.length : Int) ≤ (New 1 [.WithPreAllocWorkers true]).capacity) :=
  slot_holders_le_capacity 1 [.WithPreAllocWorkers true] overlapState ⟨overlapTrace, by decide⟩

/-! ## Halted pools -/

theorem halted_worker {s : State} (h : Halted s) (w : Nat) :
    s.workers[w]? = none ∨ s.workers[w]? = some .dead := by
  cases hw : s.workers[w]? with
  | none => exact Or.inl rfl
  | some v =>
    have := all_get_of _ h.2.2 hw
    cases v <;> simp [WorkerSt.isDead] at this
    exact Or.inr rfl

theorem halted_deliver {s : State} (h : Halted s) (r : Receiver) (t : Nat) :
    deliver r t s = none := by
  unfold deliver
  cases r with
  | worker w => rcases halted_worker h w with hw | hw <;> simp [hw]
  | ctrl => simp [h.2.1]

theorem halted_noReceiver {s : State} (h : Halted s) : hasParkedReceiver s = false := by
  unfold hasParkedReceiver
  simp only [h.2.1, CtrlSt.isRangeParked, Bool.or_false]
  rw [List.any_eq_false]
  intro w hw
  have := List.all_eq_true.1 h.2.2 w hw
  cases w <;> simp [WorkerSt.isDead, WorkerSt.isParked] at this ⊢

theorem blocked_set_blocked {l : List CallSt} (i j : Nat) (h : l[j]? = some .blocked)
    (hi : l[i]? = some .blocking) : (l.set i .blocked)[j]? = some .blocked := by
  rw [List.getElem?_set]
  by_cases hij : i = j
  · subst hij
    rw [h] at hi
    simp at hi
  · simp [hij, h]

theorem blocked_append {l : List CallSt} (j : Nat) (c : CallSt) (h : l[j]? = some .blocked) :
    (l ++ [c])[j]? = some .blocked := by
  rw [List.getElem?_append_left (List.getElem?_eq_some.1 h).1]
  exact h

/-- Once the pool is halted it stays halted: no task is received any more and a
caller parked in `p.tasks <- t` stays parked. -/
theorem halted_step {p : Pool} {s s1 : State} {a : Action} (hH : Halted s)
    (h : step p s a = some s1) :
    Halted s1 ∧ s1.log = s.log ∧
      ∀ j : Nat, s.calls[j]? = some .blocked → s1.calls[j]? = some .blocked := by
  obtain ⟨hd, hc, hw⟩ := hH
  have hH : Halted s := ⟨hd, hc, hw⟩
  unfold step at h
  split at h
  · simp at h
  cases a <;> simp only [hd, hc] at h
  case workerSelect w c => rcases halted_worker hH w with e | e <;> simp [e] at h
  case taskDone w => rcases halted_worker hH w with e | e <;> simp [e] at h
  case taskPanic w => rcases halted_worker hH w with e | e <;> simp [e] at h
  case taskGoexit w => rcases halted_worker hH w with e | e <;> simp [e] at h
  case workerRelease w =>
    split at h
    · simp at h
    · rcases halted_worker hH w with e | e <;> simp [e] at h
  case workerDone w => rcases halted_worker hH w with e | e <;> simp [e] at h
  case schedule c =>
    unfold Schedule at h
    cases c with
    | quit =>
      simp only at h
      split at h <;> simp only [Option.some.injEq, reduceCtorEq] at h
      subst h
      exact ⟨⟨hd, hc, hw⟩, rfl, fun j hj => blocked_append j _ hj⟩
    | send r => simp [halted_deliver hH] at h
    | dflt =>
      simp only at h
      split at h
      · simp at h
      · split at h <;> simp only [Option.some.injEq] at h <;> subst h <;>
          exact ⟨⟨hd, hc, hw⟩, rfl, fun j hj => blocked_append j _ hj⟩
  case sendArrive x r =>
    cases x with
    | call i =>
      simp only at h
      split at h
      · rename_i hi
        cases r with
        | none =>
          simp only [halted_noReceiver hH] at h
          simp only [Bool.false_eq_true, if_false, Option.some.injEq] at h
          subst h
          exact ⟨⟨rfl, rfl, hw⟩, rfl, fun j hj => blocked_set_blocked i j hj hi⟩
        | some r => simp [halted_deliver hH] at h
      · simp at h
    | reoffer j =>
      simp only at h
      split at h
      · cases r with
        | none =>
          simp only [halted_noReceiver hH] at h
          simp only [Bool.false_eq_true, if_false, Option.some.injEq] at h
          subst h
          exact ⟨⟨rfl, rfl, hw⟩, rfl, fun j hj => hj⟩
        | some r => simp [halted_deliver hH] at h
      · simp at h
  case freeClose =>
    split at h <;> simp only [Option.some.injEq] at h <;> subst h
    · exact ⟨⟨rfl, rfl, hw⟩, rfl, fun j hj => hj⟩
    · refine ⟨⟨rfl, rfl, ?_⟩, rfl, fun j hj => hj⟩
      simp only [List.all_map]
      rw [List.all_eq_true] at hw ⊢
      intro v hv
      have := hw v hv
      cases v <;> simp [WorkerSt.isDead, WorkerSt.wake] at this ⊢
  case freeWait =>
    split at h
    · split at h <;> simp only [Option.some.injEq, reduceCtorEq] at h
      subst h
      exact ⟨⟨rfl, rfl, hw⟩, rfl, fun j hj => hj⟩
    · simp at h
  all_goals simp at h

theorem halted_run {p : Pool} (acts : List Action) (s s1 : State) (hH : Halted s)
    (h : run p s acts = some s1) :
    Halted s1 ∧ s1.log = s.log ∧
      ∀ j : Nat, s.calls[j]? = some .blocked → s1.calls[j]? = some .blocked := by
  induction acts generalizing s with
  | nil =>
    simp only [run, Option.some.injEq] at h
    subst h
    exact ⟨hH, rfl, fun j hj => hj⟩
  | cons a as ih =>
    simp only [run] at h
    cases hst : step p s a with
    | none => simp [hst] at h
    | some s2 =>
      rw [hst] at h
      obtain ⟨h1, h2, h3⟩ := halted_step hH hst
      obtain ⟨k1, k2, k3⟩ := ih s2 h1 h
      exact ⟨k1, k2.trans h2, fun j hj => k3 j (h3 j hj)⟩

/-! ## Executions that break the contract -/

/-- C1 (failing input): in the lazy pool New(1), after Free has returned with
the controller still parked in its range loop, the select of Schedule has two
ready cases: it may return ErrWorkerPoolFreed, or hand task 0 to the controller
and return nil; the task can then be executed by a worker spawned after Free
returned. -/
theorem schedule_after_free_accepted :
    Reachable lazyOne freedLazyState ∧ freedLazyState.free = .returned ∧
      step lazyOne freedLazyState (.schedule .quit) =
        some { freedLazyState with calls := [.retErr .ErrWorkerPoolFreed] } ∧
      step lazyOne freedLazyState (.schedule (.send .ctrl)) =
        some { freedLazyState with ctrl := .got 0, calls := [.retNil] } ∧
      (run lazyOne { freedLazyState with ctrl := .got 0, calls := [.retNil] }
        afterFreeTrace).map (fun s => (s.workers, s.log, s.free)) =
        some ([.exec 0], [(0, 0)], .returned) :=
  ⟨⟨freedLazyTrace, by decide⟩, by decide, by decide, by decide, by decide⟩

/-- C4 (failing input): in the blocking pool New(1, WithPreAllocWorkers(true)) a
Schedule call parked in its send is still parked when Free has returned, with
the controller gone and every worker terminated, and it stays parked in every
continuation: it never returns ErrWorkerPoolFreed. -/
theorem blocked_schedule_never_returns :
    Reachable eagerOne strandedCallerState ∧ eagerOne.block = true ∧
      strandedCallerState.free = .returned ∧
      strandedCallerState.calls[1]? = some .blocked ∧
      ∀ (acts : List Action) (s : State), run eagerOne strandedCallerState acts = some s →
        s.calls[1]? = some .blocked :=
  ⟨⟨strandedCallerTrace, by decide⟩, by decide, by decide, by decide,
    fun acts s h =>
      (halted_run acts strandedCallerState s ⟨rfl, rfl, rfl⟩ h).2.2 1 (by decide)⟩

/-- C6 (failing input): in the lazy pool New(1), Schedule returns nil for task 0
(taken by the controller), and after Free has returned the task is held by a
re-offer goroutine with the log empty; in every continuation the log stays
empty, so the task is never executed. -/
theorem accepted_task_never_executed :
    Reachable lazyOne strandedTaskState ∧ strandedTaskState.free = .returned ∧
      strandedTaskState.calls[0]? = some .retNil ∧
      strandedTaskState.reoffers = [.arriving 0] ∧ strandedTaskState.log = [] ∧
      ∀ (acts : List Action) (s : State), run lazyOne strandedTaskState acts = some s →
        s.log = [] :=
  ⟨⟨strandedTaskTrace, by decide⟩, by decide, by decide, by decide, by decide,
    fun acts s h => (halted_run acts strandedTaskState s ⟨rfl, rfl, rfl⟩ h).2.1⟩

/-- C9 (failing input): in the lazy pool New(1) the controller takes a slot,
Free closes quit and its Wait returns on a zero counter, and then the controller
spawns the worker: Free has returned with one slot occupied and one live
worker. -/
theorem slot_held_after_free :
    Reachable lazyOne lateSpawnState ∧ lateSpawnState.free = .returned ∧
      lateSpawnState.active = 1 ∧ live lateSpawnState = 1 ∧
      lateSpawnState.workers = [.start] :=
  ⟨⟨lateSpawnTrace, by decide⟩, by decide, by decide, by decide, by decide⟩

/-- C10 (failing input): in the eager pool New(1, WithPreAllocWorkers(true)),
with quit already closed and one worker spawned, the worker releases its slot,
the controller reaches its main select with both the quit case and the send on
active ready, and taking the send it spawns a second worker. -/
theorem spawn_after_shutdown :
    Reachable eagerOne closedState ∧ closedState.quit = true ∧
      closedState.workers.length = 1 ∧
      (run eagerOne closedState [.workerRelease 0, .ctrlEnter, .ctrlSelect .quit]).isSome ∧
      run eagerOne closedState respawnTrace = some respawnState ∧
      respawnState.workers.length = 2 :=
  ⟨⟨closedTrace, by decide⟩, by decide, by decide, by decide, by decide, by decide⟩

/-- C3 (failing input): in the lazy non-blocking pool New(1, WithBlock(false))
with its only worker busy and quit open, Schedule cannot take default, hands
task 1 to the controller and returns nil; the task is retained by a re-offer
goroutine and later executed. -/
theorem saturated_lazy_schedule_accepted :
    Reachable lazyNonBlocking saturatedState ∧ lazyNonBlocking.block = false ∧
      lazyNonBlocking.capacity = 1 ∧ saturatedState.workers = [.exec 0] ∧
      saturatedState.quit = false ∧
      step lazyNonBlocking saturatedState (.schedule .dflt) = none ∧
      step lazyNonBlocking saturatedState (.schedule .quit) = none ∧
      step lazyNonBlocking saturatedState (.schedule (.send .ctrl)) =
        some { saturatedState with ctrl := .got 1, calls := [.retNil, .retNil] } ∧
      (run lazyNonBlocking { saturatedState with ctrl := .got 1, calls := [.retNil, .retNil] }
        retainedTrace).map (fun s => (s.workers, s.log)) =
        some ([.exec 1], [(0, 0), (0, 1)]) :=
  ⟨⟨saturatedTrace, by decide⟩, by decide, by decide, by decide, by decide, by decide,
    by decide, by decide, by decide⟩

/-! ## Non-blocking admission -/

theorem collect_ctrl {x : Sender} {s : State} {ts : Nat × State}
    (h : collect x s = some ts) : ts.2.ctrl = s.ctrl := by
  obtain ⟨t, s1⟩ := ts
  exact (collect_frame h).2.1

theorem deliver_ctrl {r : Receiver} {s : State} {t : Nat} {s1 : State}
    (h : deliver r t s = some s1) (hl : s.ctrl.isLazy = false) : s1.ctrl = s.ctrl := by
  rcases deliver_cases h with ⟨w, -, -, rfl⟩ | ⟨-, hc, rfl⟩
  · rfl
  · rw [hc] at hl
    simp [CtrlSt.isLazy] at hl

/-- In an eager pool the controller never enters the lazy loop. -/
theorem eagerCtrl_step {p : Pool} {s s1 : State} {a : Action} (hp : p.preAlloc = true)
    (hI : s.ctrl.isLazy = false) (h : step p s a = some s1) : s1.ctrl.isLazy = false := by
  unfold step at h
  split at h
  · simp at h
  cases a <;> simp only at h
  case ctrlRange x =>
    split at h
    · rename_i hc
      rw [hc] at hI
      simp [CtrlSt.isLazy] at hI
    · simp at h
  case ctrlReturnTask =>
    split at h
    · rename_i hc
      rw [hc] at hI
      simp [CtrlSt.isLazy] at hI
    · simp at h
  case ctrlSelect c =>
    split at h
    · rename_i hc
      rw [hc] at hI
      simp [CtrlSt.isLazy] at hI
    · unfold runSelect at h
      cases c <;> simp only at h <;> split at h <;>
        simp only [Option.some.injEq, reduceCtorEq] at h <;> subst h <;> rfl
    · simp at h
  case ctrlSpawn =>
    split at h
    · rename_i b hc
      rw [hc] at hI
      simp only [Option.some.injEq] at h
      subst h
      cases b
      · rfl
      · simp [CtrlSt.isLazy] at hI
    · simp at h
  case ctrlEnter =>
    split at h
    · simp only [Option.some.injEq] at h
      subst h
      simp [hp, CtrlSt.isLazy]
    · simp at h
  case workerSelect w c =>
    split at h
    · cases c with
      | quit =>
        simp only at h
        split at h <;> simp only [Option.some.injEq, reduceCtorEq] at h
        subst h
        exact hI
      | recv x =>
        simp only [Option.map_eq_some'] at h
        obtain ⟨ts, hcol, rfl⟩ := h
        simp only
        rw [collect_ctrl hcol]
        exact hI
      | park =>
        simp only at h
        split at h <;> simp only [Option.some.injEq, reduceCtorEq] at h
        subst h
        exact hI
    · simp at h
  case schedule c =>
    split at h
    · unfold Schedule at h
      cases c with
      | quit =>
        simp only at h
        split at h <;> simp only [Option.some.injEq, reduceCtorEq] at h
        subst h
        exact hI
      | send r =>
        simp only [Option.map_eq_some'] at h
        obtain ⟨s2, hdel, rfl⟩ := h
        simp only
        rw [deliver_ctrl hdel hI]
        exact hI
      | dflt =>
        simp only at h
        split at h
        · simp at h
        · split at h <;> simp only [Option.some.injEq] at h <;> subst h <;> exact hI
    · simp at h
  case sendArrive x r =>
    cases x <;> simp only at h <;> split at h <;> first | contradiction | skip
    all_goals
      cases r with
      | none =>
        simp only at h
        split at h <;> simp only [Option.some.injEq, reduceCtorEq] at h
        subst h
        exact hI
      | some r =>
        simp only [Option.map_eq_some'] at h
        obtain ⟨s2, hdel, rfl⟩ := h
        simp only
        rw [deliver_ctrl hdel hI]
        exact hI
  case workerRelease w =>
    split at h
    · simp at h
    split at h <;> simp only [Option.some.injEq, reduceCtorEq] at h <;> subst h <;>
      first | rfl | exact hI
  case freeClose =>
    split at h
    · split at h <;> simp only [Option.some.injEq] at h <;> subst h
      · exact hI
      · simp only
        revert hI
        cases s.ctrl <;> simp [CtrlSt.isLazy, CtrlSt.wake]
    · simp at h
  all_goals
    split at h <;> first | contradiction | skip
    all_goals first
      | (simp only [Option.some.injEq] at h; subst h; first | rfl | exact hI)
      | ((split at h <;> simp only [Option.some.injEq, reduceCtorEq] at h); subst h;
          first | rfl | exact hI)

theorem refused_set {l : List CallSt} {i j : Nat} {old : CallSt} {e : SchedError} (v : CallSt)
    (hi : l[i]? = some old) (ho : old ≠ .retErr e) (hj : l[j]? = some (.retErr e)) :
    (l.set i v)[j]? = some (.retErr e) := by
  rw [List.getElem?_set]
  by_cases hij : i = j
  · subst hij
    rw [hi] at hj
    simp only [Option.some.injEq] at hj
    exact absurd hj ho
  · simp [hij, hj]

theorem refused_append {l : List CallSt} {j : Nat} {e : SchedError} (c : CallSt)
    (hj : l[j]? = some (.retErr e)) : (l ++ [c])[j]? = some (.retErr e) := by
  rw [List.getElem?_append_left (List.getElem?_eq_some.1 hj).1]
  exact hj

theorem refused_collect {x : Sender} {s : State} {ts : Nat × State} {j : Nat} {e : SchedError}
    (h : collect x s = some ts) (hj : s.calls[j]? = some (.retErr e)) :
    ts.2.calls[j]? = some (.retErr e) := by
  obtain ⟨t, s1⟩ := ts
  rcases collect_cases h with ⟨-, hb, rfl⟩ | ⟨k, -, -, rfl⟩
  · exact refused_set _ hb (by simp) hj
  · exact hj

theorem refused_deliver {r : Receiver} {s : State} {t : Nat} {s1 : State} {j : Nat}
    {e : SchedError} (h : deliver r t s = some s1) (hj : s.calls[j]? = some (.retErr e)) :
    s1.calls[j]? = some (.retErr e) := by
  rw [(deliver_frame h).1]
  exact hj

/-- A call that returned an error keeps that result. -/
theorem refused_step {p : Pool} {s s1 : State} {a : Action} {j : Nat} {e : SchedError}
    (hj : s.calls[j]? = some (.retErr e)) (h : step p s a = some s1) :
    s1.calls[j]? = some (.retErr e) := by
  unfold step at h
  split at h
  · simp at h
  cases a <;> simp only at h
  case ctrlRange x =>
    split at h
    · cases x with
      | none =>
        simp only at h
        split at h <;> simp only [Option.some.injEq, reduceCtorEq] at h
        subst h
        exact hj
      | some x =>
        simp only [Option.map_eq_some'] at h
        obtain ⟨ts, hcol, rfl⟩ := h
        exact refused_collect hcol hj
    · simp at h
  case ctrlSelect c =>
    unfold runSelect at h
    split at h <;> first | contradiction | skip
    all_goals
      cases c <;> simp only at h <;> split at h <;>
        simp only [Option.some.injEq, reduceCtorEq] at h <;> subst h <;> exact hj
  case workerSelect w c =>
    split at h
    · cases c with
      | quit =>
        simp only at h
        split at h <;> simp only [Option.some.injEq, reduceCtorEq] at h
        subst h
        exact hj
      | recv x =>
        simp only [Option.map_eq_some'] at h
        obtain ⟨ts, hcol, rfl⟩ := h
        exact refused_collect hcol hj
      | park =>
        simp only at h
        split at h <;> simp only [Option.some.injEq, reduceCtorEq] at h
        subst h
        exact hj
    · simp at h
  case schedule c =>
    split at h
    · unfold Schedule at h
      cases c with
      | quit =>
        simp only at h
        split at h <;> simp only [Option.some.injEq, reduceCtorEq] at h
        subst h
        exact refused_append _ hj
      | send r =>
        simp only [Option.map_eq_some'] at h
        obtain ⟨s2, hdel, rfl⟩ := h
        exact refused_append _ (refused_deliver hdel hj)
      | dflt =>
        simp only at h
        split at h
        · simp at h
        · split at h <;> simp only [Option.some.injEq] at h <;> subst h <;>
            exact refused_append _ hj
    · simp at h
  case sendArrive x r =>
    cases x with
    | call i =>
      simp only at h
      split at h
      · rename_i hi
        cases r with
        | none =>
          simp only at h
          split at h <;> simp only [Option.some.injEq, reduceCtorEq] at h
          subst h
          exact refused_set _ hi (by simp) hj
        | some r =>
          simp only [Option.map_eq_some'] at h
          obtain ⟨s2, hdel, rfl⟩ := h
          have hi2 : s2.calls[i]? = some .blocking := by rw [(deliver_frame hdel).1]; exact hi
          exact refused_set _ hi2 (by simp) (refused_deliver hdel hj)
      · simp at h
    | reoffer k =>
      simp only at h
      split at h
      · cases r with
        | none =>
          simp only at h
          split at h <;> simp only [Option.some.injEq, reduceCtorEq] at h
          subst h
          exact hj
        | some r =>
          simp only [Option.map_eq_some'] at h
          obtain ⟨s2, hdel, rfl⟩ := h
          have := refused_deliver hdel hj
          exact this
      · simp at h
  case workerRelease w =>
    split at h
    · simp at h
    split at h <;> simp only [Option.some.injEq, reduceCtorEq] at h <;> subst h <;> exact hj
  case freeClose =>
    split at h
    · split at h <;> simp only [Option.some.injEq] at h <;> subst h <;> exact hj
    · simp at h
  all_goals
    split at h <;> first | contradiction | skip
    all_goals first
      | (simp only [Option.some.injEq] at h; subst h; exact hj)
      | ((split at h <;> simp only [Option.some.injEq, reduceCtorEq] at h); subst h; exact hj)

theorem run_append {p : Pool} (as bs : List Action) (s : State) :
    run p s (as ++ bs) = (run p s as).bind fun s1 => run p s1 bs := by
  induction as generalizing s with
  | nil => simp [run]
  | cons a as ih =>
    simp only [List.cons_append, run]
    cases step p s a with
    | none => simp
    | some s2 => simp [ih]

theorem reachable_run {p : Pool} {s s1 : State} (acts : List Action) (h : Reachable p s)
    (hr : run p s acts = some s1) : Reachable p s1 := by
  obtain ⟨as, ha⟩ := h
  exact ⟨as ++ acts, by rw [run_append, ha]; exact hr⟩

theorem eager_reachable {p : Pool} {s : State} (hp : p.preAlloc = true) (h : Reachable p s) :
    s.ctrl.isLazy = false := by
  obtain ⟨acts, hrun⟩ := h
  exact run_invariant p (fun s => s.ctrl.isLazy = false)
    (fun _ _ _ hI hst => eagerCtrl_step hp hI hst) acts init s rfl hrun

theorem refused_run {p : Pool} {s s1 : State} {j : Nat} {e : SchedError} (acts : List Action)
    (hj : s.calls[j]? = some (.retErr e)) (h : run p s acts = some s1) :
    s1.calls[j]? = some (.retErr e) :=
  run_invariant p (fun s => s.calls[j]? = some (.retErr e))
    (fun _ _ _ hI hst => refused_step hI hst) acts s s1 hj h

/-- A task whose call returned an error is in no place at all; in particular
it is not in the execution log. -/
theorem refused_not_logged {c : Int} {opts : List PoolOption} {s : State} {j : Nat}
    {e : SchedError} (h : Reachable (New c opts) s) (hj : s.calls[j]? = some (.retErr e))
    (w : Nat) : (w, j) ∉ s.log := by
  have hI := (reachable_inv c opts s h).2 j
  have ho : owed s j = 0 := by simp [owed, hj]
  rw [ho] at hI
  simp only [tokens, logCount] at hI
  have h0 : s.log.countP (fun e => decide (e.2 = j)) = 0 := by omega
  rw [List.countP_eq_zero] at h0
  intro hm
  exact h0 (w, j) hm (by simp)

/-- Non-blocking admission without a receiver: in a non-blocking pool built by
New that has not been shut down, whenever no worker is parked waiting to
receive and the controller is not parked in its range loop (which is always so
in an eager pool), the select of Schedule can only take default: the call
returns ErrNoIdleWorkerInPool at once, nothing else in the state changes, and
the task is never executed. -/
theorem schedule_refused_without_receiver (c : Int) (opts : List PoolOption) (s : State)
    (hr : Reachable (New c opts) s) (hb : (New c opts).block = false) (hd : s.ctor = .done)
    (hq : s.quit = false) (hcr : s.crashed = false)
    (hw : s.workers.any WorkerSt.isParked = false)
    (hc : (New c opts).preAlloc = true ∨ s.ctrl ≠ .rangeParked) :
    step (New c opts) s (.schedule .dflt) =
        some { s with calls := s.calls ++ [.retErr .ErrNoIdleWorkerInPool] } ∧
      (∀ (k : SchedCase) (s1 : State), step (New c opts) s (.schedule k) = some s1 → k = .dflt) ∧
      ∀ (acts : List Action) (s2 : State),
        run (New c opts) { s with calls := s.calls ++ [.retErr .ErrNoIdleWorkerInPool] } acts =
          some s2 →
        s2.calls[s.calls.length]? = some (.retErr .ErrNoIdleWorkerInPool) ∧
          ∀ w : Nat, (w, s.calls.length) ∉ s2.log := by
  have hctrl : s.ctrl.isRangeParked = false := by
    rcases hc with hc | hc
    · have := eager_reachable hc hr
      revert this
      cases s.ctrl <;> simp [CtrlSt.isLazy, CtrlSt.isRangeParked]
    · revert hc
      cases s.ctrl <;> simp [CtrlSt.isRangeParked]
  have hrecv : hasParkedReceiver s = false := by simp [hasParkedReceiver, hw, hctrl]
  have hstep : step (New c opts) s (.schedule .dflt) =
      some { s with calls := s.calls ++ [.retErr .ErrNoIdleWorkerInPool] } := by
    simp [step, hcr, hd, Schedule, hq, hrecv, hb]
  refine ⟨hstep, ?_, ?_⟩
  · intro k s1 hk
    cases k with
    | dflt => rfl
    | quit => simp [step, hcr, hd, Schedule, hq] at hk
    | send r =>
      have hnone : deliver r s.calls.length s = none := by
        cases hdel : deliver r s.calls.length s with
        | none => rfl
        | some s2 =>
          rcases deliver_cases hdel with ⟨w, -, hp, -⟩ | ⟨-, hp, -⟩
          · have := List.any_eq_false.1 hw _ (List.getElem?_mem hp)
            simp [WorkerSt.isParked] at this
          · simp [hp, CtrlSt.isRangeParked] at hctrl
      simp [step, hcr, hd, Schedule, hnone] at hk
  · intro acts s2 hrun
    have hj : ({ s with calls := s.calls ++ [.retErr .ErrNoIdleWorkerInPool] } : State).calls[
        s.calls.length]? = some (.retErr .ErrNoIdleWorkerInPool) := by simp
    have h2 := refused_run acts hj hrun
    have hr1 : Reachable (New c opts)
        { s with calls := s.calls ++ [.retErr .ErrNoIdleWorkerInPool] } :=
      reachable_run [.schedule .dflt] hr (by simp [run, hstep])
    have hr2 := reachable_run acts hr1 hrun
    exact ⟨h2, refused_not_logged hr2 h2⟩

theorem schedule_refused_without_receiver_witness :
    step eagerNonBlocking busyState (.schedule .dflt) =
      some { busyState with calls := busyState.calls ++ [.retErr .ErrNoIdleWorkerInPool] } :=
  (schedule_refused_without_receiver 1 [.WithPreAllocWorkers true, .WithBlock false] busyState
    ⟨busyTrace, by decide⟩ (by decide) (by decide) (by decide) (by decide) (by decide)
    (Or.inl (by decide))).1

/-! ## Eager construction -/

theorem fresh_counts {l : List WorkerSt} (h : l.all WorkerSt.isFresh = true) :
    l.countP WorkerSt.holdsSlot = l.length ∧ l.countP WorkerSt.isLive = l.length := by
  rw [List.all_eq_true] at h
  constructor <;> rw [List.countP_eq_length] <;> intro w hw <;> have := h w hw <;>
    cases w <;> simp at this ⊢

theorem quiet_step {p : Pool} {s s1 : State} {a : Action} (hp : p.preAlloc = true)
    (hcap : p.activeCap = p.capacity) (hS : SlotInv p s) (hL : s.ctrl.isLazy = false)
    (hQ : s.calls = [] → s.quit = false → QuietInv p s) (h : step p s a = some s1)
    (hc1 : s1.calls = []) (hq1 : s1.quit = false) : QuietInv p s1 := by
  unfold step at h
  split at h
  · simp at h
  cases a <;> simp only at h
  case ctorSpawn =>
    split at h <;> first | contradiction | skip
    split at h <;> simp only [Option.some.injEq, reduceCtorEq] at h
    subst h
    rename_i i hc _
    obtain ⟨q1, q2, q3, q4, q5, q6⟩ := hQ hc1 hq1
    refine ⟨?_, q2, q3, ?_, ?_, ?_⟩
    · simp only [newWorker, List.all_append, q1]
      rfl
    · intro j hj
      simp at hj
    · intro j hj
      simp only [CtorSt.acq.injEq] at hj
      subst hj
      simp [newWorker, q4 i hc]
    · intro hj
      simp at hj
  case ctorAcquire =>
    split at h <;> first | contradiction | skip
    split at h <;> simp only [Option.some.injEq, reduceCtorEq] at h
    subst h
    rename_i i hc _
    obtain ⟨q1, q2, q3, q4, q5, q6⟩ := hQ hc1 hq1
    refine ⟨q1, q2, q3, ?_, ?_, ?_⟩
    · intro j hj
      simp only [CtorSt.loop.injEq] at hj
      subst hj
      exact q5 i hc
    · intro j hj
      simp at hj
    · intro hj
      simp at hj
  case ctorRun =>
    split at h <;> first | contradiction | skip
    split at h <;> simp only [Option.some.injEq, reduceCtorEq] at h
    subst h
    rename_i i hc hg
    obtain ⟨q1, q2, q3, q4, q5, q6⟩ := hQ hc1 hq1
    refine ⟨q1, q2, rfl, ?_, ?_, ?_⟩
    · intro j hj
      simp at hj
    · intro j hj
      simp at hj
    · intro _
      have h1 := hS.ctorLoop i hc
      have h2 := hS.bound
      have h3 := q4 i hc
      simp only [hp, Bool.true_and, decide_eq_true_eq] at hg
      simp only
      omega
  case ctrlEnter =>
    split at h <;> first | contradiction | skip
    simp only [Option.some.injEq] at h
    subst h
    obtain ⟨q1, q2, q3, q4, q5, q6⟩ := hQ hc1 hq1
    exact ⟨q1, q2, by simp [hp], q4, q5, q6⟩
  case ctrlRange x =>
    split at h <;> first | contradiction | skip
    rename_i hc
    rw [hc] at hL
    simp [CtrlSt.isLazy] at hL
  case ctrlReturnTask =>
    split at h <;> first | contradiction | skip
    rename_i hc
    rw [hc] at hL
    simp [CtrlSt.isLazy] at hL
  case ctrlSelect c =>
    split at h <;> first | contradiction | skip
    · rename_i hc
      rw [hc] at hL
      simp [CtrlSt.isLazy] at hL
    · rename_i hc
      have hd := slotInv_done_of hS (Or.inl (by simp [hc]))
      unfold runSelect at h
      cases c <;> simp only at h <;> split at h <;>
        simp only [Option.some.injEq, reduceCtorEq] at h <;> subst h
      · rename_i hq
        simp only at hq1
        rw [hq] at hq1
        simp at hq1
      · rename_i hlt
        obtain ⟨q1, q2, q3, q4, q5, q6⟩ := hQ hc1 hq1
        have h1 := hS.slots
        have h2 := (fresh_counts q1).1
        have h3 := q6 hd
        simp only [holding, hd, CtorSt.pending, q3] at h1
        omega
      · obtain ⟨q1, q2, q3, q4, q5, q6⟩ := hQ hc1 hq1
        exact ⟨q1, q2, rfl, q4, q5, q6⟩
  case ctrlSpawn =>
    split at h <;> first | contradiction | skip
    simp only [Option.some.injEq] at h
    subst h
    rename_i b hc
    have := (hQ hc1 hq1).noPending
    rw [hc] at this
    simp at this
  case workerSelect w c =>
    split at h <;> first | contradiction | skip
    rename_i hw
    cases c with
    | quit =>
      simp only at h
      split at h <;> simp only [Option.some.injEq, reduceCtorEq] at h
      subst h
      rename_i hq
      simp only at hq1
      rw [hq] at hq1
      simp at hq1
    | recv x =>
      simp only [Option.map_eq_some'] at h
      obtain ⟨⟨t, s2⟩, hcol, rfl⟩ := h
      simp only at hc1 hq1
      rcases collect_cases hcol with ⟨-, hb, rfl⟩ | ⟨j, -, hb, rfl⟩
      · simp only at hc1
        have : s.calls = [] := by
          cases hs : s.calls with
          | nil => rfl
          | cons a l => rw [hs] at hc1; cases t <;> simp at hc1
        rw [this] at hb
        simp at hb
      · have := (hQ hc1 hq1).noReoffer
        rw [this] at hb
        simp at hb
    | park =>
      simp only at h
      split at h <;> simp only [Option.some.injEq, reduceCtorEq] at h
      subst h
      obtain ⟨q1, q2, q3, q4, q5, q6⟩ := hQ hc1 hq1
      refine ⟨all_set_of _ _ q1 rfl, q2, q3, ?_, ?_, ?_⟩
      · simpa using q4
      · simpa using q5
      · simpa using q6
  case taskDone w =>
    split at h <;> first | contradiction | skip
    simp only [Option.some.injEq] at h
    subst h
    rename_i t hw
    have := all_get_of _ (hQ hc1 hq1).fresh hw
    simp at this
  case taskPanic w =>
    split at h <;> first | contradiction | skip
    simp only [Option.some.injEq] at h
    subst h
    rename_i t hw
    have := all_get_of _ (hQ hc1 hq1).fresh hw
    simp at this
  case taskGoexit w =>
    split at h <;> first | contradiction | skip
    simp only [Option.some.injEq] at h
    subst h
    rename_i t hw
    have := all_get_of _ (hQ hc1 hq1).fresh hw
    simp at this
  case workerRelease w =>
    split at h
    · simp at h
    split at h <;> simp only [Option.some.injEq, reduceCtorEq] at h <;> subst h <;>
      rename_i hw _ <;> have := all_get_of _ (hQ hc1 hq1).fresh hw <;> simp at this
  case workerDone w =>
    split at h <;> first | contradiction | skip
    all_goals
      simp only [Option.some.injEq] at h
      subst h
      rename_i hw
      have := all_get_of _ (hQ hc1 hq1).fresh hw
      simp at this
  case schedule c =>
    split at h <;> first | contradiction | skip
    unfold Schedule at h
    cases c with
    | quit =>
      simp only at h
      split at h <;> simp only [Option.some.injEq, reduceCtorEq] at h
      subst h
      simp at hc1
    | send r =>
      simp only [Option.map_eq_some'] at h
      obtain ⟨s2, hdel, rfl⟩ := h
      simp at hc1
    | dflt =>
      simp only at h
      split at h
      · simp at h
      · split at h <;> simp only [Option.some.injEq] at h <;> subst h <;> simp at hc1
  case sendArrive x r =>
    cases x with
    | call i =>
      simp only at h
      split at h <;> first | contradiction | skip
      rename_i hi
      have hs : s.calls = [] := by
        cases r with
        | none =>
          simp only at h
          split at h <;> simp only [Option.some.injEq, reduceCtorEq] at h
          subst h
          simp only at hc1
          cases hs : s.calls with
          | nil => rfl
          | cons a l => rw [hs] at hc1; cases i <;> simp at hc1
        | some r =>
          simp only [Option.map_eq_some'] at h
          obtain ⟨s2, hdel, rfl⟩ := h
          simp only at hc1
          rw [(deliver_frame hdel).1] at hc1
          cases hs : s.calls with
          | nil => rfl
          | cons a l => rw [hs] at hc1; cases i <;> simp at hc1
      rw [hs] at hi
      simp at hi
    | reoffer j =>
      simp only at h
      split at h <;> first | contradiction | skip
      rename_i t hj
      have hs : s.calls = [] ∧ s.quit = false := by
        cases r with
        | none =>
          simp only at h
          split at h <;> simp only [Option.some.injEq, reduceCtorEq] at h
          subst h
          exact ⟨hc1, hq1⟩
        | some r =>
          simp only [Option.map_eq_some'] at h
          obtain ⟨s2, hdel, rfl⟩ := h
          simp only at hc1 hq1
          rw [(deliver_frame hdel).1] at hc1
          rw [(deliver_frame hdel).2.2.1] at hq1
          exact ⟨hc1, hq1⟩
      have := (hQ hs.1 hs.2).noReoffer
      rw [this] at hj
      simp at hj
  case freeClose =>
    split at h <;> first | contradiction | skip
    split at h <;> simp only [Option.some.injEq] at h <;> subst h
    · rename_i hq
      simp only at hq1
      rw [hq] at hq1
      simp at hq1
    · simp at hq1
  case freeWait =>
    split at h <;> first | contradiction | skip
    split at h <;> simp only [Option.some.injEq, reduceCtorEq] at h
    subst h
    obtain ⟨q1, q2, q3, q4, q5, q6⟩ := hQ hc1 hq1
    exact ⟨q1, q2, q3, q4, q5, q6⟩

theorem quietInv_init (p : Pool) : QuietInv p init := by
  constructor <;> simp [init]

theorem ctorRounds_run (p : Pool) (hp : p.preAlloc = true) (hcap : p.activeCap = p.capacity)
    (i : Nat) (hi : (i : Int) ≤ p.capacity) : run p init (ctorRounds i) = some (ctorState i) := by
  induction i with
  | zero => rfl
  | succ i ih =>
    have hlt : (i : Int) < p.capacity := by push_cast at hi; omega
    rw [ctorRounds, run_append, ih (by omega)]
    simp only [Option.some_bind, run, step, ctorState, init, hp, hlt, newWorker, hcap,
      Bool.true_and, decide_True, if_true, Bool.false_eq_true, if_false]
    simp only [Option.some.injEq, State.mk.injEq, true_and, and_true, List.replicate_succ']
    push_cast
    trivial

/-- C7: New(c, WithPreAllocWorkers(true)) returns, and whenever it has returned
and no Schedule call and no Free has happened yet, exactly k workers have been
spawned, all of them alive at their select, the active channel holds k units
and is full, and the wait group counts k, where k is the clamped capacity of
c. -/
theorem New_preAlloc_spawns_capacity (c : Int) :
    (New c [.WithPreAllocWorkers true]).capacity =
        (if c ≤ 0 then 100 else if c > 10000 then 10000 else c) ∧
      (∃ (acts : List Action) (s : State),
        run (New c [.WithPreAllocWorkers true]) init acts = some s ∧ s.ctor = .done ∧
          s.calls = [] ∧ s.quit = false) ∧
      ∀ s : State, Reachable (New c [.WithPreAllocWorkers true]) s → s.ctor = .done →
        s.calls = [] → s.quit = false →
        (s.workers.length : Int) = (New c [.WithPreAllocWorkers true]).capacity ∧
          s.workers.all WorkerSt.isFresh = true ∧
          (s.active : Int) = (New c [.WithPreAllocWorkers true]).capacity ∧
          (s.active : Int) = (New c [.WithPreAllocWorkers true]).activeCap ∧
          s.wg = (New c [.WithPreAllocWorkers true]).capacity := by
  have hcl := New_capacity_facts c [.WithPreAllocWorkers true]
  have hp : (New c [.WithPreAllocWorkers true]).preAlloc = true := rfl
  refine ⟨hcl.1, ?_, ?_⟩
  · have hk : (((New c [.WithPreAllocWorkers true]).capacity.toNat : Nat) : Int) =
        (New c [.WithPreAllocWorkers true]).capacity := Int.toNat_of_nonneg (by omega)
    have hrun := ctorRounds_run _ hp hcl.2.2.2 _ (le_of_eq hk)
    refine ⟨ctorRounds (New c [.WithPreAllocWorkers true]).capacity.toNat ++ [.ctorRun],
      { ctorState (New c [.WithPreAllocWorkers true]).capacity.toNat with
        ctor := .done, ctrl := .entry }, ?_, rfl, rfl, rfl⟩
    rw [run_append, hrun]
    simp only [Option.some_bind, run, step, ctorState, init, hp, hk, Bool.true_and,
      lt_self_iff_false, decide_False, Bool.false_eq_true, if_false]
  · intro s hr hd hc hq
    obtain ⟨acts, hrun⟩ := hr
    have hI := run_invariant (New c [.WithPreAllocWorkers true])
      (fun s => SlotInv (New c [.WithPreAllocWorkers true]) s ∧ s.ctrl.isLazy = false ∧
        (s.calls = [] → s.quit = false → QuietInv (New c [.WithPreAllocWorkers true]) s))
      (fun s0 a s1 hI hst => ⟨slotInv_step hI.1 hst, eagerCtrl_step hp hI.2.1 hst,
        quiet_step hp hcl.2.2.2 hI.1 hI.2.1 hI.2.2 hst⟩)
      acts init s ⟨slotInv_init _ (by omega), rfl, fun _ _ => quietInv_init _⟩ hrun
    obtain ⟨hS, -, hQ⟩ := hI
    obtain ⟨q1, q2, q3, q4, q5, q6⟩ := hQ hc hq
    have h1 := hS.slots
    have h2 := hS.wg
    obtain ⟨f1, f2⟩ := fresh_counts q1
    simp only [holding, hd, CtorSt.pending, q3] at h1
    simp only [live] at h2
    have h3 := q6 hd
    refine ⟨h3, q1, by omega, by omega, by omega⟩

theorem New_preAlloc_spawns_capacity_witness :
    (eagerReadyState.workers.length : Int) = (New 1 [.WithPreAllocWorkers true]).capacity ∧
      eagerReadyState.workers.all WorkerSt.isFresh = true ∧
      (eagerReadyState.active : Int) = (New 1 [.WithPreAllocWorkers true]).capacity ∧
      (eagerReadyState.active : Int) = (New 1 [.WithPreAllocWorkers true]).activeCap ∧
      eagerReadyState.wg = (New 1 [.WithPreAllocWorkers true]).capacity :=
  (New_preAlloc_spawns_capacity 1).2.2 eagerReadyState ⟨eagerReadyTrace, by decide⟩ rfl rfl rfl

/-! ## At-most-once execution -/

theorem exec_set {l : List WorkerSt} {i w t : Nat} {v : WorkerSt}
    (h : (l.set i v)[w]? = some (.exec t)) : l[w]? = some (.exec t) ∨ (i = w ∧ v = .exec t) := by
  rw [List.getElem?_set] at h
  by_cases hiw : i = w
  · simp only [hiw, if_true] at h
    split at h
    · simp only [Option.some.injEq] at h
      exact Or.inr ⟨hiw, h⟩
    · simp at h
  · simp only [hiw, if_false] at h
    exact Or.inl h

theorem exec_append_start {l : List WorkerSt} {w t : Nat}
    (h : (l ++ [WorkerSt.start])[w]? = some (.exec t)) : l[w]? = some (.exec t) := by
  rw [List.getElem?_append] at h
  split at h
  · exact h
  · rename_i hlt
    cases hk : w - l.length with
    | zero => simp [hk] at h
    | succ k => simp [hk] at h

theorem exec_map_wake {l : List WorkerSt} {w t : Nat}
    (h : (l.map WorkerSt.wake)[w]? = some (.exec t)) : l[w]? = some (.exec t) := by
  rw [List.getElem?_map] at h
  cases hl : l[w]? with
  | none => simp [hl] at h
  | some v =>
    rw [hl] at h
    cases v <;> simp [WorkerSt.wake] at h ⊢
    exact h

theorem execLogged_setIdle {s : State} (hI : ExecLogged s) (i : Nat) (v : WorkerSt)
    (hv : ∀ t, v ≠ .exec t) (ws : List WorkerSt) (hws : ws = s.workers.set i v) (lg : List (Nat × Nat))
    (hlg : ∀ e ∈ s.log, e ∈ lg) : ∀ w t : Nat, ws[w]? = some (.exec t) → (w, t) ∈ lg := by
  intro w t h
  subst hws
  rcases exec_set h with h1 | ⟨-, h2⟩
  · exact hlg _ (hI w t h1)
  · exact absurd h2 (hv t)

theorem execLogged_collect {x : Sender} {s : State} {ts : Nat × State} (hI : ExecLogged s)
    (h : collect x s = some ts) : ExecLogged ts.2 := by
  obtain ⟨t, s1⟩ := ts
  obtain ⟨a, -, -, -, -, -, -, b, -⟩ := collect_frame h
  intro w u hw
  simp only at hw ⊢
  rw [a] at hw
  rw [b]
  exact hI w u hw

theorem execLogged_deliver {r : Receiver} {s : State} {t : Nat} {s1 : State}
    (hI : ExecLogged s) (h : deliver r t s = some s1) : ExecLogged s1 := by
  rcases deliver_cases h with ⟨w, -, -, rfl⟩ | ⟨-, -, rfl⟩
  · intro w1 u hw
    simp only at hw ⊢
    rcases exec_set hw with h1 | ⟨h2, h3⟩
    · exact List.mem_append_left _ (hI w1 u h1)
    · simp only [WorkerSt.exec.injEq] at h3
      subst h2 h3
      simp
  · exact hI

theorem execLogged_step {p : Pool} {s s1 : State} {a : Action} (hI : ExecLogged s)
    (h : step p s a = some s1) : ExecLogged s1 := by
  unfold step at h
  split at h
  · simp at h
  cases a <;> simp only at h
  case ctorSpawn =>
    split at h <;> first | contradiction | skip
    split at h <;> simp only [Option.some.injEq, reduceCtorEq] at h
    subst h
    intro w t hw
    exact hI w t (exec_append_start hw)
  case ctrlSpawn =>
    split at h <;> first | contradiction | skip
    simp only [Option.some.injEq] at h
    subst h
    intro w t hw
    exact hI w t (exec_append_start hw)
  case ctrlRange x =>
    split at h <;> first | contradiction | skip
    cases x with
    | none =>
      simp only at h
      split at h <;> simp only [Option.some.injEq, reduceCtorEq] at h
      subst h
      exact hI
    | some x =>
      simp only [Option.map_eq_some'] at h
      obtain ⟨ts, hcol, rfl⟩ := h
      exact execLogged_collect hI hcol
  case ctrlSelect c =>
    unfold runSelect at h
    split at h <;> first | contradiction | skip
    all_goals
      cases c <;> simp only at h <;> split at h <;>
        simp only [Option.some.injEq, reduceCtorEq] at h <;> subst h <;> exact hI
  case workerSelect w c =>
    split at h <;> first | contradiction | skip
    cases c with
    | quit =>
      simp only at h
      split at h <;> simp only [Option.some.injEq, reduceCtorEq] at h
      subst h
      exact execLogged_setIdle hI w .quitting (by simp) _ rfl _ (fun _ he => he)
    | recv x =>
      simp only [Option.map_eq_some'] at h
      obtain ⟨ts, hcol, rfl⟩ := h
      have h2 := execLogged_collect hI hcol
      intro w1 u hw
      simp only at hw ⊢
      rcases exec_set hw with h1 | ⟨h3, h4⟩
      · exact List.mem_append_left _ (h2 w1 u h1)
      · simp only [WorkerSt.exec.injEq] at h4
        subst h3 h4
        simp
    | park =>
      simp only at h
      split at h <;> simp only [Option.some.injEq, reduceCtorEq] at h
      subst h
      exact execLogged_setIdle hI w .parked (by simp) _ rfl _ (fun _ he => he)
  case taskDone w =>
    split at h <;> first | contradiction | skip
    simp only [Option.some.injEq] at h
    subst h
    exact execLogged_setIdle hI w .start (by simp) _ rfl _ (fun _ he => he)
  case taskPanic w =>
    split at h <;> first | contradiction | skip
    simp only [Option.some.injEq] at h
    subst h
    exact execLogged_setIdle hI w .panicked (by simp) _ rfl _ (fun _ he => he)
  case taskGoexit w =>
    split at h <;> first | contradiction | skip
    simp only [Option.some.injEq] at h
    subst h
    exact execLogged_setIdle hI w .unwound (by simp) _ rfl _ (fun _ he => he)
  case workerRelease w =>
    split at h
    · simp at h
    split at h <;> simp only [Option.some.injEq, reduceCtorEq] at h <;> subst h <;>
      exact execLogged_setIdle hI w .released (by simp) _ rfl _ (fun _ he => he)
  case workerDone w =>
    split at h <;> first | contradiction | skip
    · simp only [Option.some.injEq] at h
      subst h
      exact execLogged_setIdle hI w .dead (by simp) _ rfl _ (fun _ he => he)
    · simp only [Option.some.injEq] at h
      subst h
      exact execLogged_setIdle hI w .leaked (by simp) _ rfl _ (fun _ he => he)
  case schedule c =>
    split at h <;> first | contradiction | skip
    unfold Schedule at h
    cases c with
    | quit =>
      simp only at h
      split at h <;> simp only [Option.some.injEq, reduceCtorEq] at h
      subst h
      exact hI
    | send r =>
      simp only [Option.map_eq_some'] at h
      obtain ⟨s2, hdel, rfl⟩ := h
      have h2 := execLogged_deliver hI hdel
      exact h2
    | dflt =>
      simp only at h
      split at h
      · simp at h
      · split at h <;> simp only [Option.some.injEq] at h <;> subst h <;> exact hI
  case sendArrive x r =>
    cases x <;> simp only at h <;> split at h <;> first | contradiction | skip
    all_goals
      cases r with
      | none =>
        simp only at h
        split at h <;> simp only [Option.some.injEq, reduceCtorEq] at h
        subst h
        exact hI
      | some r =>
        simp only [Option.map_eq_some'] at h
        obtain ⟨s2, hdel, rfl⟩ := h
        have h2 := execLogged_deliver hI hdel
        exact h2
  case freeClose =>
    split at h <;> first | contradiction | skip
    split at h <;> simp only [Option.some.injEq] at h <;> subst h
    · exact hI
    · intro w t hw
      exact hI w t (exec_map_wake hw)
  all_goals
    split at h <;> first | contradiction | skip
    all_goals first
      | (simp only [Option.some.injEq] at h; subst h; exact hI)
      | ((split at h <;> simp only [Option.some.injEq, reduceCtorEq] at h); subst h; exact hI)

theorem execLogged_reachable {p : Pool} {s : State} (h : Reachable p s) : ExecLogged s := by
  obtain ⟨acts, hrun⟩ := h
  refine run_invariant p ExecLogged (fun _ _ _ hI hst => execLogged_step hI hst) acts init s
    ?_ hrun
  intro w t hw
  simp [init] at hw

theorem eq_of_mem_short {α : Type} {l : List α} {a b : α} (hl : l.length ≤ 1) (ha : a ∈ l)
    (hb : b ∈ l) : a = b := by
  match l, hl with
  | [], _ => simp at ha
  | [x], _ =>
    simp only [List.mem_singleton] at ha hb
    rw [ha, hb]
  | _ :: _ :: _, hl => simp at hl

/-- C5: in every reachable state of a pool built by New, every task occurs at
most once in the execution log (re-offers through returnTask included), every
worker that is running a task has its receipt of that task in the log, and so
no two workers run the same task. -/
theorem task_executed_at_most_once (c : Int) (opts : List PoolOption) (s : State)
    (h : Reachable (New c opts) s) (t : Nat) :
    (s.log.filter fun e => decide (e.2 = t)).length ≤ 1 ∧
      (∀ w : Nat, s.workers[w]? = some (.exec t) → (w, t) ∈ s.log) ∧
      ∀ w1 w2 : Nat, s.workers[w1]? = some (.exec t) → s.workers[w2]? = some (.exec t) →
        w1 = w2 := by
  have h1 := log_count_le_one c opts s h t
  have h2 := execLogged_reachable h
  refine ⟨h1, fun w hw => h2 w t hw, ?_⟩
  intro w1 w2 hw1 hw2
  have m1 : (w1, t) ∈ s.log.filter fun e => decide (e.2 = t) := by
    simp [List.mem_filter, h2 w1 t hw1]
  have m2 : (w2, t) ∈ s.log.filter fun e => decide (e.2 = t) := by
    simp [List.mem_filter, h2 w2 t hw2]
  have := eq_of_mem_short h1 m1 m2
  simpa using this

theorem task_executed_at_most_once_witness :
    (busyState.log.filter fun e => decide (e.2 = 0)).length ≤ 1 ∧
      (∀ w : Nat, busyState.workers[w]? = some (.exec 0) → (w, 0) ∈ busyState.log) ∧
      ∀ w1 w2 : Nat, busyState.workers[w1]? = some (.exec 0) →
        busyState.workers[w2]? = some (.exec 0) → w1 = w2 :=
  task_executed_at_most_once 1 [.WithPreAllocWorkers true, .WithBlock false] busyState
    ⟨busyTrace, by decide⟩ 0

/-! ## Double shutdown -/

/-- After an unrecovered panic nothing runs any more. -/
theorem step_crashed (p : Pool) (s : State) (a : Action) (h : s.crashed = true) :
    step p s a = none := by
  unfold step
  simp [h]

/-- C17: in every reachable state of a pool built by New in which the quit
signal is closed (Free has been called) and the program is still running, a
call of Free panics in close(p.quit) instead of returning: the panic is not
recovered, and no goroutine takes a step afterwards. -/
theorem second_free_faults (c : Int) (opts : List PoolOption) (s : State)
    (hr : Reachable (New c opts) s) (hq : s.quit = true) (hc : s.crashed = false) :
    step (New c opts) s .freeClose = some { s with crashed := true } ∧
      ∀ a, step (New c opts) { s with crashed := true } a = none := by
  have hd : s.ctor = .done :=
    slotInv_done_of (reachable_inv c opts s hr).1 (Or.inr (Or.inl hq))
  refine ⟨?_, fun a => step_crashed _ _ a rfl⟩
  unfold step
  simp [hc, hd, hq]

theorem second_free_faults_witness :
    step (New 1 []) freedLazyState .freeClose = some { freedLazyState with crashed := true } ∧
      ∀ a, step (New 1 []) { freedLazyState with crashed := true } a = none :=
  second_free_faults 1 [] freedLazyState ⟨freedLazyTrace, by decide⟩ rfl rfl

/-! ## Rendezvous on the task channel -/

theorem any_of_any_set {α : Type} (f : α → Bool) {l : List α} {i : Nat} {b : α}
    (h : (l.set i b).any f = true) (hb : f b = false) : l.any f = true := by
  simp only [List.any_eq_true] at h ⊢
  obtain ⟨x, hx, hfx⟩ := h
  rcases List.mem_or_eq_of_mem_set hx with hx | rfl
  · exact ⟨x, hx, hfx⟩
  · rw [hb] at hfx
    cases hfx

theorem any_of_any_push {α : Type} (f : α → Bool) {l : List α} {b : α}
    (h : (l ++ [b]).any f = true) (hb : f b = false) : l.any f = true := by
  simpa [hb] using h

theorem any_parked_wake (l : List WorkerSt) :
    (l.map WorkerSt.wake).any WorkerSt.isParked = false := by
  induction l with
  | nil => rfl
  | cons w l ih =>
    simp only [List.map_cons, List.any_cons, ih, Bool.or_false]
    cases w <;> rfl

theorem noWaitingPair_mono {s s1 : State} (hI : NoWaitingPair s)
    (hs : hasParkedSender s1 = true → hasParkedSender s = true)
    (hr : hasParkedReceiver s1 = true → hasParkedReceiver s = true) : NoWaitingPair s1 := by
  rcases hI with h | h
  · left
    cases h1 : hasParkedSender s1 with
    | false => rfl
    | true => rw [hs h1] at h; cases h
  · right
    cases h1 : hasParkedReceiver s1 with
    | false => rfl
    | true => rw [hr h1] at h; cases h

theorem sender_collect {x : Sender} {s : State} {t : Nat} {s1 : State}
    (h : collect x s = some (t, s1)) :
    (hasParkedSender s1 = true → hasParkedSender s = true) ∧ s1.workers = s.workers ∧
      s1.ctrl = s.ctrl := by
  rcases collect_cases h with ⟨-, -, rfl⟩ | ⟨j, -, -, rfl⟩
  · refine ⟨fun h1 => ?_, rfl, rfl⟩
    simp only [hasParkedSender, Bool.or_eq_true] at h1 ⊢
    rcases h1 with h1 | h1
    · exact Or.inl (any_of_any_set _ h1 rfl)
    · exact Or.inr h1
  · refine ⟨fun h1 => ?_, rfl, rfl⟩
    simp only [hasParkedSender, Bool.or_eq_true] at h1 ⊢
    rcases h1 with h1 | h1
    · exact Or.inl h1
    · exact Or.inr (any_of_any_set _ h1 rfl)

theorem receiver_deliver {r : Receiver} {s : State} {t : Nat} {s1 : State}
    (h : deliver r t s = some s1) :
    (hasParkedReceiver s1 = true → hasParkedReceiver s = true) ∧ s1.calls = s.calls ∧
      s1.reoffers = s.reoffers := by
  rcases deliver_cases h with ⟨w, -, -, rfl⟩ | ⟨-, hc, rfl⟩
  · refine ⟨fun h1 => ?_, rfl, rfl⟩
    simp only [hasParkedReceiver, Bool.or_eq_true] at h1 ⊢
    rcases h1 with h1 | h1
    · exact Or.inl (any_of_any_set _ h1 rfl)
    · exact Or.inr h1
  · refine ⟨fun h1 => ?_, rfl, rfl⟩
    simp only [hasParkedReceiver, Bool.or_eq_true] at h1 ⊢
    rcases h1 with h1 | h1
    · exact Or.inl h1
    · cases h1

theorem sender_mono_of {s s1 : State}
    (hc : s1.calls.any CallSt.isBlocked = true → s.calls.any CallSt.isBlocked = true)
    (hr : s1.reoffers.any SendSt.isParked = true → s.reoffers.any SendSt.isParked = true) :
    hasParkedSender s1 = true → hasParkedSender s = true := by
  intro h1
  simp only [hasParkedSender, Bool.or_eq_true] at h1 ⊢
  exact h1.imp hc hr

theorem receiver_mono_of {s s1 : State}
    (hw : s1.workers.any WorkerSt.isParked = true → s.workers.any WorkerSt.isParked = true)
    (hc : s1.ctrl.isRangeParked = true → s.ctrl.isRangeParked = true) :
    hasParkedReceiver s1 = true → hasParkedReceiver s = true := by
  intro h1
  simp only [hasParkedReceiver, Bool.or_eq_true] at h1 ⊢
  exact h1.imp hw hc

theorem rangeParked_wake {c : CtrlSt} (h : c.wake.isRangeParked = true) :
    c.isRangeParked = true := by
  cases c <;> exact h

theorem noWaitingPair_step {p : Pool} {s s1 : State} {a : Action} (hI : NoWaitingPair s)
    (h : step p s a = some s1) : NoWaitingPair s1 := by
  unfold step at h
  split at h
  · simp at h
  cases a <;> simp only at h
  case ctrlRange x =>
    split at h
    · cases x with
      | none =>
        simp only at h
        split at h
        · simp at h
        · rename_i hps
          simp only [Option.some.injEq] at h
          subst h
          exact Or.inl (by simpa [hasParkedSender] using hps)
      | some x =>
        simp only [Option.map_eq_some'] at h
        obtain ⟨⟨t, s2⟩, hcol, rfl⟩ := h
        obtain ⟨hs, hw, -⟩ := sender_collect hcol
        refine noWaitingPair_mono hI hs (receiver_mono_of (fun h1 => ?_) (fun h1 => ?_))
        · rw [← hw]
          exact h1
        · cases h1
    · simp at h
  case ctrlEnter =>
    split at h
    · simp only [Option.some.injEq] at h
      subst h
      refine noWaitingPair_mono hI (fun h1 => h1) (receiver_mono_of (fun h1 => h1) (fun h1 => ?_))
      simp only at h1
      split at h1 <;> cases h1
    · simp at h
  case ctrlSelect c =>
    split at h
    · unfold runSelect at h
      cases c <;> simp only at h <;> split at h <;>
        simp only [Option.some.injEq, reduceCtorEq] at h <;> subst h <;>
        exact noWaitingPair_mono hI (fun h1 => h1)
          (receiver_mono_of (fun h1 => h1) (fun h1 => by cases h1))
    · unfold runSelect at h
      cases c <;> simp only at h <;> split at h <;>
        simp only [Option.some.injEq, reduceCtorEq] at h <;> subst h <;>
        exact noWaitingPair_mono hI (fun h1 => h1)
          (receiver_mono_of (fun h1 => h1) (fun h1 => by cases h1))
    · simp at h
  case ctrlSpawn =>
    split at h
    · rename_i b hc
      simp only [Option.some.injEq] at h
      subst h
      refine noWaitingPair_mono hI (fun h1 => h1)
        (receiver_mono_of (fun h1 => any_of_any_push _ h1 rfl) (fun h1 => ?_))
      simp only at h1
      split at h1 <;> cases h1
    · simp at h
  case workerSelect w c =>
    split at h
    · cases c with
      | quit =>
        simp only at h
        split at h <;> simp only [Option.some.injEq, reduceCtorEq] at h
        subst h
        exact noWaitingPair_mono hI (fun h1 => h1)
          (receiver_mono_of (fun h1 => any_of_any_set _ h1 rfl) (fun h1 => h1))
      | recv x =>
        simp only [Option.map_eq_some'] at h
        obtain ⟨⟨t, s2⟩, hcol, rfl⟩ := h
        obtain ⟨hs, hw, hc⟩ := sender_collect hcol
        refine noWaitingPair_mono hI hs (receiver_mono_of (fun h1 => ?_) (fun h1 => ?_))
        · rw [← hw]
          exact any_of_any_set _ h1 rfl
        · rw [← hc]
          exact h1
      | park =>
        simp only at h
        split at h
        · simp at h
        · rename_i hps
          simp only [Option.some.injEq] at h
          subst h
          refine Or.inl ?_
          simp only [Bool.or_eq_true, not_or, Bool.not_eq_true] at hps
          exact hps.2
    · simp at h
  case schedule c =>
    split at h
    · unfold Schedule at h
      cases c with
      | quit =>
        simp only at h
        split at h <;> simp only [Option.some.injEq, reduceCtorEq] at h
        subst h
        exact noWaitingPair_mono hI
          (sender_mono_of (fun h1 => any_of_any_push _ h1 rfl) (fun h1 => h1)) (fun h1 => h1)
      | send r =>
        simp only [Option.map_eq_some'] at h
        obtain ⟨s2, hdel, rfl⟩ := h
        obtain ⟨hr, hcl, hro⟩ := receiver_deliver hdel
        refine noWaitingPair_mono hI (sender_mono_of (fun h1 => ?_) (fun h1 => ?_)) hr
        · rw [← hcl]
          exact any_of_any_push _ h1 rfl
        · rw [← hro]
          exact h1
      | dflt =>
        simp only at h
        split at h
        · simp at h
        · split at h <;> simp only [Option.some.injEq] at h <;> subst h <;>
            exact noWaitingPair_mono hI
              (sender_mono_of (fun h1 => any_of_any_push _ h1 rfl) (fun h1 => h1))
              (fun h1 => h1)
    · simp at h
  case sendArrive x r =>
    cases x <;> simp only at h <;> split at h <;> first | contradiction | skip
    all_goals
      cases r with
      | none =>
        simp only at h
        split at h
        · simp at h
        · rename_i hpr
          simp only [Option.some.injEq] at h
          subst h
          exact Or.inr (by simpa [hasParkedReceiver] using hpr)
      | some r =>
        simp only [Option.map_eq_some'] at h
        obtain ⟨s2, hdel, rfl⟩ := h
        obtain ⟨hr, hcl, hro⟩ := receiver_deliver hdel
        refine noWaitingPair_mono hI (sender_mono_of (fun h1 => ?_) (fun h1 => ?_)) hr
        · rw [← hcl]
          first | exact h1 | exact any_of_any_set _ h1 rfl
        · rw [← hro]
          first | exact h1 | exact any_of_any_set _ h1 rfl
  case workerRelease w =>
    split at h
    · simp at h
    split at h <;> simp only [Option.some.injEq, reduceCtorEq] at h <;> subst h <;>
      exact noWaitingPair_mono hI (fun h1 => h1)
        (receiver_mono_of (fun h1 => any_of_any_set _ h1 rfl)
          (fun h1 => by first | exact h1 | cases h1))
  case freeClose =>
    split at h
    · split at h <;> simp only [Option.some.injEq] at h <;> subst h
      · exact hI
      · refine noWaitingPair_mono hI (fun h1 => h1)
          (receiver_mono_of (fun h1 => ?_) rangeParked_wake)
        simp only [any_parked_wake] at h1
        cases h1
    · simp at h
  case ctorSpawn =>
    split at h
    · split at h <;> simp only [Option.some.injEq, reduceCtorEq] at h
      subst h
      exact noWaitingPair_mono hI (fun h1 => h1)
        (receiver_mono_of (fun h1 => any_of_any_push _ h1 rfl) (fun h1 => h1))
    · simp at h
  case ctorAcquire =>
    split at h
    · split at h <;> simp only [Option.some.injEq, reduceCtorEq] at h
      subst h
      exact hI
    · simp at h
  case ctorRun =>
    split at h
    · split at h <;> simp only [Option.some.injEq, reduceCtorEq] at h
      subst h
      exact noWaitingPair_mono hI (fun h1 => h1)
        (receiver_mono_of (fun h1 => h1) (fun h1 => by cases h1))
    · simp at h
  case ctrlReturnTask =>
    split at h
    · simp only [Option.some.injEq] at h
      subst h
      exact noWaitingPair_mono hI
        (sender_mono_of (fun h1 => h1) (fun h1 => any_of_any_push _ h1 rfl))
        (receiver_mono_of (fun h1 => h1) (fun h1 => by cases h1))
    · simp at h
  case taskDone w =>
    split at h
    · simp only [Option.some.injEq] at h
      subst h
      exact noWaitingPair_mono hI (fun h1 => h1)
        (receiver_mono_of (fun h1 => any_of_any_set _ h1 rfl) (fun h1 => h1))
    · simp at h
  case taskPanic w =>
    split at h
    · simp only [Option.some.injEq] at h
      subst h
      exact noWaitingPair_mono hI (fun h1 => h1)
        (receiver_mono_of (fun h1 => any_of_any_set _ h1 rfl) (fun h1 => h1))
    · simp at h
  case taskGoexit w =>
    split at h
    · simp only [Option.some.injEq] at h
      subst h
      exact noWaitingPair_mono hI (fun h1 => h1)
        (receiver_mono_of (fun h1 => any_of_any_set _ h1 rfl) (fun h1 => h1))
    · simp at h
  case workerDone w =>
    split at h
    · simp only [Option.some.injEq] at h
      subst h
      exact noWaitingPair_mono hI (fun h1 => h1)
        (receiver_mono_of (fun h1 => any_of_any_set _ h1 rfl) (fun h1 => h1))
    · simp only [Option.some.injEq] at h
      subst h
      exact noWaitingPair_mono hI (fun h1 => h1)
        (receiver_mono_of (fun h1 => any_of_any_set _ h1 rfl) (fun h1 => h1))
    · simp at h
  case freeWait =>
    split at h
    · split at h <;> simp only [Option.some.injEq, reduceCtorEq] at h
      subst h
      exact hI
    · simp at h

theorem noWaitingPair_reachable {p : Pool} {s : State} (h : Reachable p s) :
    NoWaitingPair s := by
  obtain ⟨acts, hrun⟩ := h
  exact run_invariant p NoWaitingPair (fun _ _ _ hI hst => noWaitingPair_step hI hst) acts
    init s (Or.inl rfl) hrun

/-- C16 (counterexample): in the lazy pool New(2) the controller is parked in
its receive and worker 0, idle again, is parked in its select; a Schedule call
hands task 1 to the controller, which re-offers it, takes a slot and spawns
worker 1 although worker 0 was waiting to receive. -/
theorem controller_receives_beside_idle_worker :
    Reachable lazyTwo idleWorkerState ∧ lazyTwo.preAlloc = false ∧
      idleWorkerState.workers[0]? = some .parked ∧
      step lazyTwo idleWorkerState (.schedule (.send .ctrl)) =
        some { idleWorkerState with ctrl := .got 1, calls := [.retNil, .retNil] } ∧
      (run lazyTwo { idleWorkerState with ctrl := .got 1, calls := [.retNil, .retNil] }
        spawnTrace).map (fun s => (s.workers, s.active)) = some ([.parked, .start], 2) :=
  ⟨⟨idleWorkerTrace, by decide⟩, by decide, by decide, by decide, by decide⟩

/-- C16 (amended): in every reachable state of a pool built by New in which the
controller, arriving at the receive of its range loop, takes a task from a
sender that is already waiting, no worker is waiting to receive on the Task
Channel, and neither is any other goroutine. -/
theorem receive_on_arrival_no_idle_worker (c : Int) (opts : List PoolOption) (s s1 : State)
    (x : Sender) (hr : Reachable (New c opts) s)
    (h : step (New c opts) s (.ctrlRange (some x)) = some s1) :
    s.workers.any WorkerSt.isParked = false ∧ hasParkedReceiver s = false := by
  have hI := noWaitingPair_reachable hr
  unfold step at h
  split at h
  · simp at h
  simp only at h
  split at h
  · simp only [Option.map_eq_some'] at h
    obtain ⟨⟨t, s2⟩, hcol, -⟩ := h
    have hs : hasParkedSender s = true := by
      unfold hasParkedSender
      rcases collect_cases hcol with ⟨-, hb, -⟩ | ⟨j, -, hb, -⟩
      · have : s.calls.any CallSt.isBlocked = true :=
          List.any_eq_true.mpr ⟨_, List.getElem?_mem hb, rfl⟩
        simp [this]
      · have : s.reoffers.any SendSt.isParked = true :=
          List.any_eq_true.mpr ⟨_, List.getElem?_mem hb, rfl⟩
        simp [this]
    rcases hI with h0 | h0
    · rw [hs] at h0
      cases h0
    · refine ⟨?_, h0⟩
      unfold hasParkedReceiver at h0
      simp only [Bool.or_eq_false_iff] at h0
      exact h0.1
  · simp at h

theorem receive_on_arrival_no_idle_worker_witness :
    waitingCallerState.workers.any WorkerSt.isParked = false ∧
      hasParkedReceiver waitingCallerState = false :=
  receive_on_arrival_no_idle_worker 1 [] waitingCallerState
    { waitingCallerState with ctrl := .got 0, calls := [.retNil] } (.call 0)
    ⟨waitingCallerTrace, by decide⟩ (by decide)

/-! ## A panicking task -/

theorem liveInv_collect {p : Pool} {x : Sender} {s : State} {t : Nat} {s1 : State}
    (hI : LiveInv p s) (h : collect x s = some (t, s1)) : LiveInv p s1 := by
  obtain ⟨a, b, c, d, -, e, -⟩ := collect_frame h
  obtain ⟨i1, i2, i3⟩ := hI
  exact ⟨by rw [b, d]; exact i1, by rw [e, b, a]; exact i2, by rw [b, c]; exact i3⟩

theorem liveInv_deliver {p : Pool} {r : Receiver} {s : State} {t : Nat} {s1 : State}
    (hI : LiveInv p s) (h : deliver r t s = some s1) : LiveInv p s1 := by
  obtain ⟨i1, i2, i3⟩ := hI
  rcases deliver_cases h with ⟨w, -, -, rfl⟩ | ⟨-, hc, rfl⟩
  · exact ⟨i1, fun hq => ⟨(i2 hq).1, all_set_of _ _ (i2 hq).2 rfl⟩, i3⟩
  · refine ⟨fun _ hn => ?_, fun hq => ⟨fun hn => ?_, (i2 hq).2⟩, fun hn => ?_⟩ <;> cases hn

/-- Updates that leave `quit`, `ctor`, `ctrl` and `active` alone. -/
theorem liveInv_congr {p : Pool} {s s1 : State} (hI : LiveInv p s)
    (hq : s1.quit = s.quit) (ht : s1.ctor = .done → s.ctor = .done) (hc : s1.ctrl = s.ctrl)
    (ha : s1.active = s.active)
    (hw : s.workers.all WorkerSt.notQuitting = true →
      s1.workers.all WorkerSt.notQuitting = true) : LiveInv p s1 := by
  obtain ⟨i1, i2, i3⟩ := hI
  refine ⟨fun hd => ?_, fun hq1 => ?_, fun hm => ?_⟩
  · rw [hc]
    exact i1 (ht hd)
  · rw [hq] at hq1
    rw [hc]
    exact ⟨(i2 hq1).1, hw (i2 hq1).2⟩
  · rw [hc] at hm
    rw [ha]
    exact i3 hm

/-- The controller moves to a state that is neither `exited`, `notStarted` nor
`mainParked`. -/
theorem liveInv_ctrl {p : Pool} {s s1 : State} (hI : LiveInv p s)
    (hq : s1.quit = s.quit) (hc1 : s1.ctrl ≠ .notStarted) (hc2 : s1.ctrl ≠ .exited)
    (hc3 : s1.ctrl ≠ .mainParked)
    (hw : s.workers.all WorkerSt.notQuitting = true →
      s1.workers.all WorkerSt.notQuitting = true) : LiveInv p s1 := by
  obtain ⟨i1, i2, i3⟩ := hI
  refine ⟨fun _ => hc1, fun hq1 => ?_, fun hm => absurd hm hc3⟩
  rw [hq] at hq1
  exact ⟨hc2, hw (i2 hq1).2⟩

theorem all_push_of {α : Type} (f : α → Bool) {l : List α} {b : α} (hb : f b = true)
    (h : l.all f = true) : (l ++ [b]).all f = true := by
  simp [List.all_append, h, hb]

theorem liveInv_step {p : Pool} {s s1 : State} {a : Action} (hS : SlotInv p s)
    (hI : LiveInv p s) (h : step p s a = some s1) : LiveInv p s1 := by
  unfold step at h
  split at h
  · simp at h
  cases a <;> simp only at h
  case ctorSpawn =>
    split at h
    · split at h <;> simp only [Option.some.injEq, reduceCtorEq] at h
      subst h
      exact liveInv_congr hI rfl (fun hd => by cases hd) rfl rfl
        (fun hw => all_push_of _ rfl hw)
    · simp at h
  case ctorAcquire =>
    split at h
    · rename_i i hc
      split at h <;> simp only [Option.some.injEq, reduceCtorEq] at h
      subst h
      have hn := (hS.early (by rw [hc]; simp)).1
      refine ⟨fun hd => (by cases hd), hI.running, fun hm => ?_⟩
      simp only at hm
      rw [hn] at hm
      cases hm
    · simp at h
  case ctorRun =>
    split at h
    · split at h <;> simp only [Option.some.injEq, reduceCtorEq] at h
      subst h
      exact liveInv_ctrl hI rfl (by simp) (by simp) (by simp) (fun hw => hw)
    · simp at h
  case ctrlEnter =>
    split at h
    · simp only [Option.some.injEq] at h
      subst h
      refine liveInv_ctrl hI rfl ?_ ?_ ?_ (fun hw => hw) <;> simp only <;> split <;> simp
    · simp at h
  case ctrlRange x =>
    split at h
    · cases x with
      | none =>
        simp only at h
        split at h <;> simp only [Option.some.injEq, reduceCtorEq] at h
        subst h
        exact liveInv_ctrl hI rfl (by simp) (by simp) (by simp) (fun hw => hw)
      | some x =>
        simp only [Option.map_eq_some'] at h
        obtain ⟨⟨t, s2⟩, hcol, rfl⟩ := h
        exact liveInv_ctrl (liveInv_collect hI hcol) rfl (by simp) (by simp) (by simp)
          (fun hw => hw)
    · simp at h
  case ctrlReturnTask =>
    split at h
    · simp only [Option.some.injEq] at h
      subst h
      exact liveInv_ctrl hI rfl (by simp) (by simp) (by simp) (fun hw => hw)
    · simp at h
  case ctrlSelect c =>
    have hsel : ∀ b, runSelect p s b c = some s1 → LiveInv p s1 := by
      intro b hsel
      unfold runSelect at hsel
      cases c with
      | quit =>
        simp only at hsel
        split at hsel <;> simp only [Option.some.injEq, reduceCtorEq] at hsel
        rename_i hq
        subst hsel
        exact ⟨fun _ => by simp, fun hq1 => by simp [hq] at hq1, fun hm => by cases hm⟩
      | acquire =>
        simp only at hsel
        split at hsel <;> simp only [Option.some.injEq, reduceCtorEq] at hsel
        subst hsel
        exact liveInv_ctrl hI rfl (by simp) (by simp) (by simp) (fun hw => hw)
      | dflt =>
        simp only at hsel
        split at hsel <;> simp only [Option.some.injEq, reduceCtorEq] at hsel
        rename_i hg
        subst hsel
        simp only [Bool.or_eq_true, decide_eq_true_eq, not_or, Bool.not_eq_true] at hg
        refine ⟨fun _ => ?_, fun hq1 => ⟨?_, (hI.running hq1).2⟩, fun _ => ?_⟩
        · simp only
          split <;> simp
        · simp only
          split <;> simp
        · have := hS.bound
          simp only
          omega
    split at h
    · exact hsel _ h
    · exact hsel _ h
    · simp at h
  case ctrlSpawn =>
    split at h
    · simp only [Option.some.injEq] at h
      subst h
      refine liveInv_ctrl hI rfl ?_ ?_ ?_ (fun hw => all_push_of _ rfl hw) <;>
        simp only <;> split <;> simp
    · simp at h
  case workerSelect w c =>
    split at h
    · cases c with
      | quit =>
        simp only at h
        split at h <;> simp only [Option.some.injEq, reduceCtorEq] at h
        rename_i hq
        subst h
        exact ⟨hI.started, fun hq1 => by simp [hq] at hq1, hI.full⟩
      | recv x =>
        simp only [Option.map_eq_some'] at h
        obtain ⟨⟨t, s2⟩, hcol, rfl⟩ := h
        exact liveInv_congr (liveInv_collect hI hcol) rfl (fun hd => hd) rfl rfl
          (fun hw => all_set_of _ _ hw rfl)
      | park =>
        simp only at h
        split at h <;> simp only [Option.some.injEq, reduceCtorEq] at h
        subst h
        exact liveInv_congr hI rfl (fun hd => hd) rfl rfl (fun hw => all_set_of _ _ hw rfl)
    · simp at h
  case taskDone w =>
    split at h
    · simp only [Option.some.injEq] at h
      subst h
      exact liveInv_congr hI rfl (fun hd => hd) rfl rfl (fun hw => all_set_of _ _ hw rfl)
    · simp at h
  case taskPanic w =>
    split at h
    · simp only [Option.some.injEq] at h
      subst h
      exact liveInv_congr hI rfl (fun hd => hd) rfl rfl (fun hw => all_set_of _ _ hw rfl)
    · simp at h
  case taskGoexit w =>
    split at h
    · simp only [Option.some.injEq] at h
      subst h
      exact liveInv_congr hI rfl (fun hd => hd) rfl rfl (fun hw => all_set_of _ _ hw rfl)
    · simp at h
  case workerRelease w =>
    split at h
    · simp at h
    split at h <;> simp only [Option.some.injEq, reduceCtorEq] at h <;> subst h
    · exact liveInv_ctrl hI rfl (by simp) (by simp) (by simp) (fun hw => all_set_of _ _ hw rfl)
    · exact liveInv_ctrl hI rfl (by simp) (by simp) (by simp) (fun hw => all_set_of _ _ hw rfl)
    · rename_i hne
      exact ⟨hI.started, fun hq1 => ⟨(hI.running hq1).1, all_set_of _ _ (hI.running hq1).2 rfl⟩,
        fun hm => absurd hm hne⟩
    · rename_i hne
      exact ⟨hI.started, fun hq1 => ⟨(hI.running hq1).1, all_set_of _ _ (hI.running hq1).2 rfl⟩,
        fun hm => absurd hm hne⟩
  case workerDone w =>
    split at h
    · simp only [Option.some.injEq] at h
      subst h
      exact liveInv_congr hI rfl (fun hd => hd) rfl rfl (fun hw => all_set_of _ _ hw rfl)
    · simp only [Option.some.injEq] at h
      subst h
      exact liveInv_congr hI rfl (fun hd => hd) rfl rfl (fun hw => all_set_of _ _ hw rfl)
    · simp at h
  case schedule c =>
    split at h
    · unfold Schedule at h
      cases c with
      | quit =>
        simp only at h
        split at h <;> simp only [Option.some.injEq, reduceCtorEq] at h
        subst h
        exact liveInv_congr hI rfl (fun hd => hd) rfl rfl (fun hw => hw)
      | send r =>
        simp only [Option.map_eq_some'] at h
        obtain ⟨s2, hdel, rfl⟩ := h
        exact liveInv_congr (liveInv_deliver hI hdel) rfl (fun hd => hd) rfl rfl (fun hw => hw)
      | dflt =>
        simp only at h
        split at h
        · simp at h
        · split at h <;> simp only [Option.some.injEq] at h <;> subst h <;>
            exact liveInv_congr hI rfl (fun hd => hd) rfl rfl (fun hw => hw)
    · simp at h
  case sendArrive x r =>
    cases x <;> simp only at h <;> split at h <;> first | contradiction | skip
    all_goals
      cases r with
      | none =>
        simp only at h
        split at h <;> simp only [Option.some.injEq, reduceCtorEq] at h
        subst h
        exact liveInv_congr hI rfl (fun hd => hd) rfl rfl (fun hw => hw)
      | some r =>
        simp only [Option.map_eq_some'] at h
        obtain ⟨s2, hdel, rfl⟩ := h
        exact liveInv_congr (liveInv_deliver hI hdel) rfl (fun hd => hd) rfl rfl (fun hw => hw)
  case freeClose =>
    split at h
    · split at h <;> simp only [Option.some.injEq] at h <;> subst h
      · exact liveInv_congr hI rfl (fun hd => hd) rfl rfl (fun hw => hw)
      · refine ⟨fun hd => ?_, fun hq1 => (by cases hq1), fun hm => ?_⟩
        · have := hI.started hd
          revert this
          simp only
          cases s.ctrl <;> simp [CtrlSt.wake]
        · simp only at hm
          revert hm
          cases s.ctrl <;> simp [CtrlSt.wake]
    · simp at h
  case freeWait =>
    split at h
    · split at h <;> simp only [Option.some.injEq, reduceCtorEq] at h
      subst h
      exact liveInv_congr hI rfl (fun hd => hd) rfl rfl (fun hw => hw)
    · simp at h

theorem canAccept_step {p : Pool} {s s1 : State} {n : Nat} (a : Action)
    (h : step p s a = some s1) (hA : CanAccept p s1 n) : CanAccept p s n := by
  obtain ⟨acts, s2, hrun, hn⟩ := hA
  exact ⟨a :: acts, s2, by simp [run, h, hrun], hn⟩

theorem canAccept_parkedWorker {p : Pool} {s : State} {w : Nat} (hc : s.crashed = false)
    (hd : s.ctor = .done) (hw : s.workers[w]? = some .parked) :
    CanAccept p s s.calls.length := by
  refine ⟨[.schedule (.send (.worker w))],
    { s with
      workers := s.workers.set w (.exec s.calls.length), log := s.log ++ [(w, s.calls.length)],
      calls := s.calls ++ [.retNil] }, ?_, ?_⟩
  · simp [run, step, hc, hd, Schedule, deliver, hw]
  · simp

theorem canAccept_parkedCtrl {p : Pool} {s : State} (hc : s.crashed = false)
    (hd : s.ctor = .done) (hw : s.ctrl = .rangeParked) : CanAccept p s s.calls.length := by
  refine ⟨[.schedule (.send .ctrl)],
    { s with ctrl := .got s.calls.length, calls := s.calls ++ [.retNil] }, ?_, ?_⟩
  · simp [run, step, hc, hd, Schedule, deliver, hw]
  · simp

/-- A parked sender can be served, which leaves one parked sender less. -/
theorem exists_collect {s : State} (h : hasParkedSender s = true) :
    ∃ (x : Sender) (t : Nat) (s1 : State), collect x s = some (t, s1) ∧
      parkedSenders s1 + 1 = parkedSenders s ∧ s1.calls.length = s.calls.length := by
  unfold hasParkedSender at h
  simp only [Bool.or_eq_true, List.any_eq_true] at h
  rcases h with ⟨c, hc, hb⟩ | ⟨r, hr, hb⟩
  · obtain ⟨i, hi⟩ := List.mem_iff_getElem?.mp hc
    cases c <;> cases hb
    refine ⟨.call i, i, { s with calls := s.calls.set i .retNil }, ?_, ?_, ?_⟩
    · simp [collect, hi]
    · have := countP_set_get CallSt.isBlocked .retNil hi
      simp only [parkedSenders]
      simp [CallSt.isBlocked] at this
      omega
    · simp
  · obtain ⟨j, hj⟩ := List.mem_iff_getElem?.mp hr
    cases r <;> cases hb
    rename_i t
    refine ⟨.reoffer j, t, { s with reoffers := s.reoffers.set j (.done t) }, ?_, ?_, ?_⟩
    · simp [collect, hj]
    · have := countP_set_get SendSt.isParked (.done t) hj
      simp only [parkedSenders]
      simp [SendSt.isParked] at this
      omega
    · simp

/-- A worker at its select takes the parked senders one by one and then parks,
ready for the next `Schedule`. -/
theorem canAccept_start {p : Pool} (k : Nat) :
    ∀ (s : State) (w : Nat), parkedSenders s = k → s.crashed = false → s.quit = false →
      s.ctor = .done → s.workers[w]? = some .start → CanAccept p s s.calls.length := by
  induction k with
  | zero =>
    intro s w hk hc hq hd hw
    have hlt : w < s.workers.length := (List.getElem?_eq_some_iff.mp hw).1
    have hps : hasParkedSender s = false := by
      cases hh : hasParkedSender s with
      | false => rfl
      | true =>
        obtain ⟨x, t, s1, -, hcount, -⟩ := exists_collect hh
        omega
    have hst : step p s (.workerSelect w .park) =
        some { s with workers := s.workers.set w .parked } := by
      simp [step, hc, hw, hq, hps]
    refine canAccept_step _ hst ?_
    exact canAccept_parkedWorker (s := { s with workers := s.workers.set w .parked }) (w := w) hc hd
      (by simp [hlt])
  | succ k ih =>
    intro s w hk hc hq hd hw
    have hlt : w < s.workers.length := (List.getElem?_eq_some_iff.mp hw).1
    cases hh : hasParkedSender s with
    | false =>
      have hst : step p s (.workerSelect w .park) =
          some { s with workers := s.workers.set w .parked } := by
        simp [step, hc, hw, hq, hh]
      refine canAccept_step _ hst ?_
      exact canAccept_parkedWorker (s := { s with workers := s.workers.set w .parked }) (w := w) hc hd
        (by simp [hlt])
    | true =>
      obtain ⟨x, t, s1, hcol, hcount, hlen⟩ := exists_collect hh
      obtain ⟨e1, e2, e3, e4, e5, e6, e7, e8, e9, e10⟩ := collect_frame hcol
      have hst : step p s (.workerSelect w (.recv x)) =
          some { s1 with workers := s1.workers.set w (.exec t), log := s1.log ++ [(w, t)] } := by
        simp [step, hc, hw, hcol]
      have hlt1 : w < s1.workers.length := by rw [e1]; exact hlt
      have hst2 : step p
          { s1 with workers := s1.workers.set w (.exec t), log := s1.log ++ [(w, t)] }
          (.taskDone w) =
          some { s1 with workers := s1.workers.set w .start, log := s1.log ++ [(w, t)] } := by
        simp [step, e9, hc, hlt1]
      refine canAccept_step _ hst (canAccept_step _ hst2 ?_)
      have := ih { s1 with workers := s1.workers.set w .start, log := s1.log ++ [(w, t)] } w
        (by simp only [parkedSenders] at hcount hk ⊢; omega) (by rw [← hc]; exact e9)
        (by rw [← hq]; exact e6) (by rw [← hd]; exact e4) (by simp [hlt1])
      rw [← hlen]
      exact this

theorem canAccept_exec {p : Pool} {s : State} {w t : Nat} (hc : s.crashed = false)
    (hq : s.quit = false) (hd : s.ctor = .done) (hw : s.workers[w]? = some (.exec t)) :
    CanAccept p s s.calls.length := by
  have hlt : w < s.workers.length := (List.getElem?_eq_some_iff.mp hw).1
  have hst : step p s (.taskDone w) = some { s with workers := s.workers.set w .start } := by
    simp [step, hc, hw]
  exact canAccept_step _ hst
    (canAccept_start _ { s with workers := s.workers.set w .start } w rfl hc hq hd
      (by simp [hlt]))

theorem canAccept_acquired {p : Pool} {s : State} {b : Bool} (hc : s.crashed = false)
    (hq : s.quit = false) (hd : s.ctor = .done) (hw : s.ctrl = .acquired b) :
    CanAccept p s s.calls.length := by
  have hst : step p s .ctrlSpawn =
      some { newWorker s with
        idx := s.idx + 1, ctrl := if b then .rangeRecv else .mainSelect } := by
    simp [step, hc, hw]
  exact canAccept_step _ hst
    (canAccept_start _ { newWorker s with
        idx := s.idx + 1, ctrl := if b then .rangeRecv else .mainSelect } s.workers.length
      rfl hc hq hd (by simp [newWorker]))

theorem canAccept_select {p : Pool} {s : State} (hc : s.crashed = false)
    (hq : s.quit = false) (hd : s.ctor = .done)
    (hw : s.ctrl = .lazySelect ∨ s.ctrl = .mainSelect) (ha : (s.active : Int) < p.activeCap) :
    CanAccept p s s.calls.length := by
  rcases hw with hw | hw
  · have hst : step p s (.ctrlSelect .acquire) =
        some { s with active := s.active + 1, ctrl := .acquired true } := by
      simp [step, hc, hw, runSelect, ha]
    exact canAccept_step _ hst
      (canAccept_acquired (s := { s with active := s.active + 1, ctrl := .acquired true })
        hc hq hd rfl)
  · have hst : step p s (.ctrlSelect .acquire) =
        some { s with active := s.active + 1, ctrl := .acquired false } := by
      simp [step, hc, hw, runSelect, ha]
    exact canAccept_step _ hst
      (canAccept_acquired (s := { s with active := s.active + 1, ctrl := .acquired false })
        hc hq hd rfl)

theorem canAccept_got {p : Pool} {s : State} {t : Nat} (hc : s.crashed = false)
    (hq : s.quit = false) (hd : s.ctor = .done) (hw : s.ctrl = .got t)
    (ha : (s.active : Int) < p.activeCap) : CanAccept p s s.calls.length := by
  have hst : step p s .ctrlReturnTask = some { returnTask t s with ctrl := .lazySelect } := by
    simp [step, hc, hw]
  exact canAccept_step _ hst
    (canAccept_select (s := { returnTask t s with ctrl := .lazySelect }) hc hq hd (Or.inl rfl)
      ha)

theorem canAccept_rangeRecv {p : Pool} {s : State} (hc : s.crashed = false)
    (hq : s.quit = false) (hd : s.ctor = .done) (hw : s.ctrl = .rangeRecv)
    (ha : (s.active : Int) < p.activeCap) : CanAccept p s s.calls.length := by
  cases hh : hasParkedSender s with
  | false =>
    have hst : step p s (.ctrlRange none) = some { s with ctrl := .rangeParked } := by
      simp [step, hc, hw, hh]
    exact canAccept_step _ hst
      (canAccept_parkedCtrl (s := { s with ctrl := .rangeParked }) hc hd rfl)
  | true =>
    obtain ⟨x, t, s1, hcol, -, hlen⟩ := exists_collect hh
    obtain ⟨e1, e2, e3, e4, e5, e6, e7, e8, e9, e10⟩ := collect_frame hcol
    have hst : step p s (.ctrlRange (some x)) = some { s1 with ctrl := .got t } := by
      simp [step, hc, hw, hcol]
    have := canAccept_got (p := p) (s := { s1 with ctrl := .got t }) (t := t)
      (by rw [← hc]; exact e9) (by rw [← hq]; exact e6) (by rw [← hd]; exact e4) rfl
      (by rw [← e3] at ha; exact ha)
    rw [← hlen]
    exact canAccept_step _ hst this

/-- With a free slot, or a slot already taken for the next worker, the
controller can bring the pool to accept a task. -/
theorem canAccept_ctrl {p : Pool} {s : State} (hc : s.crashed = false)
    (hq : s.quit = false) (hd : s.ctor = .done) (h1 : s.ctrl ≠ .notStarted)
    (h2 : s.ctrl ≠ .exited) (h3 : s.ctrl ≠ .mainParked)
    (ha : (s.active : Int) < p.activeCap ∨ ∃ b, s.ctrl = .acquired b) :
    CanAccept p s s.calls.length := by
  cases hw : s.ctrl with
  | notStarted => exact absurd hw h1
  | exited => exact absurd hw h2
  | mainParked => exact absurd hw h3
  | acquired b => exact canAccept_acquired hc hq hd hw
  | rangeParked => exact canAccept_parkedCtrl hc hd hw
  | entry =>
    have ha1 : (s.active : Int) < p.activeCap := by
      rcases ha with ha | ⟨b, hb⟩
      · exact ha
      · rw [hw] at hb
        cases hb
    have hst : step p s .ctrlEnter =
        some { s with idx := s.active, ctrl := if p.preAlloc then .mainSelect else .rangeRecv } := by
      simp [step, hc, hw]
    refine canAccept_step _ hst ?_
    cases hp : p.preAlloc with
    | true =>
      exact canAccept_select
        (s := { s with idx := s.active, ctrl := if true then .mainSelect else .rangeRecv })
        hc hq hd (Or.inr rfl) ha1
    | false =>
      exact canAccept_rangeRecv
        (s := { s with idx := s.active, ctrl := if false then .mainSelect else .rangeRecv })
        hc hq hd rfl ha1
  | rangeRecv =>
    rcases ha with ha | ⟨b, hb⟩
    · exact canAccept_rangeRecv hc hq hd hw ha
    · rw [hw] at hb
      cases hb
  | got t =>
    rcases ha with ha | ⟨b, hb⟩
    · exact canAccept_got hc hq hd hw ha
    · rw [hw] at hb
      cases hb
  | lazySelect =>
    rcases ha with ha | ⟨b, hb⟩
    · exact canAccept_select hc hq hd (Or.inl hw) ha
    · rw [hw] at hb
      cases hb
  | mainSelect =>
    rcases ha with ha | ⟨b, hb⟩
    · exact canAccept_select hc hq hd (Or.inr hw) ha
    · rw [hw] at hb
      cases hb

theorem liveInv_reachable (c : Int) (opts : List PoolOption) (s : State)
    (h : Reachable (New c opts) s) : LiveInv (New c opts) s := by
  obtain ⟨acts, hrun⟩ := h
  have hcap := New_capacity_facts c opts
  have hinit : LiveInv (New c opts) init :=
    ⟨fun hd => (by cases hd), fun _ => ⟨(by simp [init]), rfl⟩, fun hm => (by cases hm)⟩
  exact (run_invariant (New c opts) (fun s => SlotInv (New c opts) s ∧ LiveInv (New c opts) s)
    (fun _ _ _ hI hst => ⟨slotInv_step hI.1 hst, liveInv_step hI.1 hI.2 hst⟩) acts
    init s ⟨slotInv_init _ (by omega), hinit⟩ hrun).2

/-- A worker that holds a slot keeps `active` non-empty. -/
theorem active_pos_of_holder {p : Pool} {s : State} {w : Nat} {v : WorkerSt}
    (hS : SlotInv p s) (hd : s.ctor = .done) (hw : s.workers[w]? = some v)
    (hv : v.holdsSlot = true) : s.active ≠ 0 := by
  have hpos : 0 < holding s := List.countP_pos_iff.mpr ⟨v, List.getElem?_mem hw, hv⟩
  have := hS.slots
  rw [hd] at this
  simp only [CtorSt.pending] at this
  intro h0
  omega

theorem dead_set {l : List WorkerSt} {i w : Nat} {v : WorkerSt} (x : WorkerSt)
    (hw : l[w]? = some .dead) (hi : l[i]? = some v) (hv : v ≠ .dead) :
    (l.set i x)[w]? = some .dead := by
  rw [List.getElem?_set]
  by_cases hiw : i = w
  · subst hiw
    rw [hw] at hi
    simp only [Option.some.injEq] at hi
    exact absurd hi.symm hv
  · simp [hiw, hw]

theorem dead_append {l : List WorkerSt} {w : Nat} (x : WorkerSt) (hw : l[w]? = some .dead) :
    (l ++ [x])[w]? = some .dead := by
  rw [List.getElem?_append_left (List.getElem?_eq_some.1 hw).1]
  exact hw

theorem dead_map_wake {l : List WorkerSt} {w : Nat} (hw : l[w]? = some .dead) :
    (l.map WorkerSt.wake)[w]? = some .dead := by
  rw [List.getElem?_map, hw]
  rfl

theorem terminated_collect {x : Sender} {s : State} {ts : Nat × State} {w : Nat}
    (hw : s.workers[w]? = some .dead) (h : collect x s = some ts) :
    ts.2.workers[w]? = some .dead ∧ ts.2.log = s.log := by
  obtain ⟨t, s1⟩ := ts
  obtain ⟨a, -, -, -, -, -, -, b, -⟩ := collect_frame h
  simp only
  rw [a, b]
  exact ⟨hw, rfl⟩

theorem terminated_deliver {r : Receiver} {s : State} {t : Nat} {s1 : State} {w : Nat}
    (hw : s.workers[w]? = some .dead) (h : deliver r t s = some s1) :
    s1.workers[w]? = some .dead ∧ ∀ e ∈ s.log, e ∈ s1.log := by
  rcases deliver_cases h with ⟨w1, -, hp, rfl⟩ | ⟨-, -, rfl⟩
  · exact ⟨dead_set _ hw hp (by simp), fun e he => List.mem_append_left _ he⟩
  · exact ⟨hw, fun e he => he⟩

/-- A terminated worker stays terminated, and the execution log only grows. -/
theorem terminated_step {p : Pool} {s s1 : State} {a : Action} {w : Nat}
    (hw : s.workers[w]? = some .dead) (h : step p s a = some s1) :
    s1.workers[w]? = some .dead ∧ ∀ e ∈ s.log, e ∈ s1.log := by
  unfold step at h
  split at h
  · simp at h
  cases a <;> simp only at h
  case ctorSpawn =>
    split at h
    · split at h <;> simp only [Option.some.injEq, reduceCtorEq] at h
      subst h
      exact ⟨dead_append _ hw, fun e he => he⟩
    · simp at h
  case ctrlSpawn =>
    split at h
    · simp only [Option.some.injEq] at h
      subst h
      exact ⟨dead_append _ hw, fun e he => he⟩
    · simp at h
  case ctrlRange x =>
    split at h
    · cases x with
      | none =>
        simp only at h
        split at h <;> simp only [Option.some.injEq, reduceCtorEq] at h
        subst h
        exact ⟨hw, fun e he => he⟩
      | some x =>
        simp only [Option.map_eq_some'] at h
        obtain ⟨ts, hcol, rfl⟩ := h
        obtain ⟨h1, h2⟩ := terminated_collect hw hcol
        exact ⟨h1, fun e he => by simp only [h2]; exact he⟩
    · simp at h
  case ctrlSelect c =>
    split at h
    · unfold runSelect at h
      cases c <;> simp only at h <;> split at h <;>
        simp only [Option.some.injEq, reduceCtorEq] at h <;> subst h <;>
        exact ⟨hw, fun e he => he⟩
    · unfold runSelect at h
      cases c <;> simp only at h <;> split at h <;>
        simp only [Option.some.injEq, reduceCtorEq] at h <;> subst h <;>
        exact ⟨hw, fun e he => he⟩
    · simp at h
  case workerSelect w1 c =>
    split at h
    · rename_i hw1
      cases c with
      | quit =>
        simp only at h
        split at h <;> simp only [Option.some.injEq, reduceCtorEq] at h
        subst h
        exact ⟨dead_set _ hw hw1 (by simp), fun e he => he⟩
      | recv x =>
        simp only [Option.map_eq_some'] at h
        obtain ⟨⟨t, s2⟩, hcol, rfl⟩ := h
        obtain ⟨a, -, -, -, -, -, -, b, -⟩ := collect_frame hcol
        refine ⟨?_, fun e he => ?_⟩
        · simp only
          rw [a]
          exact dead_set _ hw hw1 (by simp)
        · simp only
          rw [b]
          exact List.mem_append_left _ he
      | park =>
        simp only at h
        split at h <;> simp only [Option.some.injEq, reduceCtorEq] at h
        subst h
        exact ⟨dead_set _ hw hw1 (by simp), fun e he => he⟩
    · simp at h
  case taskDone w1 =>
    split at h
    · rename_i hw1
      simp only [Option.some.injEq] at h
      subst h
      exact ⟨dead_set _ hw hw1 (by simp), fun e he => he⟩
    · simp at h
  case taskPanic w1 =>
    split at h
    · rename_i hw1
      simp only [Option.some.injEq] at h
      subst h
      exact ⟨dead_set _ hw hw1 (by simp), fun e he => he⟩
    · simp at h
  case taskGoexit w1 =>
    split at h
    · rename_i hw1
      simp only [Option.some.injEq] at h
      subst h
      exact ⟨dead_set _ hw hw1 (by simp), fun e he => he⟩
    · simp at h
  case workerDone w1 =>
    split at h
    · rename_i hw1
      simp only [Option.some.injEq] at h
      subst h
      exact ⟨dead_set _ hw hw1 (by simp), fun e he => he⟩
    · rename_i hw1
      simp only [Option.some.injEq] at h
      subst h
      exact ⟨dead_set _ hw hw1 (by simp), fun e he => he⟩
    · simp at h
  case workerRelease w1 =>
    split at h
    · simp at h
    split at h <;> simp only [Option.some.injEq, reduceCtorEq] at h <;> subst h
    · rename_i hw1 _
      exact ⟨dead_set _ hw hw1 (by simp), fun e he => he⟩
    · rename_i hw1 _
      exact ⟨dead_set _ hw hw1 (by simp), fun e he => he⟩
    · rename_i hw1 _
      exact ⟨dead_set _ hw hw1 (by simp), fun e he => he⟩
    · rename_i hw1 _
      exact ⟨dead_set _ hw hw1 (by simp), fun e he => he⟩
  case schedule c =>
    split at h
    · unfold Schedule at h
      cases c with
      | quit =>
        simp only at h
        split at h <;> simp only [Option.some.injEq, reduceCtorEq] at h
        subst h
        exact ⟨hw, fun e he => he⟩
      | send r =>
        simp only [Option.map_eq_some'] at h
        obtain ⟨s2, hdel, rfl⟩ := h
        have hdl := terminated_deliver hw hdel
        exact hdl
      | dflt =>
        simp only at h
        split at h
        · simp at h
        · split at h <;> simp only [Option.some.injEq] at h <;> subst h <;>
            exact ⟨hw, fun e he => he⟩
    · simp at h
  case sendArrive x r =>
    cases x <;> simp only at h <;> split at h <;> first | contradiction | skip
    all_goals
      cases r with
      | none =>
        simp only at h
        split at h <;> simp only [Option.some.injEq, reduceCtorEq] at h
        subst h
        exact ⟨hw, fun e he => he⟩
      | some r =>
        simp only [Option.map_eq_some'] at h
        obtain ⟨s2, hdel, rfl⟩ := h
        have hdl := terminated_deliver hw hdel
        exact hdl
  case freeClose =>
    split at h
    · split at h <;> simp only [Option.some.injEq] at h <;> subst h
      · exact ⟨hw, fun e he => he⟩
      · exact ⟨dead_map_wake hw, fun e he => he⟩
    · simp at h
  all_goals
    split at h <;> first | contradiction | skip
    all_goals first
      | (simp only [Option.some.injEq] at h; subst h; exact ⟨hw, fun e he => he⟩)
      | ((split at h <;> simp only [Option.some.injEq, reduceCtorEq] at h); subst h;
          exact ⟨hw, fun e he => he⟩)

theorem terminated_run {p : Pool} {w : Nat} {e : Nat × Nat} (acts : List Action) (s s1 : State)
    (hw : s.workers[w]? = some .dead) (he : e ∈ s.log) (h : run p s acts = some s1) :
    s1.workers[w]? = some .dead ∧ e ∈ s1.log :=
  run_invariant p (fun s => s.workers[w]? = some .dead ∧ e ∈ s.log)
    (fun _ _ _ hI hst => ⟨(terminated_step hI.1 hst).1, (terminated_step hI.1 hst).2 e hI.2⟩)
    acts s s1 ⟨hw, he⟩ h

/-- The three transitions of a worker whose task panics, and what they change. -/
theorem panic_steps {p : Pool} {s : State} {w t : Nat} (hS : SlotInv p s)
    (hc : s.crashed = false) (hw : s.workers[w]? = some (.exec t)) :
    ∃ s1 s2 s3 : State,
      step p s (.taskPanic w) = some s1 ∧ step p s1 (.workerRelease w) = some s2 ∧
      step p s2 (.workerDone w) = some s3 ∧
      s3.workers = s.workers.set w .dead ∧
      ((s.ctrl = .mainParked ∧ s3.ctrl = .acquired false ∧ s3.active = s.active) ∨
        (s.ctrl ≠ .mainParked ∧ s3.ctrl = s.ctrl ∧ s3.active + 1 = s.active)) ∧
      s3.wg = s.wg - 1 ∧ s3.quit = s.quit ∧ s3.calls = s.calls ∧ s3.reoffers = s.reoffers ∧
      s3.log = s.log ∧ s3.crashed = false ∧ s3.ctor = .done := by
  have hd : s.ctor = .done :=
    slotInv_done_of hS (Or.inr (Or.inr (Or.inr (Or.inr (Or.inr (all_false_of_get _ hw rfl))))))
  have hlt : w < s.workers.length := (List.getElem?_eq_some_iff.mp hw).1
  have hact : s.active ≠ 0 := active_pos_of_holder hS hd hw rfl
  have hst1 : step p s (.taskPanic w) = some { s with workers := s.workers.set w .panicked } := by
    simp [step, hc, hw]
  by_cases hm : s.ctrl = .mainParked
  · refine ⟨_, { s with workers := s.workers.set w .released, ctrl := .acquired false },
      { s with workers := s.workers.set w .dead, ctrl := .acquired false, wg := s.wg - 1 },
      hst1, ?_, ?_, rfl, Or.inl ⟨hm, rfl, rfl⟩, rfl, rfl, rfl, rfl, rfl, hc, hd⟩
    · simp [step, hc, hact, hlt, hm]
    · simp [step, hc, hlt]
  · refine ⟨_, { s with workers := s.workers.set w .released, active := s.active - 1 },
      { s with workers := s.workers.set w .dead, active := s.active - 1, wg := s.wg - 1 },
      hst1, ?_, ?_, rfl, Or.inr ⟨hm, rfl, by simp only; omega⟩, rfl, rfl, rfl, rfl, rfl, hc, hd⟩
    · unfold step
      simp only [hc, hact, hlt, List.getElem?_set_self, List.length_set, List.set_set]
      revert hm
      cases s.ctrl <;> simp
    · simp [step, hc, hlt]

/-- A worker that has recovered a panic can only receive from `active`, and,
in a reachable state, it can: the receive never blocks. A worker that has
released its slot can only run `p.wg.Done()`. -/
theorem recovered_worker_next (c : Int) (opts : List PoolOption) (s : State) (w : Nat)
    (hr : Reachable (New c opts) s) (hc : s.crashed = false) :
    (s.workers[w]? = some .panicked →
      (∃ s1, step (New c opts) s (.workerRelease w) = some s1 ∧
        s1.workers = s.workers.set w .released ∧ s1.wg = s.wg ∧
        ((s.ctrl = .mainParked ∧ s1.ctrl = .acquired false ∧ s1.active = s.active) ∨
          (s.ctrl ≠ .mainParked ∧ s1.ctrl = s.ctrl ∧ s1.active + 1 = s.active))) ∧
        step (New c opts) s (.taskDone w) = none ∧ step (New c opts) s (.taskPanic w) = none ∧
        step (New c opts) s (.workerDone w) = none ∧
        ∀ k, step (New c opts) s (.workerSelect w k) = none) ∧
      (s.workers[w]? = some .released →
        step (New c opts) s (.workerDone w) =
            some { s with workers := s.workers.set w .dead, wg := s.wg - 1 } ∧
          step (New c opts) s (.taskDone w) = none ∧
          step (New c opts) s (.taskPanic w) = none ∧
          step (New c opts) s (.workerRelease w) = none ∧
          ∀ k, step (New c opts) s (.workerSelect w k) = none) := by
  have hS := (reachable_inv c opts s hr).1
  constructor
  · intro hw
    have hd : s.ctor = .done :=
      slotInv_done_of hS (Or.inr (Or.inr (Or.inr (Or.inr (Or.inr (all_false_of_get _ hw rfl))))))
    have hact : s.active ≠ 0 := active_pos_of_holder hS hd hw rfl
    refine ⟨?_, by simp [step, hw], by simp [step, hw], by simp [step, hw],
      fun k => by simp [step, hw]⟩
    by_cases hm : s.ctrl = .mainParked
    · exact ⟨{ s with workers := s.workers.set w .released, ctrl := .acquired false },
        by simp [step, hc, hact, hw, hm], rfl, rfl, Or.inl ⟨hm, rfl, rfl⟩⟩
    · refine ⟨{ s with workers := s.workers.set w .released, active := s.active - 1 },
        ?_, rfl, rfl, Or.inr ⟨hm, rfl, by simp only; omega⟩⟩
      unfold step
      simp only [hc, hact, hw]
      revert hm
      cases s.ctrl <;> simp
  · intro hw
    refine ⟨by simp [step, hc, hw], by simp [step, hw], by simp [step, hw], ?_,
      fun k => by simp [step, hw]⟩
    unfold step
    simp only [hw]
    cases s.ctrl <;> simp

theorem starved_worker {p : Pool} {s : State} (h : Starved p s) (w : Nat) :
    s.workers[w]? = none ∨ s.workers[w]? = some .released ∨ s.workers[w]? = some .dead ∨
      s.workers[w]? = some .unwound ∨ s.workers[w]? = some .leaked := by
  cases hw : s.workers[w]? with
  | none => exact Or.inl rfl
  | some v =>
    have := all_get_of _ h.gone hw
    cases v <;> simp [WorkerSt.isGone] at this ⊢

theorem starved_deliver {p : Pool} {s : State} (h : Starved p s) (r : Receiver) (t : Nat) :
    deliver r t s = none := by
  unfold deliver
  cases r with
  | worker w => rcases starved_worker h w with hw | hw | hw | hw | hw <;> simp [hw]
  | ctrl =>
    have := h.main
    cases hc : s.ctrl <;> simp [hc, CtrlSt.isLazy] at this ⊢

theorem retNil_of_append {l : List CallSt} {c : CallSt} {j : Nat} (hc : c ≠ .retNil)
    (h : (l ++ [c])[j]? = some .retNil) : l[j]? = some .retNil := by
  rw [List.getElem?_append] at h
  split at h
  · exact h
  · cases hk : j - l.length with
    | zero =>
      simp only [hk, List.getElem?_cons_zero, Option.some.injEq] at h
      exact absurd h hc
    | succ k => simp [hk] at h

theorem retNil_of_set {l : List CallSt} {c : CallSt} {i j : Nat} (hc : c ≠ .retNil)
    (h : (l.set i c)[j]? = some .retNil) : l[j]? = some .retNil := by
  rw [List.getElem?_set] at h
  by_cases hij : i = j
  · simp only [hij, if_true] at h
    split at h
    · simp only [Option.some.injEq] at h
      exact absurd h hc
    · simp at h
  · simpa [hij] using h

/-- A starved pool stays starved, and no `Schedule` call returns nil in it. -/
theorem starved_step {p : Pool} {s s1 : State} {a : Action} (hI : Starved p s)
    (h : step p s a = some s1) :
    Starved p s1 ∧ ∀ j : Nat, s1.calls[j]? = some .retNil → s.calls[j]? = some .retNil := by
  obtain ⟨hp, hd, hm, hi, hf, hg⟩ := hI
  have hI : Starved p s := ⟨hp, hd, hm, hi, hf, hg⟩
  unfold step at h
  split at h
  · simp at h
  cases a <;> simp only [hd] at h
  case ctrlEnter =>
    split at h
    · simp only [Option.some.injEq] at h
      subst h
      exact ⟨⟨hp, (by simp only [hd]), by simp [hp, CtrlSt.isLazy], by simp [hp], hf, hg⟩, fun j hj => hj⟩
    · simp at h
  case ctrlRange x =>
    split at h
    · rename_i hc
      rw [hc] at hm
      simp [CtrlSt.isLazy] at hm
    · simp at h
  case ctrlReturnTask =>
    split at h
    · rename_i hc
      rw [hc] at hm
      simp [CtrlSt.isLazy] at hm
    · simp at h
  case ctrlSelect c =>
    split at h
    · rename_i hc
      rw [hc] at hm
      simp [CtrlSt.isLazy] at hm
    · unfold runSelect at h
      cases c with
      | quit =>
        simp only at h
        split at h <;> simp only [Option.some.injEq, reduceCtorEq] at h
        subst h
        exact ⟨⟨hp, (by simp only [hd]), rfl, rfl, hf, hg⟩, fun j hj => hj⟩
      | acquire =>
        simp only at h
        split at h
        · rename_i hlt
          exact absurd hlt hf
        · simp at h
      | dflt =>
        simp only at h
        split at h <;> simp only [Option.some.injEq, reduceCtorEq] at h
        subst h
        exact ⟨⟨hp, (by simp only [hd]), rfl, rfl, hf, hg⟩, fun j hj => hj⟩
    · simp at h
  case ctrlSpawn =>
    split at h
    · rename_i hc
      rw [hc] at hi
      simp at hi
    · simp at h
  case workerSelect w c =>
    rcases starved_worker hI w with e | e | e | e | e <;> simp [e] at h
  case taskDone w => rcases starved_worker hI w with e | e | e | e | e <;> simp [e] at h
  case taskPanic w => rcases starved_worker hI w with e | e | e | e | e <;> simp [e] at h
  case taskGoexit w => rcases starved_worker hI w with e | e | e | e | e <;> simp [e] at h
  case workerRelease w =>
    split at h
    · simp at h
    · rcases starved_worker hI w with e | e | e | e | e <;> simp [e] at h
  case workerDone w =>
    split at h
    · simp only [Option.some.injEq] at h
      subst h
      exact ⟨⟨hp, (by simp only [hd]), hm, hi, hf, all_set_of _ _ hg rfl⟩, fun j hj => hj⟩
    · simp only [Option.some.injEq] at h
      subst h
      exact ⟨⟨hp, (by simp only [hd]), hm, hi, hf, all_set_of _ _ hg rfl⟩, fun j hj => hj⟩
    · simp at h
  case schedule c =>
    unfold Schedule at h
    cases c with
    | quit =>
      simp only at h
      split at h <;> simp only [Option.some.injEq, reduceCtorEq] at h
      subst h
      exact ⟨⟨hp, (by simp only [hd]), hm, hi, hf, hg⟩, fun j hj => retNil_of_append (by simp) hj⟩
    | send r => simp [starved_deliver hI] at h
    | dflt =>
      simp only at h
      split at h
      · simp at h
      · split at h <;> simp only [Option.some.injEq] at h <;> subst h <;>
          exact ⟨⟨hp, (by simp only [hd]), hm, hi, hf, hg⟩, fun j hj => retNil_of_append (by simp) hj⟩
  case sendArrive x r =>
    cases x with
    | call i =>
      simp only at h
      split at h
      · cases r with
        | none =>
          simp only at h
          split at h <;> simp only [Option.some.injEq, reduceCtorEq] at h
          subst h
          exact ⟨⟨hp, (by simp only [hd]), hm, hi, hf, hg⟩, fun j hj => retNil_of_set (by simp) hj⟩
        | some r => simp [starved_deliver hI] at h
      · simp at h
    | reoffer j =>
      simp only at h
      split at h
      · cases r with
        | none =>
          simp only at h
          split at h <;> simp only [Option.some.injEq, reduceCtorEq] at h
          subst h
          exact ⟨⟨hp, (by simp only [hd]), hm, hi, hf, hg⟩, fun j hj => hj⟩
        | some r => simp [starved_deliver hI] at h
      · simp at h
  case freeClose =>
    split at h <;> simp only [Option.some.injEq] at h <;> subst h
    · exact ⟨⟨hp, (by simp only [hd]), hm, hi, hf, hg⟩, fun j hj => hj⟩
    · refine ⟨⟨hp, (by simp only [hd]), ?_, ?_, hf, ?_⟩, fun j hj => hj⟩
      · simp only
        revert hm
        cases s.ctrl <;> simp [CtrlSt.isLazy, CtrlSt.wake]
      · simp only
        rw [pending_wake]
        exact hi
      · simp only [List.all_map]
        rw [List.all_eq_true] at hg ⊢
        intro v hv
        have := hg v hv
        cases v <;> simp [WorkerSt.isGone, WorkerSt.wake] at this ⊢
  case freeWait =>
    split at h
    · split at h <;> simp only [Option.some.injEq, reduceCtorEq] at h
      subst h
      exact ⟨⟨hp, (by simp only [hd]), hm, hi, hf, hg⟩, fun j hj => hj⟩
    · simp at h
  all_goals simp at h

theorem starved_run {p : Pool} (acts : List Action) (s s1 : State) (hI : Starved p s)
    (h : run p s acts = some s1) :
    ∀ j : Nat, s1.calls[j]? = some .retNil → s.calls[j]? = some .retNil := by
  induction acts generalizing s with
  | nil =>
    simp only [run, Option.some.injEq] at h
    subst h
    exact fun j hj => hj
  | cons a as ih =>
    simp only [run] at h
    cases hst : step p s a with
    | none => simp [hst] at h
    | some s2 =>
      rw [hst] at h
      obtain ⟨h2, hc⟩ := starved_step hI hst
      exact fun j hj => hc j (ih s2 h2 h j hj)

/-- C11 (counterexample): in the pool New(1, WithPreAllocWorkers(true)) worker 0
is running task 0, and the task ends its goroutine so that recover() returns
nil (runtime.Goexit(), or panic(nil) before Go 1.21). The worker cannot receive
from active; it runs Done and terminates with its slot still taken: active
stays full with no worker left, and in no continuation does a later Schedule
call return nil. -/
theorem goexit_leaks_slot :
    Reachable eagerOne busyState ∧ busyState.workers[0]? = some (.exec 0) ∧
      step eagerOne busyState (.taskGoexit 0) = some { busyState with workers := [.unwound] } ∧
      step eagerOne { busyState with workers := [.unwound] } (.workerRelease 0) = none ∧
      step eagerOne { busyState with workers := [.unwound] } (.workerDone 0) = some leakedState ∧
      leakedState.workers = [.leaked] ∧ leakedState.active = busyState.active ∧
      (leakedState.active : Int) = eagerOne.capacity ∧ leakedState.wg = busyState.wg - 1 ∧
      leakedState.quit = false ∧
      ∀ (acts : List Action) (s : State), run eagerOne leakedState acts = some s →
        ∀ j : Nat, leakedState.calls.length ≤ j → s.calls[j]? ≠ some .retNil := by
  refine ⟨⟨busyTrace, by decide⟩, by decide, by decide, by decide, by decide, by decide,
    by decide, by decide, by decide, by decide, ?_⟩
  intro acts s hrun j hj hbad
  have hS : Starved eagerOne leakedState :=
    ⟨by decide, by decide, by decide, by decide, by decide, by decide⟩
  have := starved_run acts leakedState s hS hrun j hbad
  rw [List.getElem?_eq_none hj] at this
  cases this

/-- C11 (amended): in every reachable state of a pool built by New in which
worker w is running task t, a panic of t with a value that recover() reports
(non-nil) is followed by exactly these transitions of w: it recovers, receives
once from active (the unit goes to the controller when that is parked sending
on the full channel, otherwise the occupancy drops by one), runs Done once and
terminates. Every other worker, the quit signal, the calls, the re-offer
goroutines and the log are as before; in every continuation w stays terminated,
t is held by no sender and is in the log exactly once; and if quit is open some
continuation has a new Schedule call that returns nil. -/
theorem panic_confined_to_worker (c : Int) (opts : List PoolOption) (s : State) (w t : Nat)
    (hr : Reachable (New c opts) s) (hc : s.crashed = false)
    (hw : s.workers[w]? = some (.exec t)) :
    ∃ s1 s2 s3 : State,
      step (New c opts) s (.taskPanic w) = some s1 ∧
      step (New c opts) s1 (.workerRelease w) = some s2 ∧
      step (New c opts) s2 (.workerDone w) = some s3 ∧
      s3.workers = s.workers.set w .dead ∧
      ((s.ctrl = .mainParked ∧ s3.ctrl = .acquired false ∧ s3.active = s.active) ∨
        (s.ctrl ≠ .mainParked ∧ s3.ctrl = s.ctrl ∧ s3.active + 1 = s.active)) ∧
      s3.wg = s.wg - 1 ∧ s3.quit = s.quit ∧ s3.calls = s.calls ∧ s3.reoffers = s.reoffers ∧
      s3.log = s.log ∧
      (∀ (acts : List Action) (s4 : State), run (New c opts) s3 acts = some s4 →
        s4.workers[w]? = some .dead ∧ reofferCount s4 t = 0 ∧ callHolds s4 t = 0 ∧
          s4.ctrl.holds t = 0 ∧ logCount s4 t = 1) ∧
      (s.quit = false → CanAccept (New c opts) s3 s3.calls.length) := by
  have hS := (reachable_inv c opts s hr).1
  have hlt : w < s.workers.length := (List.getElem?_eq_some_iff.mp hw).1
  have hlog : (w, t) ∈ s.log := execLogged_reachable hr w t hw
  obtain ⟨s1, s2, s3, h1, h2, h3, e1, e2, e3, e4, e5, e6, e7, e8, e9⟩ := panic_steps hS hc hw
  have hr3 : Reachable (New c opts) s3 :=
    reachable_run [.taskPanic w, .workerRelease w, .workerDone w] hr (by simp [run, h1, h2, h3])
  refine ⟨s1, s2, s3, h1, h2, h3, e1, e2, e3, e4, e5, e6, e7, ?_, ?_⟩
  · intro acts s4 hrun
    have hw3 : s3.workers[w]? = some .dead := by
      rw [e1]
      simp [hlt]
    obtain ⟨hdead, hmem⟩ := terminated_run acts s3 s4 hw3 (by rw [e7]; exact hlog) hrun
    have htok := (reachable_inv c opts s4 (reachable_run acts hr3 hrun)).2 t
    have ho := owed_le_one s4 t
    have hpos : 0 < logCount s4 t :=
      List.countP_pos_iff.mpr ⟨(w, t), hmem, by simp⟩
    simp only [tokens] at htok
    exact ⟨hdead, by omega, by omega, by omega, by omega⟩
  · intro hq
    have hq3 : s3.quit = false := by rw [e4]; exact hq
    have hL := liveInv_reachable c opts s hr
    have hd : s.ctor = .done :=
      slotInv_done_of hS (Or.inr (Or.inr (Or.inr (Or.inr (Or.inr (all_false_of_get _ hw rfl))))))
    rcases e2 with ⟨-, hc3, -⟩ | ⟨hm, hc3, ha3⟩
    · exact canAccept_acquired e8 hq3 e9 hc3
    · have hb := hS.bound
      refine canAccept_ctrl e8 hq3 e9 ?_ ?_ ?_ (Or.inl (by omega)) <;> rw [hc3]
      · exact hL.started hd
      · exact (hL.running hq).1
      · exact hm

theorem panic_confined_to_worker_witness :
    ∃ s1 s2 s3 : State,
      step (New 1 [.WithPreAllocWorkers true]) busyState (.taskPanic 0) = some s1 ∧
      step (New 1 [.WithPreAllocWorkers true]) s1 (.workerRelease 0) = some s2 ∧
      step (New 1 [.WithPreAllocWorkers true]) s2 (.workerDone 0) = some s3 ∧
      s3.workers = busyState.workers.set 0 .dead ∧
      ((busyState.ctrl = .mainParked ∧ s3.ctrl = .acquired false ∧
          s3.active = busyState.active) ∨
        (busyState.ctrl ≠ .mainParked ∧ s3.ctrl = busyState.ctrl ∧
          s3.active + 1 = busyState.active)) ∧
      s3.wg = busyState.wg - 1 ∧ s3.quit = busyState.quit ∧ s3.calls = busyState.calls ∧
      s3.reoffers = busyState.reoffers ∧ s3.log = busyState.log ∧
      (∀ (acts : List Action) (s4 : State),
        run (New 1 [.WithPreAllocWorkers true]) s3 acts = some s4 →
        s4.workers[0]? = some .dead ∧ reofferCount s4 0 = 0 ∧ callHolds s4 0 = 0 ∧
          s4.ctrl.holds 0 = 0 ∧ logCount s4 0 = 1) ∧
      (busyState.quit = false →
        CanAccept (New 1 [.WithPreAllocWorkers true]) s3 s3.calls.length) :=
  panic_confined_to_worker 1 [.WithPreAllocWorkers true] busyState 0 0 ⟨busyTrace, by decide⟩
    rfl rfl

end workerpool

/-! # tcp-server: theorems -/

namespace frame

open golang

theorem wrapInt32_of_range {x : Int} (h1 : -2147483648 ≤ x) (h2 : x ≤ 2147483647) :
    wrapInt32 x = x := by
  unfold wrapInt32
  omega

theorem getInt32_putInt32 {v : Int} (h1 : 0 ≤ v) (h2 : v ≤ 2147483647) :
    (putInt32 v).foldl (fun acc b => acc * 256 + b.val) 0 = v.toNat ∧
      getInt32 (putInt32 v) = v := by
  have key : (putInt32 v).foldl (fun acc b => acc * 256 + b.val) 0 = v.toNat := by
    simp only [putInt32, List.foldl_cons, List.foldl_nil, byteOf]
    have : (v % 4294967296).toNat = v.toNat := by omega
    rw [this]
    omega
  refine ⟨key, ?_⟩
  unfold getInt32
  rw [key]
  unfold wrapInt32
  omega

theorem encode_accepting (out p : List Byte) :
    Encode (accepting out) p =
      (none, accepting (out ++ putInt32 (wrapInt32 (wrapInt32 p.length + 4)) ++ p)) := by
  simp [Encode, binaryWrite, Writer.Write, accepting]

theorem readFull_append (bs rest : List Byte) (c : Closing) :
    ReadFull { data := bs ++ rest, closing := c } bs.length =
      (bs, none, { data := rest, closing := c }) := by
  simp [ReadFull]

/-- C13: for a payload p with len(p) + 4 at most 2^31 - 1 and a writer that
accepts every byte, Encode returns nil and appends exactly 4 + len(p) bytes to
the output: four bytes whose big-endian value is len(p) + 4, then p. -/
theorem encode_wire_format (out p : List Byte) (h : (p.length : Int) + 4 ≤ 2147483647) :
    (Encode (accepting out) p).1 = none ∧
      (Encode (accepting out) p).2.written = out ++ putInt32 (p.length + 4) ++ p ∧
      (putInt32 (p.length + 4) ++ p).length = 4 + p.length ∧
      (putInt32 (p.length + 4)).length = 4 ∧
      (putInt32 (p.length + 4)).foldl (fun acc b => acc * 256 + b.val) 0 = p.length + 4 := by
  have hw : wrapInt32 (wrapInt32 p.length + 4) = (p.length : Int) + 4 := by
    have h1 : wrapInt32 (p.length : Int) = p.length := wrapInt32_of_range (by omega) (by omega)
    rw [h1, wrapInt32_of_range (by omega) (by omega)]
  have hv := (getInt32_putInt32 (v := (p.length : Int) + 4) (by omega) h).1
  rw [encode_accepting, hw]
  refine ⟨rfl, rfl, ?_, rfl, ?_⟩
  · simp [putInt32]
    omega
  · rw [hv]
    omega

theorem encode_wire_format_witness :
    (Encode (accepting []) [1, 2, 3]).1 = none ∧
      (Encode (accepting []) [1, 2, 3]).2.written =
        [] ++ putInt32 (([1, 2, 3] : List Byte).length + 4) ++ [1, 2, 3] ∧
      (putInt32 (([1, 2, 3] : List Byte).length + 4) ++ [1, 2, 3]).length = 4 + 3 ∧
      (putInt32 (([1, 2, 3] : List Byte).length + 4)).length = 4 ∧
      (putInt32 (([1, 2, 3] : List Byte).length + 4)).foldl (fun acc b => acc * 256 + b.val) 0 =
        3 + 4 :=
  encode_wire_format [] [1, 2, 3] (by decide)

theorem wrapInt32_range (x : Int) : -2147483648 ≤ wrapInt32 x ∧ wrapInt32 x ≤ 2147483647 := by
  unfold wrapInt32
  omega

theorem binaryRead_header (b0 b1 b2 b3 : Byte) (rest : List Byte) (c : Closing) :
    binaryRead { data := b0 :: b1 :: b2 :: b3 :: rest, closing := c } =
      (getInt32 [b0, b1, b2, b3], none, { data := rest, closing := c }) := by
  simp [binaryRead, ReadFull]

/-- The outcome of a read of `n` bytes that `Decode` turns into its own. -/
theorem decode_of_header {r r1 : Reader} {L : Int} (hb : binaryRead r = (L, none, r1))
    (n : Nat) (hn : wrapInt32 (L - 4) = n) :
    Decode r =
      if n ≤ r1.data.length then
        .ret (.ok (r1.data.take n), { data := r1.data.drop n, closing := r1.closing })
      else
        match r1.closing with
        | .fails code => .ret (.error (.other code), { data := [], closing := r1.closing })
        | .eof =>
          if r1.data.length = 0 then .ret (.error .EOF, r1)
          else .ret (.error .ErrUnexpectedEOF, { data := [], closing := r1.closing }) := by
  obtain ⟨d, c⟩ := r1
  unfold Decode
  rw [hb]
  simp only [hn, makeSlice]
  have h0 : ¬ ((n : Int) < 0) := by omega
  simp only [h0, if_false, Int.toNat_ofNat, ReadFull]
  by_cases hle : n ≤ d.length
  · simp [hle]
  · simp only [hle, if_false]
    cases c with
    | fails code => rfl
    | eof =>
      simp only
      by_cases hz : d.length = 0
      · simp [hz]
      · simp [hz]

theorem decode_fault_of_header {r r1 : Reader} {L : Int} (hb : binaryRead r = (L, none, r1))
    (hneg : wrapInt32 (L - 4) < 0) : Decode r = .fault := by
  unfold Decode
  rw [hb]
  simp only [makeSlice, hneg, if_true]

theorem binaryRead_putInt32 (v : Int) (tail : List Byte) (c : Closing) :
    binaryRead { data := putInt32 v ++ tail, closing := c } =
      (getInt32 (putInt32 v), none, { data := tail, closing := c }) :=
  binaryRead_header _ _ _ _ tail c

/-- C12: for a payload p with len(p) + 4 at most 2^31 - 1, Encode to a writer
that accepts every byte returns nil and writes len(p) + 4 bytes, and Decode on
those bytes followed by any further bytes returns p with a nil error and leaves
exactly the further bytes unread. -/
theorem frame_round_trip (p rest : List Byte) (c : Closing)
    (h : (p.length : Int) + 4 ≤ 2147483647) :
    (Encode (accepting []) p).1 = none ∧
      (Encode (accepting []) p).2.written.length = p.length + 4 ∧
      Decode { data := (Encode (accepting []) p).2.written ++ rest, closing := c } =
        .ret (.ok p, { data := rest, closing := c }) := by
  have hw : wrapInt32 (wrapInt32 p.length + 4) = (p.length : Int) + 4 := by
    have h1 : wrapInt32 (p.length : Int) = p.length := wrapInt32_of_range (by omega) (by omega)
    rw [h1, wrapInt32_of_range (by omega) (by omega)]
  have hv := (getInt32_putInt32 (v := (p.length : Int) + 4) (by omega) h).2
  have hb := binaryRead_putInt32 ((p.length : Int) + 4) (p ++ rest) c
  rw [hv] at hb
  have hn : wrapInt32 ((p.length : Int) + 4 - 4) = p.length := by
    rw [wrapInt32_of_range (by omega) (by omega)]
    omega
  have hd := decode_of_header hb p.length hn
  rw [encode_accepting, hw]
  refine ⟨rfl, ?_, ?_⟩
  · simp [accepting, putInt32]
  · simp only [accepting, List.nil_append, List.append_assoc]
    rw [hd]
    simp

theorem frame_round_trip_witness :
    (Encode (accepting []) [1, 2, 3]).1 = none ∧
      (Encode (accepting []) [1, 2, 3]).2.written.length = ([1, 2, 3] : List Byte).length + 4 ∧
      Decode { data := (Encode (accepting []) [1, 2, 3]).2.written ++ [9, 9], closing := .eof } =
        .ret (.ok [1, 2, 3], { data := [9, 9], closing := .eof }) :=
  frame_round_trip [1, 2, 3] [9, 9] .eof (by decide)

/-- C19 (counterexample): the header 0x80000000 is the int32 -2^31, below 4,
but totalLen - 4 wraps around to 2^31 - 4 and Decode returns a read error
instead of faulting. -/
theorem decode_wrapped_header_returns :
    getInt32 [0x80, 0, 0, 0] = -2147483648 ∧
      Decode { data := [0x80, 0, 0, 0, 1, 2, 3], closing := .eof } =
        .ret (.error .ErrUnexpectedEOF, { data := [], closing := .eof }) := by
  have hL : getInt32 [0x80, 0, 0, 0] = -2147483648 := by decide
  have hb := binaryRead_header 0x80 0 0 0 [1, 2, 3] .eof
  rw [hL] at hb
  refine ⟨hL, ?_⟩
  rw [decode_of_header hb 2147483644 (by decide)]
  rfl

/-- C19 (amended): let L be the big-endian int32 of the first four bytes of the
stream. Decode never returns ErrShortRead. If L is at least 4, Decode does not
fault: it returns the next L - 4 bytes when the stream has them, and otherwise
the error of the read. If L is below 4 and at least -2^31 + 4, Decode faults in
make. If L is below -2^31 + 4, totalLen - 4 wraps around to L - 4 + 2^32 and
Decode does not fault: it returns the next L - 4 + 2^32 bytes when the stream
has them, and otherwise the error of the read. -/
theorem decode_by_header (b0 b1 b2 b3 : Byte) (rest : List Byte) (c : Closing) (L : Int)
    (hL : getInt32 [b0, b1, b2, b3] = L) :
    (∀ r1 : Reader,
        Decode { data := b0 :: b1 :: b2 :: b3 :: rest, closing := c } ≠
          .ret (.error .ErrShortRead, r1)) ∧
      (4 ≤ L →
        ((L - 4).toNat ≤ rest.length →
          Decode { data := b0 :: b1 :: b2 :: b3 :: rest, closing := c } =
            .ret (.ok (rest.take (L - 4).toNat),
              { data := rest.drop (L - 4).toNat, closing := c })) ∧
        (rest.length < (L - 4).toNat →
          ∃ (e : IOError) (r1 : Reader),
            Decode { data := b0 :: b1 :: b2 :: b3 :: rest, closing := c } = .ret (.error e, r1) ∧
              (e = .EOF ∨ e = .ErrUnexpectedEOF ∨ ∃ code, e = .other code))) ∧
      (L < 4 → -2147483644 ≤ L →
        Decode { data := b0 :: b1 :: b2 :: b3 :: rest, closing := c } = .fault) ∧
      (L < -2147483644 →
        ((L - 4 + 4294967296).toNat ≤ rest.length →
          Decode { data := b0 :: b1 :: b2 :: b3 :: rest, closing := c } =
            .ret (.ok (rest.take (L - 4 + 4294967296).toNat),
              { data := rest.drop (L - 4 + 4294967296).toNat, closing := c })) ∧
        (rest.length < (L - 4 + 4294967296).toNat →
          ∃ (e : IOError) (r1 : Reader),
            Decode { data := b0 :: b1 :: b2 :: b3 :: rest, closing := c } = .ret (.error e, r1) ∧
              (e = .EOF ∨ e = .ErrUnexpectedEOF ∨ ∃ code, e = .other code))) := by
  have hr : -2147483648 ≤ getInt32 [b0, b1, b2, b3] ∧ getInt32 [b0, b1, b2, b3] ≤ 2147483647 :=
    wrapInt32_range _
  have hb := binaryRead_header b0 b1 b2 b3 rest c
  rw [hL] at hr hb
  generalize Reader.mk (b0 :: b1 :: b2 :: b3 :: rest) c = r at hb ⊢
  have hcases : ∀ n : Nat, wrapInt32 (L - 4) = n →
      (n ≤ rest.length →
        Decode r = .ret (.ok (rest.take n), { data := rest.drop n, closing := c })) ∧
      (rest.length < n → ∃ (e : IOError) (r1 : Reader), Decode r = .ret (.error e, r1) ∧
        (e = .EOF ∨ e = .ErrUnexpectedEOF ∨ ∃ code, e = .other code)) := by
    intro n hn
    have hd := decode_of_header hb n hn
    constructor
    · intro hle
      rw [hd]
      simp [hle]
    · intro hlt
      have hnle : ¬ n ≤ rest.length := by omega
      rw [hd]
      simp only [hnle, if_false]
      cases c with
      | fails code => exact ⟨_, _, rfl, Or.inr (Or.inr ⟨code, rfl⟩)⟩
      | eof =>
        by_cases hz : rest.length = 0
        · exact ⟨.EOF, { data := rest, closing := .eof }, by simp [hz], Or.inl rfl⟩
        · exact ⟨.ErrUnexpectedEOF, { data := [], closing := .eof }, by simp [hz],
            Or.inr (Or.inl rfl)⟩
  have hshort : ∀ n : Nat, wrapInt32 (L - 4) = n →
      ∀ r1 : Reader, Decode r ≠ .ret (.error .ErrShortRead, r1) := by
    intro n hn r1 hbad
    obtain ⟨hok, herr⟩ := hcases n hn
    by_cases hle : n ≤ rest.length
    · rw [hok hle] at hbad
      cases hbad
    · obtain ⟨e, r2, he, hkind⟩ := herr (by omega)
      rw [he] at hbad
      injection hbad with hbad
      injection hbad with hbad _
      injection hbad with hbad
      subst hbad
      rcases hkind with hk | hk | ⟨code, hk⟩ <;> cases hk
  have hhigh : 4 ≤ L → wrapInt32 (L - 4) = ((L - 4).toNat : Nat) := by
    intro h4
    rw [wrapInt32_of_range (by omega) (by omega)]
    omega
  have hwrap : L < -2147483644 → wrapInt32 (L - 4) = ((L - 4 + 4294967296).toNat : Nat) := by
    intro hlow
    unfold wrapInt32
    omega
  have hfault : L < 4 → -2147483644 ≤ L → Decode r = .fault := fun h4 hlow =>
    decode_fault_of_header hb (by rw [wrapInt32_of_range (by omega) (by omega)]; omega)
  refine ⟨fun r1 => ?_, fun h4 => hcases _ (hhigh h4), hfault, fun hlow => hcases _ (hwrap hlow)⟩
  by_cases h4 : 4 ≤ L
  · exact hshort _ (hhigh h4) r1
  · by_cases hlow : -2147483644 ≤ L
    · rw [hfault (by omega) hlow]
      intro hbad
      cases hbad
    · exact hshort _ (hwrap (by omega)) r1

/-- The three ranges of the header at concrete streams: header 7 gives the next
three bytes, header 3 faults, header -2^31 wraps around and gives the error of
the read. -/
theorem decode_by_header_witness :
    Decode { data := [0, 0, 0, 7, 1, 2, 3, 9], closing := .eof } =
        .ret (.ok [1, 2, 3], { data := [9], closing := .eof }) ∧
      Decode { data := [0, 0, 0, 3, 1, 2, 3, 9], closing := .eof } = .fault ∧
      (∃ (e : IOError) (r1 : Reader),
        Decode { data := [0x80, 0, 0, 0, 1, 2, 3], closing := .fails 5 } = .ret (.error e, r1) ∧
          (e = .EOF ∨ e = .ErrUnexpectedEOF ∨ ∃ code, e = .other code)) ∧
      ∀ r1 : Reader,
        Decode { data := [0x80, 0, 0, 0, 1, 2, 3], closing := .fails 5 } ≠
          .ret (.error .ErrShortRead, r1) :=
  ⟨((decode_by_header 0 0 0 7 [1, 2, 3, 9] .eof 7 (by decide)).2.1 (by decide)).1 (by decide),
    (decode_by_header 0 0 0 3 [1, 2, 3, 9] .eof 3 (by decide)).2.2.1 (by decide) (by decide),
    ((decode_by_header 0x80 0 0 0 [1, 2, 3] (.fails 5) (-2147483648) (by decide)).2.2.2
      (by decide)).2 (by decide),
    (decode_by_header 0x80 0 0 0 [1, 2, 3] (.fails 5) (-2147483648) (by decide)).1⟩

end frame

namespace packet

open golang

theorem decode_cons (pooled : Submit) (c : Byte) (body : List Byte) :
    Decode pooled (c :: body) =
      if c = CommandConn then .ret (none, none)
      else if c = CommandConnAck then .ret (none, none)
      else if c = CommandSubmit then
        match pooled.Decode body with
        | .fault => .fault
        | .ret (_, some err) => .ret (none, some err)
        | .ret (s, none) => .ret (some (.submit s), none)
      else if c = CommandSubmitAck then
        match ({ ID := [], Result := 0 } : SubmitAck).Decode body with
        | .fault => .fault
        | .ret (_, some err) => .ret (none, some err)
        | .ret (s, none) => .ret (some (.submitAck s), none)
      else .ret (none, some (.unknownCommand c)) := by
  simp [Decode, index, sliceFrom]

theorem submit_decode_eq (pooled : Submit) (body : List Byte) :
    pooled.Decode body =
      if 8 ≤ body.length then .ret ({ ID := body.take 8, Payload := body.drop 8 }, none)
      else .fault := by
  unfold Submit.Decode sliceTo sliceFrom
  by_cases h : 8 ≤ body.length <;> simp [h]

theorem submitAck_decode_eq (a : SubmitAck) (body : List Byte) :
    a.Decode body =
      match body[8]? with
      | some res => .ret ({ ID := body.take 8, Result := res }, none)
      | none => .fault := by
  unfold SubmitAck.Decode sliceTo index
  by_cases h : 8 < body.length
  · have h8 : 8 ≤ body.length := by omega
    simp [h, h8]
  · have hnone : body[8]? = none := List.getElem?_eq_none (by omega)
    rw [hnone]
    by_cases h8 : 8 ≤ body.length <;> simp [h8]

theorem decode_submit_bytes (pooled : Submit) (id payload : List Byte) (hid : id.length = 8) :
    Decode pooled ([0x02] ++ id ++ payload) =
      .ret (some (.submit { ID := id, Payload := payload }), none) := by
  have hlen : 8 ≤ (id ++ payload).length := by simp [hid]
  have ht : (id ++ payload).take 8 = id := by rw [← hid]; simp
  have hdr : (id ++ payload).drop 8 = payload := by rw [← hid]; simp
  have hd := decode_cons pooled 0x02 (id ++ payload)
  rw [submit_decode_eq, if_pos hlen, ht, hdr] at hd
  simpa [CommandConn, CommandConnAck, CommandSubmit] using hd

theorem decode_submitAck_bytes (pooled : Submit) (id : List Byte) (res : Byte)
    (hid : id.length = 8) :
    Decode pooled ([0x82] ++ id ++ [res]) =
      .ret (some (.submitAck { ID := id, Result := res }), none) := by
  have h8 : (id ++ [res])[8]? = some res := by rw [← hid]; simp
  have ht : (id ++ [res]).take 8 = id := by rw [← hid]; simp
  have hd := decode_cons pooled 0x82 (id ++ [res])
  rw [submitAck_decode_eq, h8, ht] at hd
  simpa [CommandConn, CommandConnAck, CommandSubmit, CommandSubmitAck] using hd

theorem encode_submit_bytes (id payload : List Byte) (hid : id.length = 8) :
    Encode (some (.submit { ID := id, Payload := payload })) =
      .ret (some ([0x02] ++ id ++ payload), none) := by
  have e1 : sliceTo id 8 = .ret id := by simp [sliceTo, hid]
  simp [Encode, Submit.Encode, e1, CommandSubmit]

theorem encode_submitAck_bytes (id : List Byte) (res : Byte) (hid : id.length = 8) :
    Encode (some (.submitAck { ID := id, Result := res })) =
      .ret (some ([0x82] ++ id ++ [res]), none) := by
  have e2 : sliceTo id 8 = .ret id := by simp [sliceTo, hid]
  simp [Encode, SubmitAck.Encode, e2, CommandSubmitAck]

/-- C14: a Submit with an 8-byte ID encodes to 0x02, the ID, the payload, and
decodes back to the same ID and Payload with a nil error; a SubmitAck with an
8-byte ID encodes to 0x82, the ID, the result byte, and decodes back to the
same ID and Result with a nil error. -/
theorem packet_round_trip (pooled s : Submit) (a : SubmitAck)
    (hs : s.ID.length = 8) (ha : a.ID.length = 8) :
    Encode (some (.submit s)) = .ret (some ([0x02] ++ s.ID ++ s.Payload), none) ∧
      Decode pooled ([0x02] ++ s.ID ++ s.Payload) = .ret (some (.submit s), none) ∧
      Encode (some (.submitAck a)) = .ret (some ([0x82] ++ a.ID ++ [a.Result]), none) ∧
      Decode pooled ([0x82] ++ a.ID ++ [a.Result]) = .ret (some (.submitAck a), none) := by
  obtain ⟨sid, spl⟩ := s
  obtain ⟨aid, ares⟩ := a
  exact ⟨encode_submit_bytes sid spl hs, decode_submit_bytes pooled sid spl hs,
    encode_submitAck_bytes aid ares ha, decode_submitAck_bytes pooled aid ares ha⟩

theorem packet_round_trip_witness :
    Encode (some (.submit { ID := [1, 2, 3, 4, 5, 6, 7, 8], Payload := [] })) =
        .ret (some ([0x02] ++ [1, 2, 3, 4, 5, 6, 7, 8] ++ []), none) ∧
      Decode { ID := [], Payload := [7] } ([0x02] ++ [1, 2, 3, 4, 5, 6, 7, 8] ++ []) =
        .ret (some (.submit { ID := [1, 2, 3, 4, 5, 6, 7, 8], Payload := [] }), none) ∧
      Encode (some (.submitAck { ID := [1, 2, 3, 4, 5, 6, 7, 8], Result := 5 })) =
        .ret (some ([0x82] ++ [1, 2, 3, 4, 5, 6, 7, 8] ++ [5]), none) ∧
      Decode { ID := [], Payload := [7] } ([0x82] ++ [1, 2, 3, 4, 5, 6, 7, 8] ++ [5]) =
        .ret (some (.submitAck { ID := [1, 2, 3, 4, 5, 6, 7, 8], Result := 5 }), none) :=
  packet_round_trip { ID := [], Payload := [7] } { ID := [1, 2, 3, 4, 5, 6, 7, 8], Payload := [] }
    { ID := [1, 2, 3, 4, 5, 6, 7, 8], Result := 5 } rfl rfl

theorem decode_nil (pooled : Submit) : Decode pooled [] = .fault := rfl

/-- `Decode` faults exactly on the empty packet, on a Submit body shorter than
8 bytes and on a SubmitAck body shorter than 9 bytes. -/
theorem decode_fault_iff (pooled : Submit) (c : Byte) (body : List Byte) :
    Decode pooled (c :: body) = .fault ↔
      (c = 0x02 ∧ body.length < 8) ∨ (c = 0x82 ∧ body.length < 9) := by
  rw [decode_cons, submit_decode_eq, submitAck_decode_eq]
  by_cases h1 : c = 0x01
  · subst h1
    simp [CommandConn]
  by_cases h2 : c = 0x81
  · subst h2
    simp [CommandConn, CommandConnAck]
  by_cases h3 : c = 0x02
  · subst h3
    by_cases hl : 8 ≤ body.length
    · have : ¬ body.length < 8 := by omega
      simp [CommandConn, CommandConnAck, CommandSubmit, hl, this]
    · have : body.length < 8 := by omega
      simp [CommandConn, CommandConnAck, CommandSubmit, hl, this]
  by_cases h4 : c = 0x82
  · subst h4
    cases hb : body[8]? with
    | none =>
      have : body.length < 9 := by
        have := List.getElem?_eq_none_iff.mp hb
        omega
      simp [CommandConn, CommandConnAck, CommandSubmit, CommandSubmitAck, this]
    | some res =>
      have : ¬ body.length < 9 := by
        intro hlt
        have hn : body[8]? = none := List.getElem?_eq_none (by omega)
        rw [hn] at hb
        cases hb
      simp [CommandConn, CommandConnAck, CommandSubmit, CommandSubmitAck, this]
  · simp [CommandConn, CommandConnAck, CommandSubmit, CommandSubmitAck, h1, h2, h3, h4]

/-- C15: a packet that Decode handles without an out-of-range access has a
first byte, and Decode returns; the error is non-nil exactly when the first
byte is none of 0x01, 0x02, 0x81, 0x82, and then the Packet is nil; for 0x01
and 0x81 both the Packet and the error are nil. -/
theorem decode_error_iff_unknown_command (pooled : Submit) (pkt : List Byte)
    (hlong : Decode pooled pkt ≠ .fault) :
    ∃ (c : Byte) (body : List Byte) (p : Option Packet) (e : Option PacketError),
      pkt = c :: body ∧ Decode pooled pkt = .ret (p, e) ∧
        (e ≠ none ↔ (c ≠ 0x01 ∧ c ≠ 0x02 ∧ c ≠ 0x81 ∧ c ≠ 0x82)) ∧
        (e ≠ none → p = none) ∧
        (c = 0x01 ∨ c = 0x81 → p = none ∧ e = none) := by
  cases pkt with
  | nil => exact absurd (decode_nil pooled) hlong
  | cons c body =>
    have hf := decode_fault_iff pooled c body
    have hd := decode_cons pooled c body
    rw [submit_decode_eq, submitAck_decode_eq] at hd
    by_cases h1 : c = 0x01
    · subst h1
      exact ⟨_, _, none, none, rfl, by simpa [CommandConn] using hd, by simp, by simp, by simp⟩
    by_cases h2 : c = 0x81
    · subst h2
      exact ⟨_, _, none, none, rfl, by simpa [CommandConn, CommandConnAck] using hd,
        by simp, by simp, by simp⟩
    by_cases h3 : c = 0x02
    · subst h3
      have hl : 8 ≤ body.length := by
        by_contra hl
        exact hlong (hf.mpr (Or.inl ⟨rfl, by omega⟩))
      rw [if_pos hl] at hd
      exact ⟨_, _, some (.submit { ID := body.take 8, Payload := body.drop 8 }), none, rfl,
        by simpa [CommandConn, CommandConnAck, CommandSubmit] using hd, by simp, by simp,
        by simp⟩
    by_cases h4 : c = 0x82
    · subst h4
      cases hb : body[8]? with
      | none =>
        refine absurd (hf.mpr (Or.inr ⟨rfl, ?_⟩)) hlong
        have := List.getElem?_eq_none_iff.mp hb
        omega
      | some res =>
        rw [hb] at hd
        exact ⟨_, _, some (.submitAck { ID := body.take 8, Result := res }), none, rfl,
          by simpa [CommandConn, CommandConnAck, CommandSubmit, CommandSubmitAck] using hd,
          by simp, by simp, by simp⟩
    · exact ⟨c, body, none, some (.unknownCommand c), rfl,
        by simpa [CommandConn, CommandConnAck, CommandSubmit, CommandSubmitAck, h1, h2, h3, h4]
          using hd,
        by simp [h1, h2, h3, h4], by simp, by simp [h1, h2]⟩

theorem decode_error_iff_unknown_command_witness :
    ∃ (c : Byte) (body : List Byte) (p : Option Packet) (e : Option PacketError),
      ([0x7f, 1, 2] : List Byte) = c :: body ∧
        Decode { ID := [], Payload := [] } [0x7f, 1, 2] = .ret (p, e) ∧
        (e ≠ none ↔ (c ≠ 0x01 ∧ c ≠ 0x02 ∧ c ≠ 0x81 ∧ c ≠ 0x82)) ∧
        (e ≠ none → p = none) ∧
        (c = 0x01 ∨ c = 0x81 → p = none ∧ e = none) :=
  decode_error_iff_unknown_command { ID := [], Payload := [] } [0x7f, 1, 2] (by decide)

end packet

namespace server

open golang packet

/-- C18: for a frame payload 0x02, an 8-byte id, any body, handlePacket returns
the ack payload 0x82, id, 0x00 with a nil error; for a payload with first byte
0x01, 0x81 or 0x82 that packet.Decode handles without an out-of-range access it
returns a nil payload and the error "unknown packet type". -/
theorem handlePacket_ack (pooled : Submit) (id body rest : List Byte) (c : Byte)
    (hid : id.length = 8) (hc : c = 0x01 ∨ c = 0x81 ∨ c = 0x82)
    (hdec : packet.Decode pooled (c :: rest) ≠ .fault) :
    handlePacket pooled ([0x02] ++ id ++ body) = .ret (some ([0x82] ++ id ++ [0x00]), none) ∧
      handlePacket pooled (c :: rest) = .ret (none, some .unknownPacketType) := by
  constructor
  · have hd := decode_submit_bytes pooled id body hid
    have he := encode_submitAck_bytes id 0 hid
    unfold handlePacket
    rw [hd]
    simp only [he]
  · have hf := decode_fault_iff pooled c rest
    have hd := decode_cons pooled c rest
    rw [submit_decode_eq, submitAck_decode_eq] at hd
    unfold handlePacket
    rcases hc with h | h | h
    · subst h
      have hd2 : packet.Decode pooled (0x01 :: rest) = .ret (none, none) := by
        simpa [CommandConn] using hd
      rw [hd2]
    · subst h
      have hd2 : packet.Decode pooled (0x81 :: rest) = .ret (none, none) := by
        simpa [CommandConn, CommandConnAck] using hd
      rw [hd2]
    · subst h
      cases hb : rest[8]? with
      | none =>
        refine absurd (hf.mpr (Or.inr ⟨rfl, ?_⟩)) hdec
        have := List.getElem?_eq_none_iff.mp hb
        omega
      | some res =>
        rw [hb] at hd
        have hd2 : packet.Decode pooled (0x82 :: rest) =
            .ret (some (.submitAck { ID := rest.take 8, Result := res }), none) := by
          simpa [CommandConn, CommandConnAck, CommandSubmit, CommandSubmitAck] using hd
        rw [hd2]

theorem handlePacket_ack_witness :
    handlePacket { ID := [], Payload := [] } ([0x02] ++ [1, 2, 3, 4, 5, 6, 7, 8] ++ [9, 10]) =
        .ret (some ([0x82] ++ [1, 2, 3, 4, 5, 6, 7, 8] ++ [0x00]), none) ∧
      handlePacket { ID := [], Payload := [] } (0x82 :: [1, 2, 3, 4, 5, 6, 7, 8, 1]) =
        .ret (none, some .unknownPacketType) :=
  handlePacket_ack { ID := [], Payload := [] } [1, 2, 3, 4, 5, 6, 7, 8] [9, 10]
    [1, 2, 3, 4, 5, 6, 7, 8, 1] 0x82 rfl (Or.inr (Or.inr rfl)) (by decide)

end server
